import Mathlib

/-!
# cgroup input plugin: layout detection, parsing and directory aggregation

A shallow embedding of `cgroup.go`.

* File content (`[]byte`) is a `List Char`.  Every pattern of the format table
  only accepts ASCII characters, so reading the content rune by rune or byte by
  byte makes no difference to what matches.
* Go strings used as names, paths and map keys are `String`.
* `interface{}` values stored in field maps are `Iface`.
* Go maps are association lists with unique keys, kept in insertion order.
* The filesystem is a function from a path to the result of `ioutil.ReadFile`;
  `filepath.Glob` and `os.Stat` are two more such functions (`Env`).
* The accumulator is the list of records passed to `AddFields`, oldest first.
* `generateDirs` is the list of items it sends on its channel, with a flag that
  tells whether it closed the channel; `Rule.gather` consumes that list.  The
  interplay of the two tasks over the unbuffered channel is a step function on
  `GatherState`, shown to agree with `Rule.gather`.
-/

namespace Cgroup

/-! ## Regular expressions (the fragment of Go `regexp` syntax used by the table) -/

/-- A bracket expression: a list of inclusive character ranges. -/
abbrev CharClass := List (Char × Char)

/-- Membership of a character in a bracket expression. -/
def CharClass.mem (cc : CharClass) (c : Char) : Bool :=
  cc.any (fun r => decide (r.1.toNat ≤ c.toNat) && decide (c.toNat ≤ r.2.toNat))

/-- Regular expression syntax trees.  `bot` is `^` and `eot` is `$` (without the
`m` flag both refer to the whole text), `grp i` is the capturing group that
fills slot `i` (slot `0` is the first parenthesis of the pattern). -/
inductive Regex where
  | bot : Regex
  | eot : Regex
  | lit : Char → Regex
  | cls : CharClass → Regex
  | seq : Regex → Regex → Regex
  | plus : Regex → Regex
  | grp : Nat → Regex → Regex

/-- Capture slots: the text last matched by each group. -/
abbrev Caps := List (List Char)

/-- Result of a match attempt: the unread rest of the text and the captures. -/
abbrev MatchEnd := List Char × Caps

/-- Continuation of a match attempt. -/
abbrev Cont := List Char → Caps → Option MatchEnd

/-- Greedy iteration `x+`: run the body once, then prefer one more iteration
over leaving the loop.  An iteration that consumed nothing is not repeated. -/
def plusLoop (step : List Char → Caps → Cont → Option MatchEnd) :
    Nat → List Char → Caps → Cont → Option MatchEnd
  | 0, s, c, k => step s c k
  | f + 1, s, c, k =>
    step s c (fun s' c' =>
      match (if s'.length < s.length then plusLoop step f s' c' k else none) with
      | some r => some r
      | none => k s' c')

/-- Backtracking matcher with leftmost-first (Perl-like) preference.  `n` is the
length of the whole text, `s` the unread rest, `c` the capture slots. -/
def Regex.run (n : Nat) : Regex → List Char → Caps → Cont → Option MatchEnd
  | .bot, s, c, k => if s.length = n then k s c else none
  | .eot, s, c, k =>
    match s with
    | [] => k [] c
    | _ :: _ => none
  | .lit a, s, c, k =>
    match s with
    | [] => none
    | x :: s' => if x = a then k s' c else none
  | .cls cc, s, c, k =>
    match s with
    | [] => none
    | x :: s' => if cc.mem x then k s' c else none
  | .seq a b, s, c, k => a.run n s c (fun s' c' => b.run n s' c' k)
  | .plus a, s, c, k => plusLoop (fun s1 c1 k1 => a.run n s1 c1 k1) s.length s c k
  | .grp i a, s, c, k =>
    a.run n s c (fun s' c' => k s' (c'.set i (s.take (s.length - s'.length))))

/-- Number of capture slots a pattern needs. -/
def Regex.numCap : Regex → Nat
  | .bot => 0
  | .eot => 0
  | .lit _ => 0
  | .cls _ => 0
  | .seq a b => max a.numCap b.numCap
  | .plus a => a.numCap
  | .grp i a => max (i + 1) a.numCap

/-- Match attempt that starts exactly at the position whose unread rest is `s`. -/
def Regex.matchAt (re : Regex) (n : Nat) (s : List Char) : Option MatchEnd :=
  re.run n s (List.replicate re.numCap []) (fun s' c' => some (s', c'))

/-- Leftmost match at or after the position whose unread rest is `s`: the rest at
the start of the match, the rest at its end, and the captures. -/
def Regex.search (re : Regex) (n : Nat) : List Char → Option (List Char × MatchEnd)
  | [] => (re.matchAt n []).map (fun r => ([], r))
  | x :: s =>
    match re.matchAt n (x :: s) with
    | some r => some (x :: s, r)
    | none => re.search n s

/-- Model of `regexp.Match(pattern, b)` for a pattern that compiles: does the
pattern match somewhere in `b`. -/
def regexpMatch (re : Regex) (b : List Char) : Bool :=
  (re.search b.length b).isSome

/-- Loop of `Regexp.allMatches`: `s` is the rest at `pos`, `prev` is the length
of the rest at `prevMatchEnd`. -/
def allMatches (re : Regex) (n : Nat) :
    Nat → List Char → Option Nat → List (List String)
  | 0, _, _ => []
  | fuel + 1, s, prev =>
    match re.search n s with
    | none => []
    | some (s0, s1, caps) =>
      let m := (String.mk (s0.take (s0.length - s1.length))) :: caps.map String.mk
      if s1.length = s.length then
        let later :=
          match s with
          | [] => []
          | _ :: s' => allMatches re n fuel s' (some s1.length)
        if prev = some s0.length then later else m :: later
      else
        m :: allMatches re n fuel s1 (some s1.length)

/-- Model of `re.FindAllStringSubmatch(string(b), -1)`: every successive
non-overlapping match, each as the matched text followed by its groups. -/
def FindAllStringSubmatch (re : Regex) (b : List Char) : List (List String) :=
  allMatches re b.length (b.length + 1) b none

/-- `x{2,}`, which Go simplifies to `xx+`. -/
def Regex.atLeast2 (a : Regex) : Regex := .seq a (.plus a)

/-! ## Values, maps and number conversion -/

/-- A Go `interface{}` holding what this program stores in field maps. -/
inductive Iface where
  | nil : Iface
  | int : Int → Iface
  | str : String → Iface
  deriving DecidableEq, Repr

/-- `map[string]interface{}` -/
abbrev FieldMap := List (String × Iface)

/-- `map[string]string` -/
abbrev TagMap := List (String × String)

/-- Go `m[k] = v`: overwrite the entry of `k` or add one. -/
def mapSet {α : Type} : List (String × α) → String → α → List (String × α)
  | [], k, v => [(k, v)]
  | (k', v') :: t, k, v => if k' = k then (k', v) :: t else (k', v') :: mapSet t k v

/-- Go `v, ok := m[k]`. -/
def mapGet {α : Type} : List (String × α) → String → Option α
  | [], _ => none
  | (k', v') :: t, k => if k' = k then some v' else mapGet t k

/-- Go `m[k]` on a `map[string]interface{}`: the zero value `nil` when absent. -/
def mapIndex (m : FieldMap) (k : String) : Iface :=
  (mapGet m k).getD Iface.nil

/-- Value of a string of decimal digits scanned left to right, `none` when a
character is not a digit. -/
def parseDigits : List Char → Nat → Option Nat
  | [], acc => some acc
  | c :: cs, acc =>
    if 48 ≤ c.toNat ∧ c.toNat ≤ 57 then parseDigits cs (10 * acc + (c.toNat - 48)) else none

/-- Model of `strconv.Atoi` for a 64-bit `int` (the test data holds values beyond
32 bits): an optional `+` or `-`, then one or more decimal digits, and the value
has to fit the type; `none` is a non-nil error. -/
def Atoi (s : String) : Option Int :=
  match s.data with
  | [] => none
  | c :: rest =>
    let ds := if c = '-' ∨ c = '+' then rest else c :: rest
    match ds with
    | [] => none
    | _ :: _ =>
      match parseDigits ds 0 with
      | none => none
      | some n =>
        let v : Int := if c = '-' then -(n : Int) else (n : Int)
        if -9223372036854775808 ≤ v ∧ v ≤ 9223372036854775807 then some v else none

/-- Model of `strconv.Itoa` on a slice index (never negative): the decimal text. -/
def Itoa (n : Nat) : String := Nat.repr n

/-- The source function `numberOrString`. -/
def numberOrString (s : String) : Iface :=
  match Atoi s with
  | some i => Iface.int i
  | none => Iface.str s

/-! ## The format table -/

/-- What a Go call can end with besides its results: a returned error or a
run-time panic. -/
inductive Fault where
  | error : String → Fault
  | panic : String → Fault
  deriving DecidableEq, Repr

deriving instance DecidableEq for Except

/-- The source type `fileFormat`.  `pattern` is the parsed form of the pattern
string; `parser` yields `none` when the Go closure panics. -/
structure fileFormat where
  name : String
  pattern : Regex
  parser : List Char → Option (FieldMap × TagMap)

/-- `[[:alpha:]_]` -/
def keyClass : CharClass := [('A', 'Z'), ('a', 'z'), ('_', '_')]

/-- `[\d-]` -/
def valueClass : CharClass := [('0', '9'), ('-', '-')]

/-- `const keyPattern = "[[:alpha:]_]+"` -/
def keyPattern : Regex := .plus (.cls keyClass)

/-- `const valuePattern = "[\\d-]+"` -/
def valuePattern : Regex := .plus (.cls valueClass)

/-- The source function `createParser`. -/
def createParser (itemPattern : Regex)
    (fn : List (List String) → FieldMap → TagMap → Option (FieldMap × TagMap)) :
    List Char → Option (FieldMap × TagMap) :=
  fun b =>
    let ms := FindAllStringSubmatch itemPattern b
    fn ms [] []

/-- Callback of the first entry: `fields["value"] = numberOrString(matches[0][1])`. -/
def singleValueFn (ms : List (List String)) (fields : FieldMap) (tags : TagMap) :
    Option (FieldMap × TagMap) :=
  match ms[0]? with
  | none => none
  | some m =>
    match m[1]? with
    | none => none
    | some v => some (mapSet fields "value" (numberOrString v), tags)

/-- Loop `for i, v := range matches { fields["value_"+strconv.Itoa(i)] = numberOrString(v[1]) }`
from index `i` on. -/
def valueListLoop : List (List String) → Nat → FieldMap → Option FieldMap
  | [], _, fields => some fields
  | v :: rest, i, fields =>
    match v[1]? with
    | none => none
    | some x => valueListLoop rest (i + 1) (mapSet fields ("value_" ++ Itoa i) (numberOrString x))

/-- Callback of the second and third entries. -/
def valueListFn (ms : List (List String)) (fields : FieldMap) (tags : TagMap) :
    Option (FieldMap × TagMap) :=
  (valueListLoop ms 0 fields).map (fun f => (f, tags))

/-- Loop `for _, v := range matches { fields[v[1]] = numberOrString(v[2]) }`. -/
def keyValueLoop : List (List String) → FieldMap → Option FieldMap
  | [], fields => some fields
  | v :: rest, fields =>
    match v[1]?, v[2]? with
    | some k, some x => keyValueLoop rest (mapSet fields k (numberOrString x))
    | _, _ => none

/-- Callback of the fourth entry. -/
def keyValueFn (ms : List (List String)) (fields : FieldMap) (tags : TagMap) :
    Option (FieldMap × TagMap) :=
  (keyValueLoop ms fields).map (fun f => (f, tags))

/-- Entry `"Single value"`: pattern `^[\d-]+\n$`, items `^([\d-]+)\n$`. -/
def singleValueFormat : fileFormat where
  name := "Single value"
  pattern := .seq .bot (.seq valuePattern (.seq (.lit '\n') .eot))
  parser := createParser
    (.seq .bot (.seq (.grp 0 valuePattern) (.seq (.lit '\n') .eot))) singleValueFn

/-- Entry `"New line separated values"`: pattern `^([\d-]+\n){2,}$`, items `([\d-]+)\n`. -/
def newLineFormat : fileFormat where
  name := "New line separated values"
  pattern := .seq .bot (.seq (Regex.atLeast2 (.grp 0 (.seq valuePattern (.lit '\n')))) .eot)
  parser := createParser (.seq (.grp 0 valuePattern) (.lit '\n')) valueListFn

/-- Entry `"Space separated values"`: pattern `^([\d-]+ )+\n$`, items `([\d-]+) `. -/
def spaceFormat : fileFormat where
  name := "Space separated values"
  pattern := .seq .bot (.seq (.plus (.grp 0 (.seq valuePattern (.lit ' '))))
    (.seq (.lit '\n') .eot))
  parser := createParser (.seq (.grp 0 valuePattern) (.lit ' ')) valueListFn

/-- Entry `"New line separated key-space-value's"`: pattern
`^([[:alpha:]_]+ [\d-]+\n)+$`, items `([[:alpha:]_]+) ([\d-]+)\n`. -/
def keyValueFormat : fileFormat where
  name := "New line separated key-space-value's"
  pattern := .seq .bot (.seq (.plus (.grp 0
    (.seq keyPattern (.seq (.lit ' ') (.seq valuePattern (.lit '\n')))))) .eot)
  parser := createParser
    (.seq (.grp 0 keyPattern) (.seq (.lit ' ') (.seq (.grp 1 valuePattern) (.lit '\n'))))
    keyValueFn

/-- The source table `fileFormats`, in declaration order. -/
def fileFormats : List fileFormat :=
  [singleValueFormat, newLineFormat, spaceFormat, keyValueFormat]

/-- The source method `fileFormat.match`.  `regexp.Match` only fails when the
pattern does not compile, which none of the table's patterns does, so the error
result is always nil and is left out. -/
def fileFormat.«match» (f : fileFormat) (b : List Char) : Bool :=
  regexpMatch f.pattern b

/-- The source type `fileInfo`. -/
structure fileInfo where
  data : List Char
  path : String

/-- Loop of `fileInfo.format` over the entries still to try. -/
def fileInfo.formatLoop (d : fileInfo) : List fileFormat → Except Fault fileFormat
  | [] => .error (.error (d.path ++ ": unknown file format"))
  | f :: rest => if f.«match» d.data then .ok f else d.formatLoop rest

/-- The source method `fileInfo.format`. -/
def fileInfo.format (d : fileInfo) : Except Fault fileFormat :=
  d.formatLoop fileFormats

/-- The source method `fileInfo.parse`. -/
def fileInfo.parse (d : fileInfo) : Except Fault (FieldMap × TagMap) :=
  match d.format with
  | .error e => .error e
  | .ok format =>
    match format.parser d.data with
    | none => .error (.panic "index out of range")
    | some (f, t) => .ok (f, t)

/-! ## Paths and names -/

/-- Pieces of a text between occurrences of one separator character; never `[]`. -/
def splitChars (sep : Char) : List Char → List (List Char)
  | [] => [[]]
  | x :: s =>
    if x = sep then [] :: splitChars sep s
    else
      match splitChars sep s with
      | [] => [[x]]
      | h :: t => (x :: h) :: t

/-- Model of `strings.Split(s, sep)` for a one-character separator. -/
def stringsSplit (s : String) (sep : Char) : List String :=
  (splitChars sep s.data).map String.mk

/-- Element pass of `path.Clean`: `st` holds the elements kept so far, last first. -/
def cleanElems (rooted : Bool) : List (List Char) → List (List Char) → List (List Char)
  | [], st => st.reverse
  | e :: es, st =>
    if e = [] ∨ e = ['.'] then cleanElems rooted es st
    else if e = ['.', '.'] then
      match st with
      | top :: st' =>
        if top = ['.', '.'] then cleanElems rooted es (e :: st)
        else cleanElems rooted es st'
      | [] => if rooted then cleanElems rooted es [] else cleanElems rooted es [e]
    else cleanElems rooted es (e :: st)

/-- Model of `path.Clean`. -/
def pathClean (p : String) : String :=
  match p.data with
  | [] => "."
  | c :: _ =>
    let rooted : Bool := decide (c = '/')
    let out := (if rooted then ['/'] else []) ++
      List.intercalate ['/'] (cleanElems rooted (splitChars '/' p.data) [])
    match out with
    | [] => "."
    | _ :: _ => String.mk out

/-- Model of `path.Join(a, b)`: empty elements are ignored and the result is cleaned. -/
def pathJoin (a b : String) : String :=
  if a = "" ∧ b = "" then ""
  else if a = "" then pathClean b
  else if b = "" then pathClean a
  else pathClean (a ++ "/" ++ b)

/-! ## Rules and the directory aggregator -/

/-- The source type `Rule`. -/
structure Rule where
  Prefix : String
  Paths : List String
  Fields : List String

/-- One call of `acc.AddFields(measurement, fields, tags)`. -/
structure Record where
  measurement : String
  fields : FieldMap
  tags : TagMap
  deriving DecidableEq, Repr

/-- Model of `ioutil.ReadFile` on a given filesystem: the content or an error. -/
abbrev FileSystem := String → Except String (List Char)

/-- The source method `Rule.measurement`: `strings.Split(r.Fields[0], ".")[0]`. -/
def Rule.measurement (r : Rule) : Except Fault String :=
  match r.Fields with
  | [] => .error (.panic "index out of range")
  | f :: _ =>
    match stringsSplit f '.' with
    | [] => .error (.panic "index out of range")
    | m :: _ => .ok m

/-- Loop of `Rule.gatherDir` over the declared files still to read: the
single-value map, the accumulator and the error it stopped with, if any. -/
def gatherDirLoop (fs : FileSystem) (dir : String) :
    List String → FieldMap → List Record → FieldMap × List Record × Option Fault
  | [], singleValues, acc => (singleValues, acc, none)
  | file :: rest, singleValues, acc =>
    let filePath := pathJoin dir file
    match fs filePath with
    | .error e => (singleValues, acc, some (.error e))
    | .ok raw =>
      if raw.length = 0 then gatherDirLoop fs dir rest singleValues acc
      else
        match (fileInfo.mk raw filePath).parse with
        | .error e => (singleValues, acc, some e)
        | .ok (fields, tags) =>
          if fields.length = 1 then
            gatherDirLoop fs dir rest (mapSet singleValues file (mapIndex fields "value")) acc
          else
            gatherDirLoop fs dir rest singleValues
              (acc ++ [Record.mk ("cgroup:" ++ file) fields (mapSet tags "path" filePath)])

/-- The source method `Rule.gatherDir`: the accumulator afterwards and the
returned error (`none` is nil). -/
def Rule.gatherDir (r : Rule) (fs : FileSystem) (dir : String) (acc : List Record) :
    List Record × Option Fault :=
  match gatherDirLoop fs dir r.Fields [] acc with
  | (_, acc', some e) => (acc', some e)
  | (singleValues, acc', none) =>
    match r.measurement with
    | .error e => (acc', some e)
    | .ok m => (acc' ++ [Record.mk ("cgroup:" ++ m) singleValues [("path", dir)]], none)

/-- Files of the test directory `testdata/memory`, with the contents the test
`TestCgroupStatistics_1` expects. -/
def testFs : FileSystem := fun p =>
  if p = "testdata/memory/memory.empty" then .ok []
  else if p = "testdata/memory/memory.max_usage_in_bytes" then .ok "0\n-1\n2\n".toList
  else if p = "testdata/memory/memory.limit_in_bytes" then .ok "223372036854771712\n".toList
  else if p = "testdata/memory/memory.stat" then
    .ok "cache 1739362304123123123\nrss 1775325184\ndirty -307200\n".toList
  else if p = "testdata/memory/memory.use_hierarchy" then .ok "12-781\n".toList
  else .error ("open " ++ p ++ ": no such file or directory")

/-- First rule of the test configuration `cg1`. -/
def testRule : Rule where
  Prefix := "testdata/memory"
  Paths := ["/"]
  Fields := ["memory.empty", "memory.max_usage_in_bytes", "memory.limit_in_bytes",
    "memory.stat", "memory.use_hierarchy"]

/-! ## Configuration, path expansion and the gather cycle -/

/-- Model of `unicode.IsSpace`. -/
def isSpace (c : Char) : Bool :=
  let n := c.toNat
  (9 ≤ n && n ≤ 13) || n = 32 || n = 133 || n = 160 || n = 5760 ||
    (8192 ≤ n && n ≤ 8202) || n = 8232 || n = 8233 || n = 8239 || n = 8287 || n = 12288

/-- Model of `strings.TrimSpace`. -/
def TrimSpace (s : String) : String :=
  String.mk ((s.data.dropWhile isSpace).reverse.dropWhile isSpace).reverse

/-- The source type `CGroup`. -/
structure CGroup where
  Prefix : String
  Rules : List Rule

/-- Counting loop of `normalize`: how many entries are not blank after trimming. -/
def countNonBlank : List String → Nat
  | [] => 0
  | x :: xs => if TrimSpace x ≠ "" then countNonBlank xs + 1 else countNonBlank xs

/-- Loop of `CGroup.normalize` over the rules from index `i` on, with the trimmed
global prefix: the rules as they are left, and the returned error. -/
def normalizeLoop (gPrefix : String) : Nat → List Rule → List Rule × Option Fault
  | _, [] => ([], none)
  | i, r :: rest =>
    let p := TrimSpace r.Prefix
    let r' : Rule := { r with Prefix := if p = "" then gPrefix else p }
    if countNonBlank r.Paths = 0 then
      (r' :: rest, some (.error ("rule #" ++ Itoa i ++ " has not any path")))
    else if countNonBlank r.Fields = 0 then
      (r' :: rest, some (.error ("rule #" ++ Itoa i ++ " has not any field")))
    else
      let res := normalizeLoop gPrefix (i + 1) rest
      (r' :: res.1, res.2)

/-- The source method `CGroup.normalize`: the configuration afterwards and the
returned error. -/
def CGroup.normalize (g : CGroup) : CGroup × Option Fault :=
  let p := TrimSpace g.Prefix
  let res := normalizeLoop p 0 g.Rules
  ({ Prefix := p, Rules := res.1 }, res.2)

/-- The source type `dirInfo`. -/
structure dirInfo where
  path : String
  err : Option String
  deriving DecidableEq, Repr

/-- What the program asks of the filesystem: `ioutil.ReadFile`, `filepath.Glob`
and `os.Stat` followed by `IsDir`. -/
structure Env where
  readFile : FileSystem
  glob : String → Except String (List String)
  stat : String → Except String Bool

/-- The source function `isDir`. -/
def isDir (env : Env) (path : String) : Bool × Option String :=
  match env.stat path with
  | .error e => (false, some e)
  | .ok b => (b, none)

/-- Inner loop of `generateDirs` over the glob results: the items sent on the
channel, and whether the function returned after sending an error. -/
def sendItems (env : Env) : List String → List dirInfo × Bool
  | [] => ([], false)
  | item :: rest =>
    match isDir env item with
    | (_, some e) => ([dirInfo.mk "" (some e)], true)
    | (ok, none) =>
      let res := sendItems env rest
      if ok then (dirInfo.mk item none :: res.1, res.2) else res

/-- Outer loop of `generateDirs` over the declared paths: the items sent on the
channel, in order, and whether the channel was closed at the end. -/
def generateDirsLoop (env : Env) (pfx : String) : List String → List dirInfo × Bool
  | [] => ([], true)
  | dir :: rest =>
    let d := pathClean (pathJoin pfx dir)
    match env.glob d with
    | .error e => ([dirInfo.mk "" (some e)], false)
    | .ok items =>
      let sent := sendItems env items
      if sent.2 then (sent.1, false)
      else
        let res := generateDirsLoop env pfx rest
        (sent.1 ++ res.1, res.2)

/-- The source method `Rule.generateDirs`. -/
def Rule.generateDirs (r : Rule) (env : Env) : List dirInfo × Bool :=
  generateDirsLoop env r.Prefix r.Paths

/-- Loop of `Rule.gather` over the items received from the channel. -/
def gatherLoop (r : Rule) (env : Env) : List dirInfo → List Record → List Record × Option Fault
  | [], acc => (acc, none)
  | d :: rest, acc =>
    match d.err with
    | some e => (acc, some (.error e))
    | none =>
      match r.gatherDir env.readFile d.path acc with
      | (acc', some e) => (acc', some e)
      | (acc', none) => gatherLoop r env rest acc'

/-- The source method `Rule.gather`, as seen by its caller. -/
def Rule.gather (r : Rule) (env : Env) (acc : List Record) : List Record × Option Fault :=
  gatherLoop r env (r.generateDirs env).1 acc

/-- Loop of `CGroup.Gather` over the rules. -/
def gatherRules (env : Env) : List Rule → List Record → List Record × Option Fault
  | [], acc => (acc, none)
  | r :: rest, acc =>
    match r.gather env acc with
    | (acc', some e) => (acc', some e)
    | (acc', none) => gatherRules env rest acc'

/-- The source method `CGroup.Gather`: the configuration afterwards, the
accumulator afterwards and the returned error. -/
def CGroup.Gather (g : CGroup) (env : Env) (acc : List Record) :
    CGroup × List Record × Option Fault :=
  match g.normalize with
  | (g', some e) => (g', acc, some e)
  | (g', none) =>
    let res := gatherRules env g'.Rules acc
    (g', res.1, res.2)

/-! ## The two tasks of `Rule.gather` and their channel -/

/-- Where the consumer (the loop of `Rule.gather`) stands. -/
inductive Consumer where
  | looping : List Record → Consumer
  | returned : List Record → Option Fault → Consumer
  deriving DecidableEq, Repr

/-- State of one run of `Rule.gather`: `pending` are the sends the producer
(`generateDirs`) still has to perform, the first being the one it stands at;
`closes` tells whether it closes the channel after them. -/
structure GatherState where
  pending : List dirInfo
  closes : Bool
  consumer : Consumer
  deriving DecidableEq, Repr

/-- What the consumer does with a received item. -/
def receive (r : Rule) (env : Env) (d : dirInfo) (acc : List Record) : Consumer :=
  match d.err with
  | some e => .returned acc (some (.error e))
  | none =>
    match r.gatherDir env.readFile d.path acc with
    | (acc', some e) => .returned acc' (some e)
    | (acc', none) => .looping acc'

/-- One step of the run.  The channel is unbuffered, so a send happens only
together with a receive of the consumer's loop; a closed channel ends the loop;
once the consumer has returned nothing receives any more. -/
def GatherState.step (r : Rule) (env : Env) (s : GatherState) : Option GatherState :=
  match s.consumer with
  | .returned _ _ => none
  | .looping acc =>
    match s.pending with
    | d :: rest => some { pending := rest, closes := s.closes, consumer := receive r env d acc }
    | [] => if s.closes then some { s with consumer := .returned acc none } else none

/-- State at the start of `Rule.gather`. -/
def GatherState.init (r : Rule) (env : Env) (acc : List Record) : GatherState :=
  { pending := (r.generateDirs env).1, closes := (r.generateDirs env).2,
    consumer := .looping acc }

/-- The run after at most `n` steps. -/
def GatherState.run (r : Rule) (env : Env) : Nat → GatherState → GatherState
  | 0, s => s
  | n + 1, s =>
    match s.step r env with
    | none => s
    | some s' => GatherState.run r env n s'

/-- The producer has left `generateDirs`: no send is outstanding. -/
def GatherState.producerDone (s : GatherState) : Bool := s.pending.isEmpty

/-! ## Auxiliary notions used to state the properties -/

/-- One step over a bracket expression, as the matcher performs it. -/
def clsStep (cc : CharClass) : List Char → Caps → Cont → Option MatchEnd :=
  fun s c k =>
    match s with
    | [] => none
    | x :: s' => if cc.mem x then k s' c else none

/-- Continue with the item taken off the text and the rest, or fail. -/
def chopThen {α : Type} (o : Option (α × List Char))
    (f : α → List Char → Option MatchEnd) : Option MatchEnd :=
  match o with
  | some (a, t) => f a t
  | none => none

/-- The run of class characters at the front of a text, when that run is not
empty and the separator follows it, together with the text after the separator. -/
def chopToken (cc : CharClass) (sep : Char) (s : List Char) :
    Option (List Char × List Char) :=
  match s.takeWhile cc.mem, s.dropWhile cc.mem with
  | _ :: _, x :: t => if x = sep then some (s.takeWhile cc.mem, t) else none
  | _, _ => none

/-- A token: a non-empty text of class characters. -/
def ValidTok (cc : CharClass) (v : List Char) : Prop :=
  v ≠ [] ∧ ∀ x ∈ v, cc.mem x = true

/-- Concatenation of the written forms of a list of items. -/
def encAll {α : Type} (enc : α → List Char) : List α → List Char
  | [] => []
  | a :: as => enc a ++ encAll enc as

/-- Written form of a token followed by its separator. -/
def tokLine (sep : Char) (v : List Char) : List Char := v ++ [sep]

/-- Written form of a key/value line. -/
def kvLine (l : List Char × List Char) : List Char := l.1 ++ ' ' :: (l.2 ++ ['\n'])

/-- A key/value line taken off the front of a text. -/
def chopKV (s : List Char) : Option ((List Char × List Char) × List Char) :=
  match chopToken keyClass ' ' s with
  | none => none
  | some (key, t) =>
    match chopToken valueClass '\n' t with
    | none => none
    | some (v, t') => some ((key, v), t')

/-- Value of a digit text read left to right from a start value. -/
def digitsVal (acc : Nat) (l : List Char) : Nat :=
  l.foldl (fun a c => 10 * a + (c.toNat - 48)) acc

/-- Pieces of a text between the characters that satisfy `p`; never `[]`. -/
def splitWhere (p : Char → Bool) : List Char → List (List Char)
  | [] => [[]]
  | x :: s =>
    if p x then [] :: splitWhere p s
    else
      match splitWhere p s with
      | [] => [[x]]
      | h :: t => (x :: h) :: t

/-- The words of a content: its maximal runs of characters other than space
and newline, in order of appearance. -/
def wordsOf (b : List Char) : List (List Char) :=
  (splitWhere (fun c => c == ' ' || c == '\n') b).filter (fun w => !w.isEmpty)

/-- The value tokens of a content, in order of appearance. -/
def valueTokens (b : List Char) : List String :=
  (wordsOf b).map String.mk

/-- The lines of a content: the texts ended by a newline, without it. -/
def linesOf (b : List Char) : List (List Char) :=
  (splitWhere (fun c => c == '\n') b).dropLast

/-- Key text and value text of every line: what stands before the first space
of the line, and what stands after it. -/
def kvLines (b : List Char) : List (String × String) :=
  (linesOf b).map (fun l =>
    (String.mk (l.takeWhile (fun c => c != ' ')),
     String.mk ((l.dropWhile (fun c => c != ' ')).drop 1)))

/-- Fields `value_i`, `value_{i+1}`, … of a list of tokens. -/
def valueFieldsFrom : Nat → List String → FieldMap
  | _, [] => []
  | i, t :: ts => ("value_" ++ Itoa i, numberOrString t) :: valueFieldsFrom (i + 1) ts

/-- A pattern can only end a match at the end of the text. -/
def EndsAtEot (re : Regex) : Prop :=
  ∀ (n : Nat) (s : List Char) (c : Caps) (r : MatchEnd),
    re.run n s c (fun s' c' => some (s', c')) = some r → r.1 = []

/-- Text of a name before its first `.` (the whole name when it has none). -/
def beforeDot (f : String) : String :=
  String.mk (f.data.takeWhile (fun c => c != '.'))

/-- Record of its own that a declared file gets: one exactly when the file is
read, is not empty and parses to two or more fields. -/
def standaloneRecord (fs : FileSystem) (dir file : String) : Option Record :=
  match fs (pathJoin dir file) with
  | .error _ => none
  | .ok raw =>
    match (fileInfo.mk raw (pathJoin dir file)).parse with
    | .error _ => none
    | .ok (fields, _) =>
      if raw ≠ [] ∧ 2 ≤ fields.length then
        some (Record.mk ("cgroup:" ++ file) fields [("path", pathJoin dir file)])
      else none

/-- Entry a declared file adds to the single-value map: one exactly when the
file is read, is not empty and parses to one field; the entry holds what the
parsed map has under the key `value`. -/
def singleValueEntry (fs : FileSystem) (dir file : String) : Option Iface :=
  match fs (pathJoin dir file) with
  | .error _ => none
  | .ok raw =>
    match (fileInfo.mk raw (pathJoin dir file)).parse with
    | .error _ => none
    | .ok (fields, _) =>
      if raw ≠ [] ∧ fields.length = 1 then some (mapIndex fields "value") else none

/-- The single-value map after the declared files, starting from `m`. -/
def singleValuesFrom (fs : FileSystem) (dir : String) (files : List String)
    (m : FieldMap) : FieldMap :=
  files.foldl (fun m file =>
    match singleValueEntry fs dir file with
    | some v => mapSet m file v
    | none => m) m

/-- A filesystem that holds one file. -/
def oneFileFs (path : String) (content : List Char) : FileSystem := fun p =>
  if p = path then .ok content else .error ("open " ++ p ++ ": no such file or directory")

/-- Reading of "an optional single leading `-`, one or more decimal digits, exactly
one newline". -/
def signedDigitsLine (b : List Char) : Bool :=
  let r :=
    match b with
    | '-' :: r => r
    | r => r
  match r.getLast? with
  | some '\n' => !r.dropLast.isEmpty && r.dropLast.all Char.isDigit
  | _ => false

/-- The integer a text denotes in base 10: an optional sign, then one or more
digits read in place notation. -/
def decimalValue (s : String) : Option Int :=
  match s.data with
  | [] => none
  | c :: rest =>
    if c = '-' then
      if rest ≠ [] ∧ rest.all Char.isDigit = true then some (-(digitsVal 0 rest : Int)) else none
    else if c = '+' then
      if rest ≠ [] ∧ rest.all Char.isDigit = true then some (digitsVal 0 rest : Int) else none
    else if (c :: rest).all Char.isDigit = true then some (digitsVal 0 (c :: rest) : Int)
    else none

/-- What the loop of `normalize` does to the prefix of a rule. -/
def normalizedRule (gPrefix : String) (r : Rule) : Rule :=
  { r with Prefix := if TrimSpace r.Prefix = "" then gPrefix else TrimSpace r.Prefix }

/-- Directories among the glob results of one declared path. -/
def dirsOfPattern (env : Env) (pfx pattern : String) : List String :=
  match env.glob (pathClean (pathJoin pfx pattern)) with
  | .error _ => []
  | .ok items => items.filter (fun i => decide (env.stat i = .ok true))

/-- Glob succeeds on a declared path and stat succeeds on each of its results. -/
def patternOk (env : Env) (pfx pattern : String) : Prop :=
  ∃ items, env.glob (pathClean (pathJoin pfx pattern)) = .ok items ∧
    ∀ y ∈ items, ∃ b, env.stat y = .ok b

/-- A filesystem for the third test configuration: two groups, the first with two
children. -/
def testEnv : Env where
  readFile := fun p =>
    if p = "testdata/memory/group_1/group_1_1/memory.limit_in_bytes" ∨
        p = "testdata/memory/group_1/group_1_2/memory.limit_in_bytes" ∨
        p = "testdata/memory/group_2/memory.limit_in_bytes" then
      .ok "223372036854771712\n".toList
    else .error ("open " ++ p ++ ": no such file or directory")
  glob := fun p =>
    if p = "testdata/memory/*/*" then
      .ok ["testdata/memory/group_1/group_1_1", "testdata/memory/group_1/group_1_2",
        "testdata/memory/group_1/memory.limit_in_bytes"]
    else if p = "testdata/memory/group_2" then .ok ["testdata/memory/group_2"]
    else .ok []
  stat := fun p =>
    if p = "testdata/memory/group_1/memory.limit_in_bytes" then .ok false else .ok true

/-- The rule of the third test configuration. -/
def testRule3 : Rule where
  Prefix := "testdata/memory"
  Paths := ["*/*", "group_2"]
  Fields := ["memory.limit_in_bytes"]

/-- The map the key/value callback builds from the lines, starting from `m`. -/
def kvFold (ls : List (String × String)) (m : FieldMap) : FieldMap :=
  ls.foldl (fun m l => mapSet m l.1 (numberOrString l.2)) m

/-- Value text of the last line that has the key `k`. -/
def lastValue : List (String × String) → String → Option String
  | [], _ => none
  | l :: ls, k =>
    match lastValue ls k with
    | some v => some v
    | none => if l.1 = k then some l.2 else none

/-- A filesystem with two directories under `g` whose declared file cannot be read. -/
def leakEnv : Env where
  readFile := fun p => .error ("open " ++ p ++ ": permission denied")
  glob := fun p => if p = "g/*" then .ok ["g/a", "g/b"] else .ok []
  stat := fun _ => .ok true

/-- A rule over the directories of `leakEnv`. -/
def leakRule : Rule where
  Prefix := "g"
  Paths := ["*"]
  Fields := ["f"]

/-! ## Lemmas on the matcher -/

section Matcher

theorem valueClass_mem (c : Char) :
    valueClass.mem c = true ↔ ((48 ≤ c.toNat ∧ c.toNat ≤ 57) ∨ c.toNat = 45) := by
  simp only [valueClass, CharClass.mem, List.any_cons, List.any_nil, Bool.or_false,
    Bool.or_eq_true, Bool.and_eq_true, decide_eq_true_eq]
  have h0 : ('0' : Char).toNat = 48 := rfl
  have h9 : ('9' : Char).toNat = 57 := rfl
  have hm : ('-' : Char).toNat = 45 := rfl
  rw [h0, h9, hm]
  omega

theorem keyClass_mem (c : Char) :
    keyClass.mem c = true ↔
      ((65 ≤ c.toNat ∧ c.toNat ≤ 90) ∨ (97 ≤ c.toNat ∧ c.toNat ≤ 122) ∨ c.toNat = 95) := by
  simp only [keyClass, CharClass.mem, List.any_cons, List.any_nil, Bool.or_false,
    Bool.or_eq_true, Bool.and_eq_true, decide_eq_true_eq]
  have h1 : ('A' : Char).toNat = 65 := rfl
  have h2 : ('Z' : Char).toNat = 90 := rfl
  have h3 : ('a' : Char).toNat = 97 := rfl
  have h4 : ('z' : Char).toNat = 122 := rfl
  have h5 : ('_' : Char).toNat = 95 := rfl
  rw [h1, h2, h3, h4, h5]
  omega

theorem run_cls_eq (n : Nat) (cc : CharClass) :
    (fun s1 c1 k1 => (Regex.cls cc).run n s1 c1 k1) = clsStep cc := by
  funext s c k
  cases s <;> simp [Regex.run, clsStep]

/-- The step of a loop over a bracket expression fails on a text that does not
start with a character of the class. -/
theorem plusLoop_cls_none (cc : CharClass) (k : Cont) (f : Nat) (s : List Char)
    (c : Caps) (hs : ∀ x t, s = x :: t → cc.mem x = false) :
    plusLoop (clsStep cc) f s c k = none := by
  cases f <;> cases s with
  | nil => simp [plusLoop, clsStep]
  | cons x t => simp [plusLoop, clsStep, hs x t rfl]

/-- A greedy loop over a bracket expression, followed by something that cannot
start with a character of the class, takes the whole run of class characters. -/
theorem plusLoop_cls_run (cc : CharClass) (k : Cont)
    (hk : ∀ x t c, cc.mem x = true → k (x :: t) c = none) :
    ∀ (f : Nat) (pre post : List Char) (c : Caps), pre ≠ [] → pre.length ≤ f + 1 →
      (∀ x ∈ pre, cc.mem x = true) → (∀ x t, post = x :: t → cc.mem x = false) →
      plusLoop (clsStep cc) f (pre ++ post) c k = k post c := by
  intro f
  induction f with
  | zero =>
    intro pre post c hne hlen hall hpost
    match pre, hne, hlen with
    | [x], _, _ =>
      have hx := hall x (by simp)
      simp [plusLoop, clsStep, hx]
  | succ f ih =>
    intro pre post c hne hlen hall hpost
    match pre, hne with
    | x :: pre', _ =>
      have hx := hall x (by simp)
      simp only [plusLoop, List.cons_append, clsStep, hx, if_true, List.length_cons,
        Nat.lt_succ_self]
      by_cases hp : pre' = []
      · subst hp
        simp only [List.nil_append]
        rw [plusLoop_cls_none cc k f post c hpost]
      · have hlen' : pre'.length ≤ f + 1 := by simpa using hlen
        have hall' : ∀ y ∈ pre', cc.mem y = true := fun y hy => hall y (by simp [hy])
        rw [ih pre' post c hp hlen' hall' hpost]
        cases hkp : k post c with
        | some r => rfl
        | none =>
          match pre', hp, hall' with
          | y :: t, _, hall' =>
            simp only [List.cons_append]
            exact hk y _ c (hall' y (by simp))

/-- What `[class]+` does in front of a continuation that rejects class characters. -/
theorem run_plus_cls (n : Nat) (cc : CharClass) (k : Cont)
    (hk : ∀ x t c, cc.mem x = true → k (x :: t) c = none) (s : List Char) (c : Caps) :
    (Regex.plus (.cls cc)).run n s c k =
      if s.takeWhile cc.mem = [] then none else k (s.dropWhile cc.mem) c := by
  have hpost : ∀ x t, s.dropWhile cc.mem = x :: t → cc.mem x = false := by
    intro x t hxt
    have := List.head_dropWhile_not cc.mem s (by rw [hxt]; simp)
    simpa [hxt] using this
  rw [Regex.run, run_cls_eq]
  split
  · rename_i h
    apply plusLoop_cls_none
    intro x t hxt
    cases hm : cc.mem x with
    | false => rfl
    | true => rw [hxt, List.takeWhile_cons, hm] at h; simp at h
  · rename_i h
    have hs : s = s.takeWhile cc.mem ++ s.dropWhile cc.mem :=
      (List.takeWhile_append_dropWhile cc.mem s).symm
    have hlen : (s.takeWhile cc.mem).length ≤ s.length + 1 := by
      have := congrArg List.length hs
      rw [List.length_append] at this
      omega
    have := plusLoop_cls_run cc k hk s.length (s.takeWhile cc.mem) (s.dropWhile cc.mem) c h
      hlen (fun x hx => List.mem_takeWhile_imp hx) hpost
    rw [← hs] at this
    exact this

theorem takeWhile_append_sep (cc : CharClass) (sep : Char) (hsep : cc.mem sep = false)
    (v t : List Char) (hv : ∀ x ∈ v, cc.mem x = true) :
    (v ++ sep :: t).takeWhile cc.mem = v ∧ (v ++ sep :: t).dropWhile cc.mem = sep :: t := by
  induction v with
  | nil => simp [List.takeWhile_cons, List.dropWhile_cons, hsep]
  | cons x v ih =>
    have hx := hv x (by simp)
    have ih' := ih (fun y hy => hv y (by simp [hy]))
    simp [List.takeWhile_cons, List.dropWhile_cons, hx, ih'.1, ih'.2]

/-- `chopToken` inverts writing a token followed by the separator. -/
theorem chopToken_eq_some (cc : CharClass) (sep : Char) (hsep : cc.mem sep = false)
    (s v t : List Char) :
    chopToken cc sep s = some (v, t) ↔ ValidTok cc v ∧ s = v ++ sep :: t := by
  constructor
  · intro h
    unfold chopToken at h
    split at h
    · rename_i y ys x t' htw hdw
      split at h
      · rename_i hx
        simp only [Option.some.injEq, Prod.mk.injEq] at h
        obtain ⟨h1, h2⟩ := h
        subst h2
        refine ⟨⟨?_, ?_⟩, ?_⟩
        · rw [← h1, htw]; simp
        · intro z hz
          rw [← h1] at hz
          exact List.mem_takeWhile_imp hz
        · have := (List.takeWhile_append_dropWhile cc.mem s).symm
          rw [hdw, h1, hx] at this
          exact this
      · simp at h
    · simp at h
  · rintro ⟨⟨hne, hall⟩, rfl⟩
    obtain ⟨h1, h2⟩ := takeWhile_append_sep cc sep hsep v t hall
    unfold chopToken
    rw [h1, h2]
    match v, hne with
    | x :: v', _ => simp

theorem chopToken_length (cc : CharClass) (sep : Char) (hsep : cc.mem sep = false)
    (s v t : List Char) (h : chopToken cc sep s = some (v, t)) : t.length < s.length := by
  obtain ⟨_, rfl⟩ := (chopToken_eq_some cc sep hsep s v t).1 h
  simp
  omega

/-- What `[class]+sep` does, for a separator outside the class. -/
theorem run_token (n : Nat) (cc : CharClass) (sep : Char) (hsep : cc.mem sep = false)
    (s : List Char) (c : Caps) (k : Cont) :
    (Regex.seq (.plus (.cls cc)) (.lit sep)).run n s c k =
      chopThen (chopToken cc sep s) (fun _ t => k t c) := by
  rw [Regex.run, run_plus_cls]
  · unfold chopToken chopThen
    split
    · rename_i h
      rw [h]
    · rename_i h
      cases htw : s.takeWhile cc.mem with
      | nil => exact absurd htw h
      | cons y ys =>
        cases hdw : s.dropWhile cc.mem with
        | nil => simp [Regex.run]
        | cons x t =>
          by_cases hx : x = sep
          · simp [Regex.run, hx]
          · simp [Regex.run, hx]
  · intro x t c' hx
    have : x ≠ sep := by
      rintro rfl
      rw [hsep] at hx
      exact Bool.false_ne_true hx
    simp [Regex.run, this]

/-- What `([class]+)sep` does: as `run_token`, and slot `i` receives the token. -/
theorem run_grp_token (n : Nat) (i : Nat) (cc : CharClass) (sep : Char)
    (hsep : cc.mem sep = false) (s : List Char) (c : Caps) (k : Cont) :
    (Regex.seq (.grp i (.plus (.cls cc))) (.lit sep)).run n s c k =
      chopThen (chopToken cc sep s) (fun v t => k t (c.set i v)) := by
  rw [Regex.run, Regex.run, run_plus_cls]
  · unfold chopToken chopThen
    split
    · rename_i h
      rw [h]
    · rename_i h
      cases htw : s.takeWhile cc.mem with
      | nil => exact absurd htw h
      | cons y ys =>
        cases hdw : s.dropWhile cc.mem with
        | nil => simp [Regex.run]
        | cons x t =>
          have hs : s = (y :: ys) ++ (x :: t) := by
            rw [← htw, ← hdw]; exact (List.takeWhile_append_dropWhile cc.mem s).symm
          have htake : s.take (s.length - (x :: t).length) = y :: ys := by
            rw [hs]
            apply List.take_left'
            simp only [List.length_append, List.length_cons]
            omega
          by_cases hx : x = sep
          · simp only [Regex.run, hx, if_true]
            rw [← hx, htake]
          · simp [Regex.run, hx]
  · intro x t c' hx
    have : x ≠ sep := by
      rintro rfl
      rw [hsep] at hx
      exact Bool.false_ne_true hx
    simp [Regex.run, this]

/-- A greedy loop whose body takes exactly one item off the front of the text
succeeds exactly on one or more items followed by a rest the continuation
accepts. -/
theorem plusLoop_chop {α : Type} (g : List Char → Caps → Cont → Option MatchEnd)
    (chop : List Char → Option (α × List Char)) (u : List Char → α → List Char → Caps → Caps)
    (valid : α → Prop) (enc : α → List Char)
    (hg : ∀ s c k, g s c k = chopThen (chop s) (fun a t => k t (u s a t c)))
    (hchop : ∀ s a t, chop s = some (a, t) ↔ valid a ∧ s = enc a ++ t)
    (hlt : ∀ s a t, chop s = some (a, t) → t.length < s.length)
    (k : Cont) (P : List Char → Prop) (hk : ∀ s c, (k s c).isSome = true ↔ P s) :
    ∀ (f : Nat) (s : List Char) (c : Caps), s.length ≤ f →
      ((plusLoop g f s c k).isSome = true ↔
        ∃ as r, as ≠ [] ∧ (∀ a ∈ as, valid a) ∧ s = encAll enc as ++ r ∧ P r) := by
  have hright : ∀ (s : List Char) (as : List α) (r : List Char), as ≠ [] →
      (∀ a ∈ as, valid a) → s = encAll enc as ++ r →
      ∃ a as', as = a :: as' ∧ chop s = some (a, encAll enc as' ++ r) := by
    intro s as r hne hv hs
    match as, hne with
    | a :: as', _ =>
      refine ⟨a, as', rfl, ?_⟩
      rw [hchop]
      refine ⟨hv a (by simp), ?_⟩
      rw [hs]
      simp [encAll]
  intro f
  induction f with
  | zero =>
    intro s c hlen
    have hs : s = [] := List.length_eq_zero.mp (Nat.le_zero.mp hlen)
    subst hs
    have hnone : chop [] = none := by
      cases h : chop [] with
      | none => rfl
      | some p =>
        obtain ⟨a, t⟩ := p
        have := hlt [] a t h
        simp at this
    constructor
    · intro h
      simp [plusLoop, hg, hnone, chopThen] at h
    · rintro ⟨as, r, hne, hv, hs, _⟩
      obtain ⟨a, as', _, hc⟩ := hright [] as r hne hv hs
      rw [hnone] at hc
      exact absurd hc (by simp)
  | succ f ih =>
    intro s c hlen
    rw [plusLoop, hg]
    cases hc : chop s with
    | none =>
      constructor
      · intro h
        simp [chopThen] at h
      · rintro ⟨as, r, hne, hv, hs, _⟩
        obtain ⟨a, as', _, hc'⟩ := hright s as r hne hv hs
        rw [hc] at hc'
        exact absurd hc' (by simp)
    | some p =>
      obtain ⟨a, t⟩ := p
      have ht := hlt s a t hc
      have hva := ((hchop s a t).1 hc).1
      have hsa := ((hchop s a t).1 hc).2
      simp only [chopThen, ht, if_true]
      have iht := ih t (u s a t c) (by omega)
      cases hpl : plusLoop g f t (u s a t c) k with
      | some r0 =>
        simp only [Option.isSome_some, true_iff]
        rw [hpl] at iht
        obtain ⟨as', r, hne, hv, hs, hP⟩ := iht.1 rfl
        refine ⟨a :: as', r, by simp, ?_, ?_, hP⟩
        · intro x hx
          rcases List.mem_cons.1 hx with rfl | hx
          · exact hva
          · exact hv x hx
        · rw [hsa, hs]
          simp [encAll]
      | none =>
        rw [hpl] at iht
        simp only
        rw [hk]
        constructor
        · intro hP
          exact ⟨[a], t, by simp, by simpa using hva, by simpa [encAll] using hsa, hP⟩
        · rintro ⟨as, r, hne, hv, hs, hP⟩
          obtain ⟨a', as', has, hc'⟩ := hright s as r hne hv hs
          rw [hc] at hc'
          simp only [Option.some.injEq, Prod.mk.injEq] at hc'
          obtain ⟨rfl, ht'⟩ := hc'
          by_cases hnil : as' = []
          · subst hnil
            simp only [encAll, List.nil_append] at ht'
            rw [ht']
            exact hP
          · have : (none : Option MatchEnd).isSome = true :=
              iht.2 ⟨as', r, hnil, fun x hx => hv x (by rw [has]; simp [hx]), ht', hP⟩
            simp at this

theorem search_bot_none (r : Regex) (n : Nat) :
    ∀ s : List Char, s.length < n → (Regex.seq .bot r).search n s = none := by
  intro s
  induction s with
  | nil =>
    intro h
    have : ¬ (0 = n) := by simp at h; omega
    simp [Regex.search, Regex.matchAt, Regex.run, this]
  | cons x s ih =>
    intro h
    have h1 : ¬ (s.length + 1 = n) := by simp at h; omega
    have h2 : s.length < n := by simp at h; omega
    simp [Regex.search, Regex.matchAt, Regex.run, h1, ih h2]

/-- A pattern that starts with `^` can only match at the start of the text. -/
theorem regexpMatch_bot (r : Regex) (b : List Char) :
    regexpMatch (.seq .bot r) b =
      (r.run b.length b (List.replicate (Regex.seq .bot r).numCap [])
        (fun s' c' => some (s', c'))).isSome := by
  unfold regexpMatch
  cases b with
  | nil => simp [Regex.search, Regex.matchAt, Regex.run]
  | cons x s =>
    simp only [Regex.search, Regex.matchAt, Regex.run, List.length_cons, if_true]
    split
    · rename_i r0 h
      rw [h]
      rfl
    · rename_i h
      rw [h]
      exact congrArg Option.isSome (search_bot_none r (s.length + 1) s (Nat.lt_succ_self _))

theorem valueClass_newline : valueClass.mem '\n' = false := by decide
theorem valueClass_space : valueClass.mem ' ' = false := by decide
theorem keyClass_space : keyClass.mem ' ' = false := by decide

theorem chopTok_iff (cc : CharClass) (sep : Char) (hsep : cc.mem sep = false)
    (s v t : List Char) :
    chopToken cc sep s = some (v, t) ↔ ValidTok cc v ∧ s = tokLine sep v ++ t := by
  rw [chopToken_eq_some cc sep hsep]
  simp [tokLine]

theorem chopKV_iff (s : List Char) (l : List Char × List Char) (t : List Char) :
    chopKV s = some (l, t) ↔
      (ValidTok keyClass l.1 ∧ ValidTok valueClass l.2) ∧ s = kvLine l ++ t := by
  obtain ⟨key, v⟩ := l
  unfold chopKV
  constructor
  · intro h
    cases h1 : chopToken keyClass ' ' s with
    | none => simp [h1] at h
    | some p1 =>
      obtain ⟨key', t1⟩ := p1
      cases h2 : chopToken valueClass '\n' t1 with
      | none => simp [h1, h2] at h
      | some p2 =>
        obtain ⟨v', t2⟩ := p2
        simp only [h1, h2, Option.some.injEq, Prod.mk.injEq] at h
        obtain ⟨⟨rfl, rfl⟩, rfl⟩ := h
        obtain ⟨hk, hs1⟩ := (chopToken_eq_some _ _ keyClass_space _ _ _).1 h1
        obtain ⟨hv, hs2⟩ := (chopToken_eq_some _ _ valueClass_newline _ _ _).1 h2
        refine ⟨⟨hk, hv⟩, ?_⟩
        rw [hs1, hs2]
        simp [kvLine]
  · rintro ⟨⟨hk, hv⟩, hs⟩
    have h1 : chopToken keyClass ' ' s = some (key, v ++ '\n' :: t) := by
      rw [chopToken_eq_some _ _ keyClass_space]
      refine ⟨hk, ?_⟩
      rw [hs]
      simp [kvLine]
    have h2 : chopToken valueClass '\n' (v ++ '\n' :: t) = some (v, t) := by
      rw [chopToken_eq_some _ _ valueClass_newline]
      exact ⟨hv, rfl⟩
    rw [h1]
    simp only
    rw [h2]

theorem chopKV_length (s : List Char) (l : List Char × List Char) (t : List Char)
    (h : chopKV s = some (l, t)) : t.length < s.length := by
  obtain ⟨_, rfl⟩ := (chopKV_iff s l t).1 h
  simp [kvLine]
  omega

/-- What `[[:alpha:]_]+ [\d-]+\n` does. -/
theorem run_kv (n : Nat) (s : List Char) (c : Caps) (k : Cont) :
    (Regex.seq keyPattern (.seq (.lit ' ') (.seq valuePattern (.lit '\n')))).run n s c k =
      chopThen (chopKV s) (fun _ t => k t c) := by
  have hassoc :
      (Regex.seq keyPattern (.seq (.lit ' ') (.seq valuePattern (.lit '\n')))).run n s c k =
      (Regex.seq keyPattern (.lit ' ')).run n s c
        (fun s' c' => (Regex.seq valuePattern (.lit '\n')).run n s' c' k) := by
    simp only [Regex.run]
  rw [hassoc]
  unfold keyPattern valuePattern
  rw [run_token n keyClass ' ' keyClass_space]
  unfold chopKV
  cases h1 : chopToken keyClass ' ' s with
  | none => rfl
  | some p1 =>
    obtain ⟨key, t1⟩ := p1
    simp only [chopThen]
    rw [run_token n valueClass '\n' valueClass_newline]
    cases h2 : chopToken valueClass '\n' t1 with
    | none => rfl
    | some p2 => rfl

theorem run_seq (n : Nat) (a b : Regex) (s : List Char) (c : Caps) (k : Cont) :
    (Regex.seq a b).run n s c k = a.run n s c (fun s' c' => b.run n s' c' k) := by
  rw [Regex.run]

theorem run_plus (n : Nat) (a : Regex) (s : List Char) (c : Caps) (k : Cont) :
    (Regex.plus a).run n s c k
      = plusLoop (fun s1 c1 k1 => a.run n s1 c1 k1) s.length s c k := by
  rw [Regex.run]

/-- A capturing group around a body that takes one item off the text. -/
theorem run_grp_chop {α : Type} (n i : Nat) (a : Regex)
    (chop : List Char → Option (α × List Char)) (u : List Char → α → List Char → Caps → Caps)
    (ha : ∀ s c k, a.run n s c k = chopThen (chop s) (fun x t => k t (u s x t c)))
    (s : List Char) (c : Caps) (k : Cont) :
    (Regex.grp i a).run n s c k =
      chopThen (chop s)
        (fun x t => k t ((u s x t c).set i (s.take (s.length - t.length)))) := by
  rw [Regex.run, ha]

theorem eot_isSome (n : Nat) (t : List Char) (c : Caps) :
    ((Regex.eot).run n t c (fun s' c' => some (s', c'))).isSome = true ↔ t = [] := by
  cases t <;> simp [Regex.run]

theorem nl_eot_isSome (n : Nat) (t : List Char) (c : Caps) :
    ((Regex.seq (.lit '\n') .eot).run n t c (fun s' c' => some (s', c'))).isSome = true
      ↔ t = ['\n'] := by
  match t with
  | [] => simp [Regex.run]
  | [x] => by_cases hx : x = '\n' <;> simp [Regex.run, hx]
  | x :: y :: t => by_cases hx : x = '\n' <;> simp [Regex.run, hx]

/-- Which contents the pattern `^[\d-]+\n$` accepts. -/
theorem singleValue_match_iff (b : List Char) :
    singleValueFormat.«match» b = true ↔ ∃ v, ValidTok valueClass v ∧ b = v ++ ['\n'] := by
  unfold fileFormat.«match» singleValueFormat
  simp only
  rw [regexpMatch_bot]
  have hassoc : ∀ c k, (Regex.seq valuePattern (.seq (.lit '\n') .eot)).run b.length b c k
      = (Regex.seq valuePattern (.lit '\n')).run b.length b c
          (fun s' c' => Regex.eot.run b.length s' c' k) := by
    intro c k
    simp only [run_seq]
  rw [hassoc]
  unfold valuePattern
  rw [run_token _ _ _ valueClass_newline]
  cases hc : chopToken valueClass '\n' b with
  | none =>
    simp only [chopThen, Option.isSome_none, Bool.false_eq_true, false_iff]
    rintro ⟨v, hv, hb⟩
    have := (chopToken_eq_some _ _ valueClass_newline b v []).2 ⟨hv, hb⟩
    rw [hc] at this
    exact absurd this (by simp)
  | some p =>
    obtain ⟨v, t⟩ := p
    simp only [chopThen]
    rw [eot_isSome]
    obtain ⟨hv, hb⟩ := (chopToken_eq_some _ _ valueClass_newline b v t).1 hc
    constructor
    · rintro rfl
      exact ⟨v, hv, hb⟩
    · rintro ⟨v', hv', hb'⟩
      have := (chopToken_eq_some _ _ valueClass_newline b v' []).2 ⟨hv', hb'⟩
      rw [hc] at this
      simp only [Option.some.injEq, Prod.mk.injEq] at this
      exact this.2

/-- The repeated group of the list patterns, `([\d-]+sep)`. -/
theorem run_tokGroup (n : Nat) (sep : Char) (hsep : valueClass.mem sep = false)
    (s : List Char) (c : Caps) (k : Cont) :
    (Regex.grp 0 (.seq valuePattern (.lit sep))).run n s c k =
      chopThen (chopToken valueClass sep s)
        (fun _ t => k t (c.set 0 (s.take (s.length - t.length)))) :=
  run_grp_chop n 0 _ (chopToken valueClass sep) (fun _ _ _ c => c)
    (fun s c k => run_token n valueClass sep hsep s c k) s c k

/-- The repeated group of the key/value pattern. -/
theorem run_kvGroup (n : Nat) (s : List Char) (c : Caps) (k : Cont) :
    (Regex.grp 0
      (.seq keyPattern (.seq (.lit ' ') (.seq valuePattern (.lit '\n'))))).run n s c k =
      chopThen (chopKV s) (fun _ t => k t (c.set 0 (s.take (s.length - t.length)))) :=
  run_grp_chop n 0 _ chopKV (fun _ _ _ c => c) (fun s c k => run_kv n s c k) s c k

/-- Which contents the pattern `^([\d-]+ )+\n$` accepts. -/
theorem space_match_iff (b : List Char) :
    spaceFormat.«match» b = true ↔
      ∃ ts, ts ≠ [] ∧ (∀ t ∈ ts, ValidTok valueClass t) ∧
        b = encAll (tokLine ' ') ts ++ ['\n'] := by
  unfold fileFormat.«match» spaceFormat
  simp only
  rw [regexpMatch_bot, run_seq, run_plus]
  rw [plusLoop_chop _ (chopToken valueClass ' ')
    (fun s _ t c => c.set 0 (s.take (s.length - t.length))) (ValidTok valueClass) (tokLine ' ')
    (fun s c k => run_tokGroup b.length ' ' valueClass_space s c k)
    (chopTok_iff _ _ valueClass_space) (chopToken_length _ _ valueClass_space)
    _ (fun r => r = ['\n']) (fun s c => nl_eot_isSome b.length s c) b.length b _ (le_refl _)]
  constructor
  · rintro ⟨as, r, hne, hv, hs, rfl⟩
    exact ⟨as, hne, hv, hs⟩
  · rintro ⟨as, hne, hv, hs⟩
    exact ⟨as, _, hne, hv, hs, rfl⟩

/-- Which contents the pattern `^([[:alpha:]_]+ [\d-]+\n)+$` accepts. -/
theorem keyValue_match_iff (b : List Char) :
    keyValueFormat.«match» b = true ↔
      ∃ ls, ls ≠ [] ∧ (∀ l ∈ ls, ValidTok keyClass l.1 ∧ ValidTok valueClass l.2) ∧
        b = encAll kvLine ls := by
  unfold fileFormat.«match» keyValueFormat
  simp only
  rw [regexpMatch_bot, run_seq, run_plus]
  rw [plusLoop_chop _ chopKV
    (fun s _ t c => c.set 0 (s.take (s.length - t.length)))
    (fun l => ValidTok keyClass l.1 ∧ ValidTok valueClass l.2) kvLine
    (fun s c k => run_kvGroup b.length s c k)
    chopKV_iff chopKV_length
    _ (fun r => r = []) (fun s c => eot_isSome b.length s c) b.length b _ (le_refl _)]
  constructor
  · rintro ⟨as, r, hne, hv, hs, rfl⟩
    exact ⟨as, hne, hv, by simpa using hs⟩
  · rintro ⟨as, hne, hv, hs⟩
    exact ⟨as, _, hne, hv, by simpa using hs, rfl⟩

/-- Which contents the pattern `^([\d-]+\n){2,}$` accepts. -/
theorem newLine_match_iff (b : List Char) :
    newLineFormat.«match» b = true ↔
      ∃ ts, 2 ≤ ts.length ∧ (∀ t ∈ ts, ValidTok valueClass t) ∧
        b = encAll (tokLine '\n') ts := by
  unfold fileFormat.«match» newLineFormat Regex.atLeast2
  simp only
  rw [regexpMatch_bot, run_seq, run_seq, run_tokGroup _ _ valueClass_newline]
  cases hc : chopToken valueClass '\n' b with
  | none =>
    simp only [chopThen, Option.isSome_none, Bool.false_eq_true, false_iff]
    rintro ⟨ts, hlen, hv, hb⟩
    match ts, hlen with
    | t0 :: ts', _ =>
      have := (chopTok_iff _ _ valueClass_newline b t0 (encAll (tokLine '\n') ts')).2
        ⟨hv t0 (by simp), by rw [hb]; rfl⟩
      rw [hc] at this
      exact absurd this (by simp)
  | some p =>
    obtain ⟨v, t⟩ := p
    simp only [chopThen]
    obtain ⟨hv0, hb0⟩ := (chopTok_iff _ _ valueClass_newline b v t).1 hc
    rw [run_plus]
    rw [plusLoop_chop _ (chopToken valueClass '\n')
      (fun s _ t c => c.set 0 (s.take (s.length - t.length))) (ValidTok valueClass)
      (tokLine '\n')
      (fun s c k => run_tokGroup b.length '\n' valueClass_newline s c k)
      (chopTok_iff _ _ valueClass_newline) (chopToken_length _ _ valueClass_newline)
      _ (fun r => r = []) (fun s c => eot_isSome b.length s c) t.length t _ (le_refl _)]
    constructor
    · rintro ⟨as, r, hne, hv, hs, rfl⟩
      refine ⟨v :: as, ?_, ?_, ?_⟩
      · match as, hne with
        | a :: as', _ => simp
      · intro x hx
        rcases List.mem_cons.1 hx with rfl | hx
        · exact hv0
        · exact hv x hx
      · rw [hb0, hs]
        simp [encAll]
    · rintro ⟨ts, hlen, hv, hb⟩
      match ts, hlen with
      | t0 :: t1 :: ts', _ =>
        have := (chopTok_iff _ _ valueClass_newline b t0
          (encAll (tokLine '\n') (t1 :: ts'))).2 ⟨hv t0 (by simp), by rw [hb]; rfl⟩
        rw [hc] at this
        simp only [Option.some.injEq, Prod.mk.injEq] at this
        obtain ⟨rfl, rfl⟩ := this
        exact ⟨t1 :: ts', [], by simp, fun x hx => hv x (by simp [hx]), by simp, rfl⟩

theorem search_of_matchAt (re : Regex) (n : Nat) (s : List Char) (r : MatchEnd)
    (h : re.matchAt n s = some r) : re.search n s = some (s, r) := by
  cases s with
  | nil => simp [Regex.search, h]
  | cons x t => simp [Regex.search, h]

/-- The items pattern `([\d-]+)sep` takes one token off the front of the text. -/
theorem matchAt_tokItem (n : Nat) (sep : Char) (hsep : valueClass.mem sep = false)
    (s : List Char) :
    (Regex.seq (.grp 0 valuePattern) (.lit sep)).matchAt n s =
      (chopToken valueClass sep s).map (fun p => (p.2, [p.1])) := by
  unfold Regex.matchAt valuePattern
  rw [run_grp_token n 0 valueClass sep hsep]
  cases chopToken valueClass sep s with
  | none => rfl
  | some p => rfl

/-- The items pattern of the key/value entry takes one line off the front. -/
theorem matchAt_kvItem (n : Nat) (s : List Char) :
    (Regex.seq (.grp 0 keyPattern)
        (.seq (.lit ' ') (.seq (.grp 1 valuePattern) (.lit '\n')))).matchAt n s =
      (chopKV s).map (fun p => (p.2, [p.1.1, p.1.2])) := by
  have hassoc : ∀ c k,
      (Regex.seq (.grp 0 keyPattern)
        (.seq (.lit ' ') (.seq (.grp 1 valuePattern) (.lit '\n')))).run n s c k =
      (Regex.seq (.grp 0 keyPattern) (.lit ' ')).run n s c
        (fun s' c' => (Regex.seq (.grp 1 valuePattern) (.lit '\n')).run n s' c' k) := by
    intro c k
    simp only [run_seq]
  unfold Regex.matchAt
  rw [hassoc]
  unfold keyPattern valuePattern
  rw [run_grp_token n 0 keyClass ' ' keyClass_space]
  unfold chopKV
  cases h1 : chopToken keyClass ' ' s with
  | none => rfl
  | some p1 =>
    obtain ⟨key, t1⟩ := p1
    simp only [chopThen]
    rw [run_grp_token n 1 valueClass '\n' valueClass_newline]
    cases h2 : chopToken valueClass '\n' t1 with
    | none => rfl
    | some p2 => rfl

/-- Successive matches of an items pattern on a text made of items: one match
per item, and nothing more once the rest holds no match. -/
theorem allMatches_items {α : Type} (re : Regex) (n : Nat)
    (chop : List Char → Option (α × List Char)) (caps : α → Caps)
    (valid : α → Prop) (enc : α → List Char)
    (hm : ∀ s, re.matchAt n s = (chop s).map (fun p => (p.2, caps p.1)))
    (hchop : ∀ s a t, chop s = some (a, t) ↔ valid a ∧ s = enc a ++ t)
    (hlt : ∀ s a t, chop s = some (a, t) → t.length < s.length)
    (tail : List Char) (htail : re.search n tail = none) :
    ∀ (as : List α) (fuel : Nat) (prev : Option Nat), (∀ a ∈ as, valid a) →
      as.length < fuel →
      allMatches re n fuel (encAll enc as ++ tail) prev =
        as.map (fun a => String.mk (enc a) :: (caps a).map String.mk) := by
  intro as
  induction as with
  | nil =>
    intro fuel prev _ hf
    match fuel, hf with
    | f + 1, _ => simp [allMatches, encAll, htail]
  | cons a as ih =>
    intro fuel prev hv hf
    match fuel, hf with
    | f + 1, hf =>
      have he : encAll enc (a :: as) ++ tail = enc a ++ (encAll enc as ++ tail) := by
        simp [encAll]
      rw [he]
      have hc : chop (enc a ++ (encAll enc as ++ tail)) = some (a, encAll enc as ++ tail) := by
        rw [hchop]
        exact ⟨hv a (by simp), rfl⟩
      have hlen := hlt _ _ _ hc
      have hsearch := search_of_matchAt re n _ (encAll enc as ++ tail, caps a)
        (by rw [hm, hc]; rfl)
      have htake : (enc a ++ (encAll enc as ++ tail)).take
          ((enc a ++ (encAll enc as ++ tail)).length - (encAll enc as ++ tail).length)
            = enc a := by
        apply List.take_left'
        simp only [List.length_append]
        omega
      rw [allMatches, hsearch]
      simp only [htake]
      rw [if_neg (by omega)]
      rw [ih f _ (fun x hx => hv x (by simp [hx])) (by simpa using hf)]
      simp

end Matcher

/-! ## Lemmas on maps and index texts -/

section Maps

theorem mapSet_append {α : Type} (m : List (String × α)) (k : String) (v : α)
    (h : k ∉ m.map Prod.fst) : mapSet m k v = m ++ [(k, v)] := by
  induction m with
  | nil => rfl
  | cons p m ih =>
    obtain ⟨k', v'⟩ := p
    have hne : k' ≠ k := by
      intro hk
      apply h
      simp [hk]
    have hm : k ∉ m.map Prod.fst := by
      intro hk
      apply h
      simp only [List.map_cons, List.mem_cons]
      exact Or.inr hk
    simp [mapSet, hne, ih hm]

theorem digitChar_val (d : Nat) (h : d < 10) : (Nat.digitChar d).toNat - 48 = d := by
  interval_cases d <;> rfl

theorem digitsVal_toDigitsCore : ∀ (fuel n : Nat) (ds : List Char), n < fuel →
    digitsVal 0 (Nat.toDigitsCore 10 fuel n ds) = digitsVal n ds := by
  intro fuel
  induction fuel with
  | zero => intro n ds h; omega
  | succ f ih =>
    intro n ds h
    rw [Nat.toDigitsCore]
    split
    · rename_i h0
      have hn : n % 10 = n := by omega
      simp only [digitsVal, List.foldl_cons, Nat.mul_zero, Nat.zero_add]
      rw [digitChar_val _ (Nat.mod_lt _ (by decide)), hn]
    · rename_i h0
      rw [ih (n / 10) _ (by omega)]
      simp only [digitsVal, List.foldl_cons]
      rw [digitChar_val _ (Nat.mod_lt _ (by decide))]
      congr 1
      omega

/-- Distinct indices have distinct decimal texts. -/
theorem Itoa_injective (a b : Nat) (h : Itoa a = Itoa b) : a = b := by
  unfold Itoa Nat.repr Nat.toDigits List.asString at h
  have h' := congrArg (fun s => digitsVal 0 s.data) h
  simp only at h'
  rw [digitsVal_toDigitsCore _ _ _ (Nat.lt_succ_self a),
    digitsVal_toDigitsCore _ _ _ (Nat.lt_succ_self b)] at h'
  simpa [digitsVal] using h'

end Maps

section Parse

theorem splitWhere_append_sep (p : Char → Bool) (sep : Char) (hsep : p sep = true)
    (v rest : List Char) (hv : ∀ x ∈ v, p x = false) :
    splitWhere p (v ++ sep :: rest) = v :: splitWhere p rest := by
  induction v with
  | nil => simp [splitWhere, hsep]
  | cons x v ih =>
    have hx := hv x (by simp)
    have ih' := ih (fun y hy => hv y (by simp [hy]))
    simp [splitWhere, hx, ih']

theorem validTok_not_sep (cc : CharClass) (sep : Char) (hsep : cc.mem sep = false)
    (v : List Char) (hv : ValidTok cc v) : ∀ x ∈ v, x ≠ sep := by
  intro x hx hxs
  have := hv.2 x hx
  rw [hxs, hsep] at this
  exact Bool.false_ne_true this

theorem wordsOf_tokens (sep : Char) (hs : sep = ' ' ∨ sep = '\n') (tail : List Char) :
    ∀ ts : List (List Char), (∀ t ∈ ts, ValidTok valueClass t) →
      wordsOf (encAll (tokLine sep) ts ++ tail) = ts ++ wordsOf tail := by
  intro ts
  induction ts with
  | nil => intro _; simp [encAll]
  | cons t ts ih =>
    intro hv
    have ht := hv t (by simp)
    have hsp := validTok_not_sep valueClass ' ' valueClass_space t ht
    have hnl := validTok_not_sep valueClass '\n' valueClass_newline t ht
    have hsplit : splitWhere (fun c => c == ' ' || c == '\n')
        (t ++ sep :: (encAll (tokLine sep) ts ++ tail))
        = t :: splitWhere (fun c => c == ' ' || c == '\n') (encAll (tokLine sep) ts ++ tail) := by
      apply splitWhere_append_sep
      · rcases hs with rfl | rfl <;> simp
      · intro x hx
        simp [hsp x hx, hnl x hx]
    have he : encAll (tokLine sep) (t :: ts) ++ tail
        = t ++ sep :: (encAll (tokLine sep) ts ++ tail) := by
      simp [encAll, tokLine]
    have hne : t ≠ [] := ht.1
    have ih' := ih (fun x hx => hv x (by simp [hx]))
    unfold wordsOf at ih' ⊢
    rw [he, hsplit, List.filter_cons, ih']
    cases t with
    | nil => exact absurd rfl hne
    | cons x t' => simp

theorem linesOf_kv : ∀ ls : List (List Char × List Char),
    (∀ l ∈ ls, ValidTok keyClass l.1 ∧ ValidTok valueClass l.2) →
    splitWhere (fun c => c == '\n') (encAll kvLine ls)
      = ls.map (fun l => l.1 ++ ' ' :: l.2) ++ [[]] := by
  intro ls
  induction ls with
  | nil => intro _; simp [encAll, splitWhere]
  | cons l ls ih =>
    intro hv
    obtain ⟨hk, hval⟩ := hv l (by simp)
    have hknl : ∀ x ∈ l.1, x ≠ '\n' :=
      validTok_not_sep keyClass '\n' (by decide) l.1 hk
    have hvnl := validTok_not_sep valueClass '\n' valueClass_newline l.2 hval
    have he : encAll kvLine (l :: ls) = (l.1 ++ ' ' :: l.2) ++ '\n' :: encAll kvLine ls := by
      simp [encAll, kvLine]
    rw [he, splitWhere_append_sep _ '\n' (by simp), ih (fun x hx => hv x (by simp [hx]))]
    · simp
    · intro x hx
      simp only [List.mem_append, List.mem_cons] at hx
      rcases hx with hx | rfl | hx
      · simp [hknl x hx]
      · simp
      · simp [hvnl x hx]

theorem takeWhile_append_sep' (k v : List Char) (hk : ∀ x ∈ k, x ≠ ' ') :
    (k ++ ' ' :: v).takeWhile (fun c => c != ' ') = k ∧
      (k ++ ' ' :: v).dropWhile (fun c => c != ' ') = ' ' :: v := by
  induction k with
  | nil => simp [List.takeWhile_cons, List.dropWhile_cons]
  | cons x k ih =>
    have hx := hk x (by simp)
    have ih' := ih (fun y hy => hk y (by simp [hy]))
    simp [List.takeWhile_cons, List.dropWhile_cons, hx, ih'.1, ih'.2]

theorem kvLines_kv (ls : List (List Char × List Char))
    (hv : ∀ l ∈ ls, ValidTok keyClass l.1 ∧ ValidTok valueClass l.2) :
    kvLines (encAll kvLine ls) = ls.map (fun l => (String.mk l.1, String.mk l.2)) := by
  unfold kvLines linesOf
  rw [linesOf_kv ls hv, List.dropLast_concat, List.map_map]
  apply List.map_congr_left
  intro l hl
  have hksp := validTok_not_sep keyClass ' ' keyClass_space l.1 (hv l hl).1
  obtain ⟨h1, h2⟩ := takeWhile_append_sep' l.1 l.2 hksp
  simp only [Function.comp]
  rw [h1, h2]
  simp

theorem encAll_length {α : Type} (enc : α → List Char) (henc : ∀ a, 0 < (enc a).length) :
    ∀ as : List α, as.length ≤ (encAll enc as).length := by
  intro as
  induction as with
  | nil => simp
  | cons a as ih =>
    have := henc a
    simp only [encAll, List.length_cons, List.length_append]
    omega

theorem value_key_inj (a b : Nat) (h : "value_" ++ Itoa a = "value_" ++ Itoa b) : a = b := by
  apply Itoa_injective
  have h' := congrArg String.data h
  simp only [String.data_append] at h'
  exact String.ext (List.append_cancel_left h')

theorem valueListLoop_tokens (sep : Char) :
    ∀ (ts : List (List Char)) (i : Nat) (fields : FieldMap),
      (∀ j, ("value_" ++ Itoa (i + j)) ∉ fields.map Prod.fst) →
      valueListLoop (ts.map (fun t => [String.mk (tokLine sep t), String.mk t])) i fields
        = some (fields ++ valueFieldsFrom i (ts.map String.mk)) := by
  intro ts
  induction ts with
  | nil => intro i fields _; simp [valueListLoop, valueFieldsFrom]
  | cons t ts ih =>
    intro i fields hf
    simp only [List.map_cons, valueListLoop, List.map_nil, List.getElem?_cons_succ,
      List.getElem?_cons_zero]
    rw [mapSet_append _ _ _ (by simpa using hf 0), ih]
    · simp [valueFieldsFrom]
    · intro j
      simp only [List.map_append, List.map_cons, List.map_nil, List.mem_append,
        List.mem_singleton, not_or]
      constructor
      · have := hf (1 + j)
        rwa [← Nat.add_assoc] at this
      · intro h
        have := value_key_inj _ _ h
        omega

theorem valueFieldsFrom_length : ∀ (ts : List String) (i : Nat),
    (valueFieldsFrom i ts).length = ts.length := by
  intro ts
  induction ts with
  | nil => intro i; rfl
  | cons t ts ih => intro i; simp [valueFieldsFrom, ih]

theorem valueFieldsFrom_keys : ∀ (ts : List String) (i : Nat),
    (valueFieldsFrom i ts).map Prod.fst
      = (List.range ts.length).map (fun j => "value_" ++ Itoa (i + j)) := by
  intro ts
  induction ts with
  | nil => intro i; rfl
  | cons t ts ih =>
    intro i
    simp only [valueFieldsFrom, List.map_cons, List.length_cons, List.range_succ_eq_map,
      List.map_map, ih, Nat.add_zero]
    congr 1
    apply List.map_congr_left
    intro j _
    simp only [Function.comp, Nat.succ_eq_add_one]
    congr 2
    omega

theorem keyValueLoop_lines :
    ∀ (ls : List (List Char × List Char)) (fields : FieldMap),
      (fields.map Prod.fst ++ ls.map (fun l => String.mk l.1)).Nodup →
      keyValueLoop (ls.map (fun l => [String.mk (kvLine l), String.mk l.1, String.mk l.2]))
          fields
        = some (fields ++ ls.map (fun l => (String.mk l.1, numberOrString (String.mk l.2)))) := by
  intro ls
  induction ls with
  | nil => intro fields _; simp [keyValueLoop]
  | cons l ls ih =>
    intro fields hnd
    have hnot : String.mk l.1 ∉ fields.map Prod.fst := by
      intro hmem
      rw [List.nodup_append] at hnd
      exact hnd.2.2 hmem (by simp)
    simp only [List.map_cons, keyValueLoop, List.map_nil, List.getElem?_cons_succ,
      List.getElem?_cons_zero]
    rw [mapSet_append _ _ _ hnot, ih]
    · simp
    · simpa using hnd

theorem chopToken_unique (cc : CharClass) (sep1 sep2 : Char) (h1 : cc.mem sep1 = false)
    (h2 : cc.mem sep2 = false) (s v1 t1 v2 t2 : List Char)
    (e1 : chopToken cc sep1 s = some (v1, t1)) (e2 : chopToken cc sep2 s = some (v2, t2)) :
    sep1 = sep2 ∧ v1 = v2 ∧ t1 = t2 := by
  obtain ⟨hv1, hs1⟩ := (chopToken_eq_some cc sep1 h1 s v1 t1).1 e1
  obtain ⟨hv2, hs2⟩ := (chopToken_eq_some cc sep2 h2 s v2 t2).1 e2
  obtain ⟨a1, b1⟩ := takeWhile_append_sep cc sep1 h1 v1 t1 hv1.2
  obtain ⟨a2, b2⟩ := takeWhile_append_sep cc sep2 h2 v2 t2 hv2.2
  rw [← hs1] at a1 b1
  rw [← hs2] at a2 b2
  rw [a1] at a2
  rw [b1] at b2
  simp only [List.cons.injEq] at b2
  exact ⟨b2.1, a2, b2.2⟩

theorem single_chop (b : List Char) (h : singleValueFormat.«match» b = true) :
    ∃ v, chopToken valueClass '\n' b = some (v, []) := by
  obtain ⟨v, hv, hb⟩ := (singleValue_match_iff b).1 h
  exact ⟨v, (chopToken_eq_some _ _ valueClass_newline b v []).2 ⟨hv, hb⟩⟩

theorem newLine_chop (b : List Char) (h : newLineFormat.«match» b = true) :
    ∃ v t, t ≠ [] ∧ chopToken valueClass '\n' b = some (v, t) := by
  obtain ⟨ts, hlen, hv, hb⟩ := (newLine_match_iff b).1 h
  match ts, hlen with
  | t0 :: t1 :: ts', _ =>
    refine ⟨t0, encAll (tokLine '\n') (t1 :: ts'), ?_, ?_⟩
    · simp [encAll, tokLine]
    · exact (chopTok_iff _ _ valueClass_newline b t0 _).2 ⟨hv t0 (by simp), by rw [hb]; rfl⟩

theorem space_chop (b : List Char) (h : spaceFormat.«match» b = true) :
    ∃ v t, chopToken valueClass ' ' b = some (v, t) := by
  obtain ⟨ts, hne, hv, hb⟩ := (space_match_iff b).1 h
  match ts, hne with
  | t0 :: ts', _ =>
    exact ⟨t0, encAll (tokLine ' ') ts' ++ ['\n'],
      (chopTok_iff _ _ valueClass_space b t0 _).2
        ⟨hv t0 (by simp), by rw [hb]; simp [encAll]⟩⟩

theorem chopToken_head (cc : CharClass) (sep : Char) (hsep : cc.mem sep = false)
    (s v t : List Char) (h : chopToken cc sep s = some (v, t)) :
    ∃ x r, s = x :: r ∧ cc.mem x = true := by
  obtain ⟨hv, hs⟩ := (chopToken_eq_some cc sep hsep s v t).1 h
  match v, hv with
  | x :: v', hv => exact ⟨x, v' ++ sep :: t, by rw [hs]; rfl, hv.2 x (by simp)⟩

theorem keyValue_head (b : List Char) (h : keyValueFormat.«match» b = true) :
    ∃ x r, b = x :: r ∧ keyClass.mem x = true := by
  obtain ⟨ls, hne, hv, hb⟩ := (keyValue_match_iff b).1 h
  match ls, hne with
  | l :: ls', _ =>
    obtain ⟨hk, _⟩ := hv l (by simp)
    match hl : l.1, hk with
    | x :: k', hk =>
      refine ⟨x, k' ++ ' ' :: (l.2 ++ ['\n']) ++ encAll kvLine ls', ?_, hk.2 x (by simp)⟩
      rw [hb]
      simp [encAll, kvLine, hl]

theorem key_not_value (x : Char) (hk : keyClass.mem x = true) : valueClass.mem x = false := by
  rw [keyClass_mem] at hk
  cases hv : valueClass.mem x with
  | false => rfl
  | true =>
    rw [valueClass_mem] at hv
    omega

/-- Two entries of the table never accept the same content. -/
theorem match_exclusive (b : List Char) :
    (newLineFormat.«match» b = true → singleValueFormat.«match» b = false) ∧
    (spaceFormat.«match» b = true →
      singleValueFormat.«match» b = false ∧ newLineFormat.«match» b = false) ∧
    (keyValueFormat.«match» b = true →
      singleValueFormat.«match» b = false ∧ newLineFormat.«match» b = false ∧
        spaceFormat.«match» b = false) := by
  refine ⟨?_, ?_, ?_⟩
  · intro h
    obtain ⟨v, t, hne, hc⟩ := newLine_chop b h
    cases hs : singleValueFormat.«match» b with
    | false => rfl
    | true =>
      obtain ⟨v', hc'⟩ := single_chop b hs
      have := chopToken_unique _ _ _ valueClass_newline valueClass_newline b _ _ _ _ hc hc'
      exact absurd this.2.2 hne
  · intro h
    obtain ⟨v, t, hc⟩ := space_chop b h
    constructor
    · cases hs : singleValueFormat.«match» b with
      | false => rfl
      | true =>
        obtain ⟨v', hc'⟩ := single_chop b hs
        have := chopToken_unique _ _ _ valueClass_space valueClass_newline b _ _ _ _ hc hc'
        exact absurd this.1 (by decide)
    · cases hs : newLineFormat.«match» b with
      | false => rfl
      | true =>
        obtain ⟨v', t', _, hc'⟩ := newLine_chop b hs
        have := chopToken_unique _ _ _ valueClass_space valueClass_newline b _ _ _ _ hc hc'
        exact absurd this.1 (by decide)
  · intro h
    obtain ⟨x, r, hb, hx⟩ := keyValue_head b h
    have hnv := key_not_value x hx
    have hno : ∀ sep, valueClass.mem sep = false → ∀ v t,
        chopToken valueClass sep b ≠ some (v, t) := by
      intro sep hsep v t hc
      obtain ⟨y, r', hb', hy⟩ := chopToken_head _ _ hsep b v t hc
      rw [hb] at hb'
      simp only [List.cons.injEq] at hb'
      rw [← hb'.1, hnv] at hy
      exact Bool.false_ne_true hy
    refine ⟨?_, ?_, ?_⟩
    · cases hs : singleValueFormat.«match» b with
      | false => rfl
      | true =>
        obtain ⟨v', hc'⟩ := single_chop b hs
        exact absurd hc' (hno _ valueClass_newline _ _)
    · cases hs : newLineFormat.«match» b with
      | false => rfl
      | true =>
        obtain ⟨v', t', _, hc'⟩ := newLine_chop b hs
        exact absurd hc' (hno _ valueClass_newline _ _)
    · cases hs : spaceFormat.«match» b with
      | false => rfl
      | true =>
        obtain ⟨v', t', hc'⟩ := space_chop b hs
        exact absurd hc' (hno _ valueClass_space _ _)

theorem chopToken_nil (cc : CharClass) (sep : Char) : chopToken cc sep [] = none := by
  simp [chopToken]

theorem search_tokItem_nil (n : Nat) (sep : Char) (hsep : valueClass.mem sep = false) :
    (Regex.seq (.grp 0 valuePattern) (.lit sep)).search n [] = none := by
  rw [Regex.search, matchAt_tokItem n sep hsep, chopToken_nil]
  rfl

theorem search_tokItem_newline (n : Nat) :
    (Regex.seq (.grp 0 valuePattern) (.lit ' ')).search n ['\n'] = none := by
  have h : chopToken valueClass ' ' ['\n'] = none := by decide
  rw [Regex.search, matchAt_tokItem n ' ' valueClass_space, h]
  simp only [Option.map_none']
  exact search_tokItem_nil n ' ' valueClass_space

/-- Items found in a content made of tokens each followed by the separator. -/
theorem findAll_tokens (sep : Char) (hsep : valueClass.mem sep = false)
    (ts : List (List Char)) (hv : ∀ t ∈ ts, ValidTok valueClass t) (tail : List Char)
    (htail : ∀ n, (Regex.seq (.grp 0 valuePattern) (.lit sep)).search n tail = none) :
    FindAllStringSubmatch (.seq (.grp 0 valuePattern) (.lit sep))
        (encAll (tokLine sep) ts ++ tail)
      = ts.map (fun t => [String.mk (tokLine sep t), String.mk t]) := by
  unfold FindAllStringSubmatch
  rw [allMatches_items _ _ (chopToken valueClass sep) (fun v => [v]) (ValidTok valueClass)
    (tokLine sep) (matchAt_tokItem _ sep hsep) (chopTok_iff _ _ hsep)
    (chopToken_length _ _ hsep) tail (htail _) ts _ none hv]
  · simp
  · have := encAll_length (tokLine sep) (fun a => by simp [tokLine]) ts
    simp only [List.length_append]
    omega

/-- Items found in a content made of key/value lines. -/
theorem findAll_kv (ls : List (List Char × List Char))
    (hv : ∀ l ∈ ls, ValidTok keyClass l.1 ∧ ValidTok valueClass l.2) :
    FindAllStringSubmatch
        (.seq (.grp 0 keyPattern) (.seq (.lit ' ') (.seq (.grp 1 valuePattern) (.lit '\n'))))
        (encAll kvLine ls)
      = ls.map (fun l => [String.mk (kvLine l), String.mk l.1, String.mk l.2]) := by
  unfold FindAllStringSubmatch
  have htail : ∀ n, (Regex.seq (.grp 0 keyPattern)
      (.seq (.lit ' ') (.seq (.grp 1 valuePattern) (.lit '\n')))).search n [] = none := by
    intro n
    have h : chopKV [] = none := by decide
    rw [Regex.search, matchAt_kvItem, h]
    rfl
  have h := allMatches_items _ (encAll kvLine ls).length chopKV (fun l => [l.1, l.2])
    (fun l => ValidTok keyClass l.1 ∧ ValidTok valueClass l.2) kvLine
    (matchAt_kvItem _) chopKV_iff chopKV_length [] (htail _) ls
    ((encAll kvLine ls).length + 1) none hv
    (by
      have := encAll_length kvLine (fun a => by simp [kvLine]) ls
      omega)
  rw [List.append_nil] at h
  rw [h]
  simp

/-- Items found in a content made of one token and a newline. -/
theorem findAll_single (v : List Char) (hv : ValidTok valueClass v) :
    FindAllStringSubmatch
        (.seq .bot (.seq (.grp 0 valuePattern) (.seq (.lit '\n') .eot))) (v ++ ['\n'])
      = [[String.mk (v ++ ['\n']), String.mk v]] := by
  have hc : chopToken valueClass '\n' (v ++ ['\n']) = some (v, []) :=
    (chopToken_eq_some _ _ valueClass_newline _ _ _).2 ⟨hv, rfl⟩
  have hm : (Regex.seq .bot (.seq (.grp 0 valuePattern) (.seq (.lit '\n') .eot))).matchAt
      (v ++ ['\n']).length (v ++ ['\n']) = some ([], [v]) := by
    unfold Regex.matchAt
    rw [run_seq]
    have hassoc : ∀ s c k,
        (Regex.seq (.grp 0 valuePattern) (.seq (.lit '\n') .eot)).run (v ++ ['\n']).length s c k
        = (Regex.seq (.grp 0 valuePattern) (.lit '\n')).run (v ++ ['\n']).length s c
            (fun s' c' => Regex.eot.run (v ++ ['\n']).length s' c' k) := by
      intro s c k
      simp only [run_seq]
    rw [Regex.run, if_pos rfl, hassoc]
    unfold valuePattern
    rw [run_grp_token _ 0 valueClass '\n' valueClass_newline, hc]
    rfl
  have hs := search_of_matchAt _ _ _ _ hm
  have hnil : (Regex.seq .bot (.seq (.grp 0 valuePattern) (.seq (.lit '\n') .eot))).search
      (v ++ ['\n']).length [] = none := by
    apply search_bot_none
    simp
  unfold FindAllStringSubmatch
  rw [allMatches, hs]
  have hlen : (v ++ ['\n']).length = v.length + 1 := by simp
  simp only [List.length_nil, Nat.sub_zero, List.take_length]
  rw [if_neg (by rw [hlen]; omega), hlen, allMatches, ← hlen, hnil]
  simp

theorem format_single (path : String) (b : List Char)
    (h : singleValueFormat.«match» b = true) :
    (fileInfo.mk b path).format = .ok singleValueFormat := by
  simp [fileInfo.format, fileFormats, fileInfo.formatLoop, h]

theorem format_newLine (path : String) (b : List Char)
    (h : newLineFormat.«match» b = true) :
    (fileInfo.mk b path).format = .ok newLineFormat := by
  have h1 := (match_exclusive b).1 h
  simp [fileInfo.format, fileFormats, fileInfo.formatLoop, h, h1]

theorem format_space (path : String) (b : List Char)
    (h : spaceFormat.«match» b = true) :
    (fileInfo.mk b path).format = .ok spaceFormat := by
  obtain ⟨h1, h2⟩ := (match_exclusive b).2.1 h
  simp [fileInfo.format, fileFormats, fileInfo.formatLoop, h, h1, h2]

theorem format_keyValue (path : String) (b : List Char)
    (h : keyValueFormat.«match» b = true) :
    (fileInfo.mk b path).format = .ok keyValueFormat := by
  obtain ⟨h1, h2, h3⟩ := (match_exclusive b).2.2 h
  simp [fileInfo.format, fileFormats, fileInfo.formatLoop, h, h1, h2, h3]

theorem parse_single_enc (path : String) (v : List Char) (hv : ValidTok valueClass v) :
    (fileInfo.mk (v ++ ['\n']) path).parse
      = .ok ([("value", numberOrString (String.mk v))], []) := by
  have hm := (singleValue_match_iff (v ++ ['\n'])).2 ⟨v, hv, rfl⟩
  unfold fileInfo.parse
  rw [format_single path _ hm]
  simp only [singleValueFormat, createParser]
  rw [findAll_single v hv]
  simp [singleValueFn, mapSet]

theorem parse_newLine_enc (path : String) (ts : List (List Char)) (hlen : 2 ≤ ts.length)
    (hv : ∀ t ∈ ts, ValidTok valueClass t) :
    (fileInfo.mk (encAll (tokLine '\n') ts) path).parse
      = .ok (valueFieldsFrom 0 (ts.map String.mk), []) := by
  have hm := (newLine_match_iff (encAll (tokLine '\n') ts)).2 ⟨ts, hlen, hv, rfl⟩
  unfold fileInfo.parse
  rw [format_newLine path _ hm]
  simp only [newLineFormat, createParser]
  have h := findAll_tokens '\n' valueClass_newline ts hv []
    (fun n => search_tokItem_nil n '\n' valueClass_newline)
  rw [List.append_nil] at h
  rw [h]
  simp only [valueListFn]
  rw [valueListLoop_tokens '\n' ts 0 [] (by simp)]
  simp

theorem parse_space_enc (path : String) (ts : List (List Char)) (hne : ts ≠ [])
    (hv : ∀ t ∈ ts, ValidTok valueClass t) :
    (fileInfo.mk (encAll (tokLine ' ') ts ++ ['\n']) path).parse
      = .ok (valueFieldsFrom 0 (ts.map String.mk), []) := by
  have hm := (space_match_iff (encAll (tokLine ' ') ts ++ ['\n'])).2 ⟨ts, hne, hv, rfl⟩
  unfold fileInfo.parse
  rw [format_space path _ hm]
  simp only [spaceFormat, createParser]
  rw [findAll_tokens ' ' valueClass_space ts hv ['\n'] search_tokItem_newline]
  simp only [valueListFn]
  rw [valueListLoop_tokens ' ' ts 0 [] (by simp)]
  simp

theorem parseKV_enc (path : String) (ls : List (List Char × List Char))
    (hne : ls ≠ []) (hv : ∀ l ∈ ls, ValidTok keyClass l.1 ∧ ValidTok valueClass l.2)
    (hnd : (ls.map (fun l => String.mk l.1)).Nodup) :
    (fileInfo.mk (encAll kvLine ls) path).parse
      = .ok (ls.map (fun l => (String.mk l.1, numberOrString (String.mk l.2))), []) := by
  have hm := (keyValue_match_iff (encAll kvLine ls)).2 ⟨ls, hne, hv, rfl⟩
  unfold fileInfo.parse
  rw [format_keyValue path _ hm]
  simp only [keyValueFormat, createParser]
  rw [findAll_kv ls hv]
  simp only [keyValueFn]
  rw [keyValueLoop_lines ls [] (by simpa using hnd)]
  simp

theorem mapSet_length {α : Type} (m : List (String × α)) (k : String) (v : α) :
    m.length ≤ (mapSet m k v).length ∧ 1 ≤ (mapSet m k v).length := by
  induction m with
  | nil => simp [mapSet]
  | cons p m ih =>
    obtain ⟨k', v'⟩ := p
    by_cases hk : k' = k
    · simp [mapSet, hk]
    · simp only [mapSet, hk, if_false, List.length_cons]
      omega

/-- The key/value callback never panics on the items of key/value lines: it
writes the lines into the map one after the other. -/
theorem keyValueLoop_fold :
    ∀ (ls : List (List Char × List Char)) (fields : FieldMap),
      keyValueLoop (ls.map (fun l => [String.mk (kvLine l), String.mk l.1, String.mk l.2]))
          fields
        = some (ls.foldl
            (fun m l => mapSet m (String.mk l.1) (numberOrString (String.mk l.2))) fields) := by
  intro ls
  induction ls with
  | nil => intro fields; rfl
  | cons l ls ih =>
    intro fields
    simp only [List.map_cons, keyValueLoop, List.getElem?_cons_succ,
      List.getElem?_cons_zero, List.foldl_cons]
    rw [ih]

theorem foldl_mapSet_length (ls : List (List Char × List Char)) :
    ∀ fields : FieldMap, fields.length ≤ (ls.foldl
      (fun m l => mapSet m (String.mk l.1) (numberOrString (String.mk l.2))) fields).length := by
  induction ls with
  | nil => intro fields; simp
  | cons l ls ih =>
    intro fields
    simp only [List.foldl_cons]
    have h1 := (mapSet_length fields (String.mk l.1) (numberOrString (String.mk l.2))).1
    have h2 := ih (mapSet fields (String.mk l.1) (numberOrString (String.mk l.2)))
    omega

theorem parseKV_fold (path : String) (ls : List (List Char × List Char))
    (hne : ls ≠ []) (hv : ∀ l ∈ ls, ValidTok keyClass l.1 ∧ ValidTok valueClass l.2) :
    (fileInfo.mk (encAll kvLine ls) path).parse
      = .ok (ls.foldl
          (fun m l => mapSet m (String.mk l.1) (numberOrString (String.mk l.2))) [], []) := by
  have hm := (keyValue_match_iff (encAll kvLine ls)).2 ⟨ls, hne, hv, rfl⟩
  unfold fileInfo.parse
  rw [format_keyValue path _ hm]
  simp only [keyValueFormat, createParser]
  rw [findAll_kv ls hv]
  simp only [keyValueFn]
  rw [keyValueLoop_fold ls []]
  simp

theorem format_ok_cases (d : fileInfo) (f : fileFormat) (h : d.format = .ok f) :
    singleValueFormat.«match» d.data = true ∨ newLineFormat.«match» d.data = true ∨
      spaceFormat.«match» d.data = true ∨ keyValueFormat.«match» d.data = true := by
  by_cases h1 : singleValueFormat.«match» d.data = true
  · exact Or.inl h1
  by_cases h2 : newLineFormat.«match» d.data = true
  · exact Or.inr (Or.inl h2)
  by_cases h3 : spaceFormat.«match» d.data = true
  · exact Or.inr (Or.inr (Or.inl h3))
  by_cases h4 : keyValueFormat.«match» d.data = true
  · exact Or.inr (Or.inr (Or.inr h4))
  simp [fileInfo.format, fileFormats, fileInfo.formatLoop, h1, h2, h3, h4] at h

/-- A successful parse yields at least one field and no tag. -/
theorem parse_ok_shape (d : fileInfo) (fields : FieldMap) (tags : TagMap)
    (h : d.parse = .ok (fields, tags)) : tags = [] ∧ 1 ≤ fields.length := by
  obtain ⟨b, path⟩ := d
  have hf : ∃ f, (fileInfo.mk b path).format = .ok f := by
    unfold fileInfo.parse at h
    cases hfm : (fileInfo.mk b path).format with
    | error e => rw [hfm] at h; simp at h
    | ok f => exact ⟨f, rfl⟩
  obtain ⟨f, hf⟩ := hf
  rcases format_ok_cases _ f hf with h1 | h2 | h3 | h4
  · obtain ⟨v, hv, hb⟩ := (singleValue_match_iff b).1 h1
    subst hb
    rw [parse_single_enc path v hv] at h
    simp only [Except.ok.injEq, Prod.mk.injEq] at h
    obtain ⟨rfl, rfl⟩ := h
    simp
  · obtain ⟨ts, hlen, hv, hb⟩ := (newLine_match_iff b).1 h2
    subst hb
    rw [parse_newLine_enc path ts hlen hv] at h
    simp only [Except.ok.injEq, Prod.mk.injEq] at h
    obtain ⟨rfl, rfl⟩ := h
    refine ⟨rfl, ?_⟩
    rw [valueFieldsFrom_length, List.length_map]
    omega
  · obtain ⟨ts, hne, hv, hb⟩ := (space_match_iff b).1 h3
    subst hb
    rw [parse_space_enc path ts hne hv] at h
    simp only [Except.ok.injEq, Prod.mk.injEq] at h
    obtain ⟨rfl, rfl⟩ := h
    refine ⟨rfl, ?_⟩
    rw [valueFieldsFrom_length, List.length_map]
    exact List.length_pos.2 hne
  · obtain ⟨ls, hne, hv, hb⟩ := (keyValue_match_iff b).1 h4
    subst hb
    rw [parseKV_fold path ls hne hv] at h
    simp only [Except.ok.injEq, Prod.mk.injEq] at h
    obtain ⟨rfl, rfl⟩ := h
    refine ⟨rfl, ?_⟩
    match ls, hne with
    | l :: ls', _ =>
      simp only [List.foldl_cons]
      have h1 := (mapSet_length ([] : FieldMap) (String.mk l.1)
        (numberOrString (String.mk l.2))).2
      have h2 := foldl_mapSet_length ls'
        (mapSet [] (String.mk l.1) (numberOrString (String.mk l.2)))
      exact le_trans h1 h2

theorem plusLoop_result (step : List Char → Caps → Cont → Option MatchEnd)
    (hstep : ∀ s c k r, step s c k = some r → ∃ s' c', k s' c' = some r) :
    ∀ (f : Nat) (s : List Char) (c : Caps) (k : Cont) (r : MatchEnd),
      plusLoop step f s c k = some r → ∃ s' c', k s' c' = some r := by
  intro f
  induction f with
  | zero =>
    intro s c k r h
    exact hstep s c k r h
  | succ f ih =>
    intro s c k r h
    rw [plusLoop] at h
    obtain ⟨s', c', h'⟩ := hstep _ _ _ _ h
    split at h'
    · rename_i r0 hr0
      split at hr0
      · simp only [Option.some.injEq] at h'
        subst h'
        exact ih _ _ _ _ hr0
      · simp at hr0
    · exact ⟨s', c', h'⟩

/-- Whatever a match attempt returns was returned by its continuation. -/
theorem run_result (n : Nat) : ∀ (re : Regex) (s : List Char) (c : Caps) (k : Cont)
    (r : MatchEnd), re.run n s c k = some r → ∃ s' c', k s' c' = some r := by
  intro re
  induction re with
  | bot =>
    intro s c k r h
    rw [Regex.run] at h
    split at h
    · exact ⟨s, c, h⟩
    · simp at h
  | eot =>
    intro s c k r h
    cases s with
    | nil => exact ⟨[], c, by simpa [Regex.run] using h⟩
    | cons x t => simp [Regex.run] at h
  | lit a =>
    intro s c k r h
    cases s with
    | nil => simp [Regex.run] at h
    | cons x t =>
      by_cases hx : x = a
      · exact ⟨t, c, by simpa [Regex.run, hx] using h⟩
      · simp [Regex.run, hx] at h
  | cls cc =>
    intro s c k r h
    cases s with
    | nil => simp [Regex.run] at h
    | cons x t =>
      cases hx : cc.mem x with
      | true => exact ⟨t, c, by simpa [Regex.run, hx] using h⟩
      | false => simp [Regex.run, hx] at h
  | seq a b iha ihb =>
    intro s c k r h
    rw [Regex.run] at h
    obtain ⟨s', c', h'⟩ := iha _ _ _ _ h
    exact ihb _ _ _ _ h'
  | plus a iha =>
    intro s c k r h
    rw [Regex.run] at h
    exact plusLoop_result _ (fun s c k r h => iha s c k r h) _ _ _ _ _ h
  | grp i a iha =>
    intro s c k r h
    rw [Regex.run] at h
    obtain ⟨s', c', h'⟩ := iha _ _ _ _ h
    exact ⟨s', _, h'⟩

theorem endsAtEot_eot : EndsAtEot .eot := by
  intro n s c r h
  cases s with
  | nil =>
    simp only [Regex.run, Option.some.injEq] at h
    rw [← h]
  | cons x t => simp [Regex.run] at h

theorem endsAtEot_seq (a b : Regex) (hb : EndsAtEot b) : EndsAtEot (.seq a b) := by
  intro n s c r h
  rw [Regex.run] at h
  obtain ⟨s', c', h'⟩ := run_result n a _ _ _ _ h
  exact hb n s' c' r h'

theorem regexpMatch_whole (x : Regex) (hx : EndsAtEot x) (b : List Char) :
    regexpMatch (.seq .bot x) b = true ↔
      ∃ c, (Regex.seq .bot x).matchAt b.length b = some ([], c) := by
  constructor
  · intro h
    rw [regexpMatch_bot] at h
    have hm : (Regex.seq .bot x).matchAt b.length b
        = x.run b.length b (List.replicate (Regex.seq .bot x).numCap [])
            (fun s' c' => some (s', c')) := by
      unfold Regex.matchAt
      rw [Regex.run, Regex.run, if_pos rfl]
    rw [hm]
    cases hr : x.run b.length b (List.replicate (Regex.seq .bot x).numCap [])
        (fun s' c' => some (s', c')) with
    | none => rw [hr] at h; simp at h
    | some r =>
      obtain ⟨r1, r2⟩ := r
      have := hx _ _ _ _ hr
      simp only at this
      subst this
      exact ⟨r2, rfl⟩
  · rintro ⟨c, hc⟩
    unfold regexpMatch
    rw [search_of_matchAt _ _ _ _ hc]
    rfl

theorem formatLoop_find (d : fileInfo) : ∀ l : List fileFormat,
    d.formatLoop l =
      match l.find? (fun f => f.«match» d.data) with
      | some f => Except.ok f
      | none => Except.error (Fault.error (d.path ++ ": unknown file format")) := by
  intro l
  induction l with
  | nil => rfl
  | cons f l ih =>
    by_cases hf : f.«match» d.data = true
    · simp [fileInfo.formatLoop, List.find?, hf]
    · simp only [Bool.not_eq_true] at hf
      simp only [fileInfo.formatLoop, hf, List.find?, ih]
      rfl

end Parse

section Aggregator

theorem gatherDirLoop_ok (fs : FileSystem) (dir : String) :
    ∀ (files : List String) (sv : FieldMap) (acc : List Record) (sv' : FieldMap)
      (acc' : List Record),
      gatherDirLoop fs dir files sv acc = (sv', acc', none) →
      acc' = acc ++ files.filterMap (standaloneRecord fs dir) ∧
        sv' = singleValuesFrom fs dir files sv := by
  intro files
  induction files with
  | nil =>
    intro sv acc sv' acc' h
    simp only [gatherDirLoop, Prod.mk.injEq, and_true] at h
    simp [singleValuesFrom, h.1, h.2]
  | cons file rest ih =>
    intro sv acc sv' acc' h
    rw [gatherDirLoop] at h
    cases hread : fs (pathJoin dir file) with
    | error e => rw [hread] at h; simp at h
    | ok raw =>
      rw [hread] at h
      simp only at h
      by_cases hraw : raw.length = 0
      · have hnil : raw = [] := List.length_eq_zero.mp hraw
        rw [if_pos hraw] at h
        obtain ⟨h1, h2⟩ := ih _ _ _ _ h
        have hs : standaloneRecord fs dir file = none := by
          unfold standaloneRecord
          rw [hread]
          simp only
          split
          · rfl
          · simp [hnil]
        have he : singleValueEntry fs dir file = none := by
          unfold singleValueEntry
          rw [hread]
          simp only
          split
          · rfl
          · simp [hnil]
        refine ⟨?_, ?_⟩
        · rw [h1, List.filterMap_cons, hs]
        · rw [h2]
          simp [singleValuesFrom, he]
      · have hne : raw ≠ [] := fun hr => hraw (by rw [hr]; rfl)
        rw [if_neg hraw] at h
        cases hparse : (fileInfo.mk raw (pathJoin dir file)).parse with
        | error e => rw [hparse] at h; simp at h
        | ok p =>
          obtain ⟨fields, tags⟩ := p
          rw [hparse] at h
          simp only at h
          obtain ⟨htags, hlen⟩ := parse_ok_shape _ _ _ hparse
          subst htags
          by_cases h1f : fields.length = 1
          · rw [if_pos h1f] at h
            obtain ⟨h1, h2⟩ := ih _ _ _ _ h
            have hs : standaloneRecord fs dir file = none := by
              unfold standaloneRecord
              rw [hread]
              simp only
              rw [hparse]
              simp [h1f]
            have he : singleValueEntry fs dir file = some (mapIndex fields "value") := by
              unfold singleValueEntry
              rw [hread]
              simp only
              rw [hparse]
              simp [h1f, hne]
            refine ⟨?_, ?_⟩
            · rw [h1, List.filterMap_cons, hs]
            · rw [h2]
              simp [singleValuesFrom, he]
          · rw [if_neg h1f] at h
            obtain ⟨h1, h2⟩ := ih _ _ _ _ h
            have h2f : 2 ≤ fields.length := by omega
            have hs : standaloneRecord fs dir file
                = some (Record.mk ("cgroup:" ++ file) fields [("path", pathJoin dir file)]) := by
              unfold standaloneRecord
              rw [hread]
              simp only
              rw [hparse]
              simp [h2f, hne]
            have he : singleValueEntry fs dir file = none := by
              unfold singleValueEntry
              rw [hread]
              simp only
              rw [hparse]
              simp [h1f]
            refine ⟨?_, ?_⟩
            · rw [h1, List.filterMap_cons, hs]
              simp [mapSet]
            · rw [h2]
              simp [singleValuesFrom, he]

theorem splitChars_head (sep : Char) : ∀ l : List Char,
    ∃ t, splitChars sep l = l.takeWhile (fun c => c != sep) :: t := by
  intro l
  induction l with
  | nil => exact ⟨[], rfl⟩
  | cons x l ih =>
    obtain ⟨t, ht⟩ := ih
    by_cases hx : x = sep
    · exact ⟨splitChars sep l, by simp [splitChars, hx, List.takeWhile_cons]⟩
    · exact ⟨t, by simp [splitChars, hx, ht, List.takeWhile_cons]⟩

theorem measurement_eq (r : Rule) (f0 : String) (rest : List String)
    (h : r.Fields = f0 :: rest) : r.measurement = .ok (beforeDot f0) := by
  obtain ⟨t, ht⟩ := splitChars_head '.' f0.data
  simp [Rule.measurement, h, stringsSplit, ht, beforeDot]

theorem measurement_nil (r : Rule) (h : r.Fields = []) :
    r.measurement = .error (.panic "index out of range") := by
  simp [Rule.measurement, h]

/-- What a successful `gatherDir` has added to the accumulator. -/
theorem gatherDir_ok (r : Rule) (fs : FileSystem) (dir : String) (acc acc' : List Record)
    (h : r.gatherDir fs dir acc = (acc', none)) :
    ∃ f0 rest, r.Fields = f0 :: rest ∧
      acc' = acc ++ r.Fields.filterMap (standaloneRecord fs dir) ++
        [Record.mk ("cgroup:" ++ beforeDot f0) (singleValuesFrom fs dir r.Fields [])
          [("path", dir)]] := by
  unfold Rule.gatherDir at h
  cases hl : gatherDirLoop fs dir r.Fields [] acc with
  | mk sv p =>
    obtain ⟨acc1, e⟩ := p
    rw [hl] at h
    cases e with
    | some e => simp at h
    | none =>
      obtain ⟨h1, h2⟩ := gatherDirLoop_ok fs dir _ _ _ _ _ hl
      simp only at h
      cases hf : r.Fields with
      | nil =>
        rw [measurement_nil r hf] at h
        simp at h
      | cons f0 rest =>
        rw [measurement_eq r f0 rest hf] at h
        simp only [Prod.mk.injEq, and_true] at h
        refine ⟨f0, rest, rfl, ?_⟩
        rw [← h, h1, h2, hf]

end Aggregator

section Claims

theorem isDigit_iff (c : Char) : c.isDigit = true ↔ (48 ≤ c.toNat ∧ c.toNat ≤ 57) := by
  simp only [Char.isDigit, Char.toNat, Bool.and_eq_true, decide_eq_true_eq, ge_iff_le,
    UInt32.le_def, BitVec.le_def]
  constructor
  · intro h; exact h
  · intro h; exact h

theorem valueClass_mem_iff (c : Char) :
    valueClass.mem c = true ↔ (c.isDigit = true ∨ c = '-') := by
  rw [valueClass_mem, isDigit_iff]
  constructor
  · rintro (h | h)
    · exact Or.inl h
    · right
      have := Char.ofNat_toNat c
      rw [h] at this
      exact this.symm
  · rintro (h | h)
    · exact Or.inl h
    · right
      rw [h]
      rfl

theorem parseDigits_eq : ∀ (ds : List Char) (acc : Nat),
    parseDigits ds acc = if ds.all Char.isDigit = true then some (digitsVal acc ds) else none := by
  intro ds
  induction ds with
  | nil => intro acc; simp [parseDigits, digitsVal]
  | cons c ds ih =>
    intro acc
    by_cases hc : c.isDigit = true
    · have hc' := (isDigit_iff c).1 hc
      simp only [parseDigits, hc', and_self, if_true, ih, List.all_cons, hc, Bool.true_and]
      rfl
    · have hc' : ¬ (48 ≤ c.toNat ∧ c.toNat ≤ 57) := fun h => hc ((isDigit_iff c).2 h)
      simp only [Bool.not_eq_true] at hc
      simp [parseDigits, hc', hc]

/-- Claim C1, evaluated on the code: a file that holds the single key/value line
`cache 123` parses to the one field `cache = 123`, and a file that holds the single
space-terminated token `5` parses to the one field `value_0 = 5`, yet `gatherDir`
stores `nil` under the file name in both cases, because it reads the key `value` of
the parsed map; only the single-value layout (`42`) stores its number. -/
theorem gatherDir_one_field_other_key :
    (fileInfo.mk "cache 123\n".toList "d/memory.stat").parse
        = .ok ([("cache", Iface.int 123)], []) ∧
    (Rule.mk "" ["/"] ["memory.stat"]).gatherDir
        (oneFileFs "d/memory.stat" "cache 123\n".toList) "d" []
      = ([Record.mk "cgroup:memory" [("memory.stat", Iface.nil)] [("path", "d")]], none) ∧
    (fileInfo.mk "5 \n".toList "d/memory.stat").parse
        = .ok ([("value_0", Iface.int 5)], []) ∧
    (Rule.mk "" ["/"] ["memory.stat"]).gatherDir
        (oneFileFs "d/memory.stat" "5 \n".toList) "d" []
      = ([Record.mk "cgroup:memory" [("memory.stat", Iface.nil)] [("path", "d")]], none) ∧
    (Rule.mk "" ["/"] ["memory.stat"]).gatherDir
        (oneFileFs "d/memory.stat" "42\n".toList) "d" []
      = ([Record.mk "cgroup:memory" [("memory.stat", Iface.int 42)] [("path", "d")]], none) := by
  decide

/-- Claim C2: `fileInfo.format` returns the first entry of `fileFormats`, in
declaration order, whose pattern matches the content; it fails, with the error
`<path>: unknown file format`, exactly when no entry matches; an entry matches
exactly when its pattern matches from the start of the content to its end; and the
content `42`, which lacks the final newline, is rejected. -/
theorem format_first_match (d : fileInfo) :
    (d.format =
      match fileFormats.find? (fun f => f.«match» d.data) with
      | some f => Except.ok f
      | none => Except.error (Fault.error (d.path ++ ": unknown file format"))) ∧
    (d.format = Except.error (Fault.error (d.path ++ ": unknown file format")) ↔
      ∀ f ∈ fileFormats, f.«match» d.data = false) ∧
    (∀ f ∈ fileFormats, (f.«match» d.data = true ↔
      ∃ c, f.pattern.matchAt d.data.length d.data = some ([], c))) ∧
    (fileInfo.mk "42".toList d.path).format
      = Except.error (Fault.error (d.path ++ ": unknown file format")) := by
  have hfind := formatLoop_find d fileFormats
  have hiff : ∀ d : fileInfo,
      (d.format = Except.error (Fault.error (d.path ++ ": unknown file format")) ↔
        ∀ f ∈ fileFormats, f.«match» d.data = false) := by
    intro d
    have hfind := formatLoop_find d fileFormats
    unfold fileInfo.format
    rw [hfind]
    constructor
    · intro h
      cases hf : fileFormats.find? (fun f => f.«match» d.data) with
      | some f => rw [hf] at h; simp at h
      | none =>
        intro f hmem
        have := List.find?_eq_none.1 hf f hmem
        simpa using this
    · intro h
      have : fileFormats.find? (fun f => f.«match» d.data) = none := by
        rw [List.find?_eq_none]
        intro f hmem
        simp [h f hmem]
      rw [this]
  refine ⟨hfind, hiff d, ?_, ?_⟩
  · intro f hf
    simp only [fileFormats, List.mem_cons, List.mem_singleton, List.not_mem_nil, or_false] at hf
    rcases hf with rfl | rfl | rfl | rfl
    · exact regexpMatch_whole _
        (endsAtEot_seq _ _ (endsAtEot_seq _ _ endsAtEot_eot)) d.data
    · exact regexpMatch_whole _ (endsAtEot_seq _ _ endsAtEot_eot) d.data
    · exact regexpMatch_whole _
        (endsAtEot_seq _ _ (endsAtEot_seq _ _ endsAtEot_eot)) d.data
    · exact regexpMatch_whole _ (endsAtEot_seq _ _ endsAtEot_eot) d.data
  · apply (hiff (fileInfo.mk "42".toList d.path)).2
    intro f hf
    simp only [fileFormats, List.mem_cons, List.mem_singleton, List.not_mem_nil, or_false] at hf
    rcases hf with rfl | rfl | rfl | rfl
    · exact (by decide : singleValueFormat.«match» "42".toList = false)
    · exact (by decide : newLineFormat.«match» "42".toList = false)
    · exact (by decide : spaceFormat.«match» "42".toList = false)
    · exact (by decide : keyValueFormat.«match» "42".toList = false)

/-- Claim C3 as stated fails: the content `12-781` followed by a newline is accepted by
the single-value pattern although it is not an optional `-` followed by digits; so
is a lone `-`. -/
theorem singleValue_accepts_inner_dash :
    singleValueFormat.«match» "12-781\n".toList = true ∧
    signedDigitsLine "12-781\n".toList = false ∧
    singleValueFormat.«match» "-\n".toList = true ∧
    signedDigitsLine "-\n".toList = false := by
  decide

/-- Claim C3, amended: the single-value pattern matches a content exactly when the
content is one or more characters, each a decimal digit or `-`, followed by exactly
one newline and nothing else. -/
theorem singleValue_match_chars (b : List Char) :
    singleValueFormat.«match» b = true ↔
      ∃ v : List Char, v ≠ [] ∧ (∀ c ∈ v, c.isDigit = true ∨ c = '-') ∧ b = v ++ ['\n'] := by
  rw [singleValue_match_iff]
  constructor
  · rintro ⟨v, ⟨hne, hall⟩, hb⟩
    exact ⟨v, hne, fun c hc => (valueClass_mem_iff c).1 (hall c hc), hb⟩
  · rintro ⟨v, hne, hall, hb⟩
    exact ⟨v, ⟨hne, fun c hc => (valueClass_mem_iff c).2 (hall c hc)⟩, hb⟩

/-- Claim C4 as stated fails: the digits-only text `9223372036854775808` (2^63) is
returned as a string, because it does not fit the 64-bit `int`. -/
theorem numberOrString_digits_as_string :
    "9223372036854775808".data.all Char.isDigit = true ∧
    numberOrString "9223372036854775808" = Iface.str "9223372036854775808" := by
  decide

/-- Claim C4, amended: `numberOrString s` is the integer `n` when `s` is an optional
sign (`-` or `+`) followed by one or more decimal digits whose value `n` lies in the
range of a 64-bit `int`, and the string `s` itself in every other case, a digits-only
text beyond that range included; `-307200` gives the integer and `12-781` the
string. -/
theorem numberOrString_spec (s : String) :
    (numberOrString s =
      match decimalValue s with
      | some n =>
        if -9223372036854775808 ≤ n ∧ n ≤ 9223372036854775807 then Iface.int n
        else Iface.str s
      | none => Iface.str s) ∧
    numberOrString "-307200" = Iface.int (-307200) ∧
    numberOrString "12-781" = Iface.str "12-781" := by
  refine ⟨?_, by decide, by decide⟩
  unfold numberOrString Atoi decimalValue
  cases hs : s.data with
  | nil => rfl
  | cons c rest =>
    simp only
    by_cases hm : c = '-'
    · subst hm
      simp only [true_or, if_true]
      cases rest with
      | nil => simp
      | cons x xs =>
        simp only [parseDigits_eq]
        by_cases hd : (x :: xs).all Char.isDigit = true
        · simp only [hd, if_true, ne_eq, reduceCtorEq, not_false_eq_true, and_self]
          split_ifs <;> rfl
        · simp [hd]
    · by_cases hp : c = '+'
      · subst hp
        simp only [or_true, if_true, hm, if_false]
        cases rest with
        | nil => simp
        | cons x xs =>
          simp only [parseDigits_eq]
          by_cases hd : (x :: xs).all Char.isDigit = true
          · simp only [hd, if_true, ne_eq, reduceCtorEq, not_false_eq_true, and_self]
            split_ifs <;> rfl
          · simp [hd]
      · simp only [hm, hp, or_self, if_false, parseDigits_eq]
        by_cases hd : (c :: rest).all Char.isDigit = true
        · simp only [hd, if_true]
          split_ifs <;> rfl
        · simp [hd]

/-- Claim C5: for a content that matches the key/value layout and whose line keys
are pairwise distinct, `fileInfo.parse` returns the field map with one entry per
line, named by the line's key text verbatim and holding `numberOrString` of the
line's value text, and no tag. -/
theorem keyValue_parse_lines (path : String) (b : List Char)
    (h : keyValueFormat.«match» b = true)
    (hd : ((kvLines b).map Prod.fst).Nodup) :
    (fileInfo.mk b path).parse
      = .ok ((kvLines b).map (fun l => (l.1, numberOrString l.2)), []) := by
  obtain ⟨ls, hne, hv, hb⟩ := (keyValue_match_iff b).1 h
  subst hb
  rw [kvLines_kv ls hv] at hd ⊢
  rw [List.map_map] at hd ⊢
  exact parseKV_enc path ls hne hv hd

/-- The two-line content of the specification, parsed. -/
theorem keyValue_parse_lines_witness :
    keyValueFormat.«match» "cache 123\nrss 456\n".toList = true ∧
    ((kvLines "cache 123\nrss 456\n".toList).map Prod.fst).Nodup ∧
    (fileInfo.mk "cache 123\nrss 456\n".toList "p").parse
      = .ok ([("cache", Iface.int 123), ("rss", Iface.int 456)], []) :=
  ⟨by decide, by decide,
    (keyValue_parse_lines "p" "cache 123\nrss 456\n".toList (by decide) (by decide)).trans
      (by decide)⟩

theorem mapGet_valueFieldsFrom : ∀ (ts : List String) (i j : Nat) (h : j < ts.length),
    mapGet (valueFieldsFrom i ts) ("value_" ++ Itoa (i + j)) = some (numberOrString ts[j]) := by
  intro ts
  induction ts with
  | nil => intro i j h; simp at h
  | cons t ts ih =>
    intro i j h
    cases j with
    | zero => simp [valueFieldsFrom, mapGet]
    | succ j =>
      have hne : ¬ ("value_" ++ Itoa i = "value_" ++ Itoa (i + (j + 1))) := by
        intro he
        have := value_key_inj _ _ he
        omega
      have h' : j < ts.length := by simpa using h
      simp only [valueFieldsFrom, mapGet, hne, if_false, List.getElem_cons_succ]
      have := ih (i + 1) j h'
      rw [show i + 1 + j = i + (j + 1) by omega] at this
      exact this

/-- Claim C6: for a content that matches the newline-separated layout or the
space-separated layout, `fileInfo.parse` returns the field map whose keys are
exactly `value_0` … `value_{n-1}`, all distinct, for the `n` value tokens of the
content, where `value_i` holds `numberOrString` of the `i`-th token in order of
appearance, and no tag. -/
theorem valueList_parse_tokens (path : String) (b : List Char)
    (h : newLineFormat.«match» b = true ∨ spaceFormat.«match» b = true) :
    (fileInfo.mk b path).parse = .ok (valueFieldsFrom 0 (valueTokens b), []) ∧
    (valueFieldsFrom 0 (valueTokens b)).map Prod.fst
      = (List.range (valueTokens b).length).map (fun i => "value_" ++ Itoa i) ∧
    ((valueFieldsFrom 0 (valueTokens b)).map Prod.fst).Nodup ∧
    ∀ (i : Nat) (hi : i < (valueTokens b).length),
      mapGet (valueFieldsFrom 0 (valueTokens b)) ("value_" ++ Itoa i)
        = some (numberOrString (valueTokens b)[i]) := by
  have hkeys : (valueFieldsFrom 0 (valueTokens b)).map Prod.fst
      = (List.range (valueTokens b).length).map (fun i => "value_" ++ Itoa i) := by
    rw [valueFieldsFrom_keys]
    simp
  refine ⟨?_, hkeys, ?_, ?_⟩
  · rcases h with h | h
    · obtain ⟨ts, hlen, hv, hb⟩ := (newLine_match_iff b).1 h
      subst hb
      have hw := wordsOf_tokens '\n' (Or.inr rfl) [] ts hv
      rw [List.append_nil] at hw
      have hw0 : wordsOf [] = [] := by decide
      rw [hw0, List.append_nil] at hw
      unfold valueTokens
      rw [hw]
      exact parse_newLine_enc path ts hlen hv
    · obtain ⟨ts, hne, hv, hb⟩ := (space_match_iff b).1 h
      subst hb
      have hw := wordsOf_tokens ' ' (Or.inl rfl) ['\n'] ts hv
      have hw0 : wordsOf ['\n'] = [] := by decide
      rw [hw0, List.append_nil] at hw
      unfold valueTokens
      rw [hw]
      exact parse_space_enc path ts hne hv
  · rw [hkeys]
    apply List.Nodup.map
    · intro x y hxy
      exact value_key_inj x y hxy
    · exact List.nodup_range _
  · intro i hi
    have := mapGet_valueFieldsFrom (valueTokens b) 0 i hi
    rw [Nat.zero_add] at this
    exact this

/-- The three-line content of the specification, parsed. -/
theorem valueList_parse_tokens_witness :
    (newLineFormat.«match» "0\n-1\n2\n".toList = true ∨
      spaceFormat.«match» "0\n-1\n2\n".toList = true) ∧
    (fileInfo.mk "0\n-1\n2\n".toList "p").parse
      = .ok ([("value_0", Iface.int 0), ("value_1", Iface.int (-1)),
          ("value_2", Iface.int 2)], []) :=
  ⟨Or.inl (by decide),
    (valueList_parse_tokens "p" "0\n-1\n2\n".toList (Or.inl (by decide))).1.trans (by decide)⟩

/-- Claim C7: for a content that matches the single-value layout, `fileInfo.parse`
returns the field map with the single entry `value`, holding `numberOrString` of
the content without its final newline, and no tag. -/
theorem singleValue_parse_value (path : String) (b : List Char)
    (h : singleValueFormat.«match» b = true) :
    (fileInfo.mk b path).parse
      = .ok ([("value", numberOrString (String.mk b.dropLast))], []) := by
  obtain ⟨v, hv, hb⟩ := (singleValue_match_iff b).1 h
  subst hb
  rw [List.dropLast_concat]
  exact parse_single_enc path v hv

/-- The single-value contents of the specification, parsed. -/
theorem singleValue_parse_value_witness :
    singleValueFormat.«match» "42\n".toList = true ∧
    (fileInfo.mk "42\n".toList "p").parse = .ok ([("value", Iface.int 42)], []) ∧
    singleValueFormat.«match» "-7\n".toList = true ∧
    (fileInfo.mk "-7\n".toList "p").parse = .ok ([("value", Iface.int (-7))], []) :=
  ⟨by decide, (singleValue_parse_value "p" "42\n".toList (by decide)).trans (by decide),
    by decide, (singleValue_parse_value "p" "-7\n".toList (by decide)).trans (by decide)⟩

/-- Claim C8: when `gatherDir` reaches a declared file whose non-empty content
parses to two or more fields it emits one record for it, named `cgroup:` followed
by the full file name, tagged with exactly `path` = the joined path of directory
and file, and holding the extracted fields; a file that parses to exactly one
field emits no record and only adds an entry to the single-value map.  On success
the records added before the directory record are exactly these, one per such
declared file, in declaration order. -/
theorem gatherDir_emits_standalone (r : Rule) (fs : FileSystem) (dir : String) :
    (∀ (file : String) (rest : List String) (sv : FieldMap) (acc : List Record)
        (raw : List Char) (fields : FieldMap) (tags : TagMap),
        fs (pathJoin dir file) = .ok raw → raw ≠ [] →
        (fileInfo.mk raw (pathJoin dir file)).parse = .ok (fields, tags) →
        (2 ≤ fields.length →
          gatherDirLoop fs dir (file :: rest) sv acc
            = gatherDirLoop fs dir rest sv
                (acc ++ [Record.mk ("cgroup:" ++ file) fields
                  [("path", pathJoin dir file)]]) ∧
          standaloneRecord fs dir file
            = some (Record.mk ("cgroup:" ++ file) fields [("path", pathJoin dir file)])) ∧
        (fields.length = 1 →
          gatherDirLoop fs dir (file :: rest) sv acc
            = gatherDirLoop fs dir rest (mapSet sv file (mapIndex fields "value")) acc ∧
          standaloneRecord fs dir file = none)) ∧
    (∀ acc acc' : List Record, r.gatherDir fs dir acc = (acc', none) →
      ∃ d, acc' = acc ++ r.Fields.filterMap (standaloneRecord fs dir) ++ [d]) := by
  constructor
  · intro file rest sv acc raw fields tags hread hne hparse
    obtain ⟨htags, _⟩ := parse_ok_shape _ _ _ hparse
    subst htags
    have hlen : ¬ raw.length = 0 := fun h => hne (List.length_eq_zero.mp h)
    constructor
    · intro h2
      have h1 : ¬ fields.length = 1 := by omega
      constructor
      · rw [gatherDirLoop, hread]
        simp only [hlen, if_false, hparse, h1]
        rfl
      · unfold standaloneRecord
        rw [hread]
        simp only
        rw [hparse]
        simp [h2, hne]
    · intro h1
      constructor
      · rw [gatherDirLoop, hread]
        simp only [hlen, if_false, hparse, h1, if_true]
      · unfold standaloneRecord
        rw [hread]
        simp only
        rw [hparse]
        simp [h1]
  · intro acc acc' h
    obtain ⟨f0, rest, _, hacc⟩ := gatherDir_ok r fs dir acc acc' h
    exact ⟨_, hacc⟩

/-- The first rule of the test configuration on the test directory. -/
theorem gatherDir_emits_standalone_witness :
    testRule.gatherDir testFs "testdata/memory" []
      = ([ Record.mk "cgroup:memory.max_usage_in_bytes"
             [("value_0", .int 0), ("value_1", .int (-1)), ("value_2", .int 2)]
             [("path", "testdata/memory/memory.max_usage_in_bytes")],
           Record.mk "cgroup:memory.stat"
             [("cache", .int 1739362304123123123), ("rss", .int 1775325184),
              ("dirty", .int (-307200))]
             [("path", "testdata/memory/memory.stat")],
           Record.mk "cgroup:memory"
             [("memory.limit_in_bytes", .int 223372036854771712),
              ("memory.use_hierarchy", .str "12-781")]
             [("path", "testdata/memory")] ], none) ∧
    ∃ d, [ Record.mk "cgroup:memory.max_usage_in_bytes"
             [("value_0", .int 0), ("value_1", .int (-1)), ("value_2", .int 2)]
             [("path", "testdata/memory/memory.max_usage_in_bytes")],
           Record.mk "cgroup:memory.stat"
             [("cache", .int 1739362304123123123), ("rss", .int 1775325184),
              ("dirty", .int (-307200))]
             [("path", "testdata/memory/memory.stat")],
           Record.mk "cgroup:memory"
             [("memory.limit_in_bytes", .int 223372036854771712),
              ("memory.use_hierarchy", .str "12-781")]
             [("path", "testdata/memory")] ]
      = [] ++ testRule.Fields.filterMap (standaloneRecord testFs "testdata/memory") ++ [d] :=
  ⟨by decide, (gatherDir_emits_standalone testRule testFs "testdata/memory").2 [] _ (by decide)⟩

/-- Claim C9 as stated fails: the record emitted for the two-line file `memory.stat`
is named `cgroup:memory.stat`, which is not the name built from the text before the
first `.` (`cgroup:memory`); that shorter name is the directory record's. -/
theorem standalone_name_keeps_suffix :
    (Rule.mk "" ["/"] ["memory.stat"]).gatherDir
        (oneFileFs "d/memory.stat" "cache 1\nrss 2\n".toList) "d" []
      = ([ Record.mk "cgroup:memory.stat" [("cache", Iface.int 1), ("rss", Iface.int 2)]
             [("path", "d/memory.stat")],
           Record.mk "cgroup:memory" [] [("path", "d")] ], none) ∧
    "cgroup:" ++ beforeDot "memory.stat" = "cgroup:memory" ∧
    "cgroup:memory.stat" ≠ "cgroup:" ++ beforeDot "memory.stat" := by
  decide

/-- Claim C9, amended: for every declared file whose non-empty content parses to more
than one field, the standalone record a successful `gatherDir` emits for it is named
`cgroup:` followed by the whole declared file name (so `memory.stat` is recorded
under `cgroup:memory.stat`), is tagged with the joined path and holds the extracted
fields. -/
theorem standalone_named_by_whole_file (r : Rule) (fs : FileSystem) (dir : String)
    (acc acc' : List Record) (h : r.gatherDir fs dir acc = (acc', none))
    (f : String) (hf : f ∈ r.Fields) (raw : List Char) (fields : FieldMap) (tags : TagMap)
    (hread : fs (pathJoin dir f) = .ok raw) (hne : raw ≠ [])
    (hparse : (fileInfo.mk raw (pathJoin dir f)).parse = .ok (fields, tags))
    (h2 : 2 ≤ fields.length) :
    Record.mk ("cgroup:" ++ f) fields [("path", pathJoin dir f)] ∈ acc' := by
  obtain ⟨f0, rest, _, hacc⟩ := gatherDir_ok r fs dir acc acc' h
  have hs : standaloneRecord fs dir f
      = some (Record.mk ("cgroup:" ++ f) fields [("path", pathJoin dir f)]) := by
    unfold standaloneRecord
    rw [hread]
    simp only
    rw [hparse]
    simp [h2, hne]
  rw [hacc]
  apply List.mem_append_left
  apply List.mem_append_right
  exact List.mem_filterMap.2 ⟨f, hf, hs⟩

/-- The record of `memory.stat` in the test directory. -/
theorem standalone_named_by_whole_file_witness :
    Record.mk ("cgroup:" ++ "memory.stat")
        [("cache", .int 1739362304123123123), ("rss", .int 1775325184),
          ("dirty", .int (-307200))]
        [("path", pathJoin "testdata/memory" "memory.stat")]
      ∈ (testRule.gatherDir testFs "testdata/memory" []).1 :=
  standalone_named_by_whole_file testRule testFs "testdata/memory" [] _ rfl "memory.stat"
    (by decide) "cache 1739362304123123123\nrss 1775325184\ndirty -307200\n".toList _ []
    (by decide) (by decide) (by decide) (by decide)

/-- Claim C10: whenever `gatherDir` succeeds, the field list is not empty and the
accumulator has grown by the standalone records of the declared files followed by
exactly one directory record, which is the last record: it is named `cgroup:`
followed by the text of the first declared field before its first `.`, tagged with
exactly `path` = the directory, and holds the accumulated single-value map, whether
or not that map is empty. -/
theorem gatherDir_ends_with_directory_record (r : Rule) (fs : FileSystem) (dir : String)
    (acc acc' : List Record) (h : r.gatherDir fs dir acc = (acc', none)) :
    ∃ f0 rest, r.Fields = f0 :: rest ∧
      acc' = acc ++ r.Fields.filterMap (standaloneRecord fs dir) ++
        [Record.mk ("cgroup:" ++ beforeDot f0) (singleValuesFrom fs dir r.Fields [])
          [("path", dir)]] ∧
      acc'.getLast? = some (Record.mk ("cgroup:" ++ beforeDot f0)
        (singleValuesFrom fs dir r.Fields []) [("path", dir)]) := by
  obtain ⟨f0, rest, hf, hacc⟩ := gatherDir_ok r fs dir acc acc' h
  refine ⟨f0, rest, hf, hacc, ?_⟩
  rw [hacc]
  simp

/-- A directory whose only declared file is empty still gets its record. -/
theorem gatherDir_ends_with_directory_record_witness :
    (Rule.mk "testdata/memory" ["/"] ["memory.empty"]).gatherDir testFs "testdata/memory" []
      = ([Record.mk "cgroup:memory" [] [("path", "testdata/memory")]], none) ∧
    ∃ f0 rest, (Rule.mk "testdata/memory" ["/"] ["memory.empty"]).Fields = f0 :: rest ∧
      [Record.mk "cgroup:memory" [] [("path", "testdata/memory")]]
        = [] ++ (Rule.mk "testdata/memory" ["/"] ["memory.empty"]).Fields.filterMap
            (standaloneRecord testFs "testdata/memory") ++
          [Record.mk ("cgroup:" ++ beforeDot f0)
            (singleValuesFrom testFs "testdata/memory"
              (Rule.mk "testdata/memory" ["/"] ["memory.empty"]).Fields [])
            [("path", "testdata/memory")]] ∧
      [Record.mk "cgroup:memory" [] [("path", "testdata/memory")]].getLast?
        = some (Record.mk ("cgroup:" ++ beforeDot f0)
            (singleValuesFrom testFs "testdata/memory"
              (Rule.mk "testdata/memory" ["/"] ["memory.empty"]).Fields [])
            [("path", "testdata/memory")]) :=
  ⟨by decide,
    gatherDir_ends_with_directory_record (Rule.mk "testdata/memory" ["/"] ["memory.empty"]) testFs
      "testdata/memory" [] _ (by decide)⟩

end Claims

/-! ## Errors and empty files in the directory aggregator -/

section Errors

theorem format_error_iff (d : fileInfo) (e : Fault) :
    d.format = .error e ↔
      (e = Fault.error (d.path ++ ": unknown file format") ∧
        ∀ f ∈ fileFormats, f.«match» d.data = false) := by
  unfold fileInfo.format
  rw [formatLoop_find d fileFormats]
  constructor
  · intro h
    cases hf : fileFormats.find? (fun f => f.«match» d.data) with
    | some f => rw [hf] at h; simp at h
    | none =>
      rw [hf] at h
      simp only [Except.error.injEq] at h
      refine ⟨h.symm, ?_⟩
      intro f hmem
      have := List.find?_eq_none.1 hf f hmem
      simpa using this
  · rintro ⟨rfl, h⟩
    have : fileFormats.find? (fun f => f.«match» d.data) = none := by
      rw [List.find?_eq_none]
      intro f hmem
      simp [h f hmem]
    rw [this]

theorem mem_fileFormats_match (b : List Char) (f : fileFormat) (hf : f ∈ fileFormats)
    (h : f.«match» b = true) :
    singleValueFormat.«match» b = true ∨ newLineFormat.«match» b = true ∨
      spaceFormat.«match» b = true ∨ keyValueFormat.«match» b = true := by
  simp only [fileFormats, List.mem_cons, List.mem_singleton, List.not_mem_nil, or_false] at hf
  rcases hf with rfl | rfl | rfl | rfl
  · exact Or.inl h
  · exact Or.inr (Or.inl h)
  · exact Or.inr (Or.inr (Or.inl h))
  · exact Or.inr (Or.inr (Or.inr h))

/-- A content that some entry of the table accepts is parsed without error. -/
theorem parse_ok_of_match (path : String) (b : List Char) (f : fileFormat)
    (hf : f ∈ fileFormats) (h : f.«match» b = true) :
    ∃ p, (fileInfo.mk b path).parse = .ok p := by
  rcases mem_fileFormats_match b f hf h with h1 | h2 | h3 | h4
  · obtain ⟨v, hv, hb⟩ := (singleValue_match_iff b).1 h1
    subst hb
    exact ⟨_, parse_single_enc path v hv⟩
  · obtain ⟨ts, hlen, hv, hb⟩ := (newLine_match_iff b).1 h2
    subst hb
    exact ⟨_, parse_newLine_enc path ts hlen hv⟩
  · obtain ⟨ts, hne, hv, hb⟩ := (space_match_iff b).1 h3
    subst hb
    exact ⟨_, parse_space_enc path ts hne hv⟩
  · obtain ⟨ls, hne, hv, hb⟩ := (keyValue_match_iff b).1 h4
    subst hb
    exact ⟨_, parseKV_fold path ls hne hv⟩

/-- A content that no entry of the table accepts makes `parse` fail with the
unknown-format error. -/
theorem parse_error_of_no_match (path : String) (b : List Char)
    (h : ∀ f ∈ fileFormats, f.«match» b = false) :
    (fileInfo.mk b path).parse = .error (Fault.error (path ++ ": unknown file format")) := by
  have hf := (format_error_iff (fileInfo.mk b path) _).2 ⟨rfl, h⟩
  unfold fileInfo.parse
  rw [hf]

theorem gatherDirLoop_append_ok (fs : FileSystem) (dir : String) :
    ∀ (pre rest : List String) (sv : FieldMap) (acc : List Record) (sv1 : FieldMap)
      (acc1 : List Record),
      gatherDirLoop fs dir pre sv acc = (sv1, acc1, none) →
      gatherDirLoop fs dir (pre ++ rest) sv acc = gatherDirLoop fs dir rest sv1 acc1 := by
  intro pre
  induction pre with
  | nil =>
    intro rest sv acc sv1 acc1 h
    simp only [gatherDirLoop, Prod.mk.injEq, and_true] at h
    rw [List.nil_append, h.1, h.2]
  | cons file pre ih =>
    intro rest sv acc sv1 acc1 h
    rw [gatherDirLoop] at h
    rw [List.cons_append, gatherDirLoop]
    cases hread : fs (pathJoin dir file) with
    | error e => rw [hread] at h; simp at h
    | ok raw =>
      rw [hread] at h
      simp only at h ⊢
      by_cases hraw : raw.length = 0
      · rw [if_pos hraw] at h ⊢
        exact ih _ _ _ _ _ h
      · rw [if_neg hraw] at h ⊢
        cases hparse : (fileInfo.mk raw (pathJoin dir file)).parse with
        | error e => rw [hparse] at h; simp at h
        | ok p =>
          obtain ⟨fields, tags⟩ := p
          rw [hparse] at h
          simp only at h ⊢
          by_cases h1f : fields.length = 1
          · rw [if_pos h1f] at h ⊢
            exact ih _ _ _ _ _ h
          · rw [if_neg h1f] at h ⊢
            exact ih _ _ _ _ _ h

/-- Declared files that are read and are empty or accepted by an entry of the
table are passed without error. -/
theorem gatherDirLoop_files_ok (fs : FileSystem) (dir : String) :
    ∀ (pre : List String) (sv : FieldMap) (acc : List Record),
      (∀ file ∈ pre, ∃ raw, fs (pathJoin dir file) = .ok raw ∧
        (raw = [] ∨ ∃ fmt ∈ fileFormats, fmt.«match» raw = true)) →
      ∃ sv1, gatherDirLoop fs dir pre sv acc
        = (sv1, acc ++ pre.filterMap (standaloneRecord fs dir), none) := by
  intro pre
  induction pre with
  | nil =>
    intro sv acc _
    exact ⟨sv, by simp [gatherDirLoop]⟩
  | cons file pre ih =>
    intro sv acc hpre
    have hex : ∃ sv1 acc1, gatherDirLoop fs dir (file :: pre) sv acc = (sv1, acc1, none) := by
      obtain ⟨raw, hread, hraw⟩ := hpre file (by simp)
      rw [gatherDirLoop, hread]
      simp only
      by_cases hlen : raw.length = 0
      · rw [if_pos hlen]
        obtain ⟨sv1, h1⟩ := ih sv acc (fun x hx => hpre x (by simp [hx]))
        exact ⟨sv1, _, h1⟩
      · rw [if_neg hlen]
        rcases hraw with hnil | ⟨fmt, hmem, hm⟩
        · exact absurd (by rw [hnil]; rfl) hlen
        · obtain ⟨p, hp⟩ := parse_ok_of_match (pathJoin dir file) raw fmt hmem hm
          obtain ⟨fields, tags⟩ := p
          rw [hp]
          simp only
          by_cases h1f : fields.length = 1
          · rw [if_pos h1f]
            obtain ⟨sv1, h1⟩ := ih (mapSet sv file (mapIndex fields "value")) acc
              (fun x hx => hpre x (by simp [hx]))
            exact ⟨sv1, _, h1⟩
          · rw [if_neg h1f]
            obtain ⟨sv1, h1⟩ := ih sv
              (acc ++ [Record.mk ("cgroup:" ++ file) fields
                (mapSet tags "path" (pathJoin dir file))])
              (fun x hx => hpre x (by simp [hx]))
            exact ⟨sv1, _, h1⟩
    obtain ⟨sv1, acc1, h⟩ := hex
    obtain ⟨hacc, _⟩ := gatherDirLoop_ok fs dir _ _ _ _ _ h
    exact ⟨sv1, by rw [h, hacc]⟩

/-- The loop stops at a declared file that cannot be read or whose non-empty
content no entry of the table accepts. -/
theorem gatherDirLoop_fails_at (fs : FileSystem) (dir f : String) (rest : List String)
    (sv : FieldMap) (acc : List Record) (e : Fault)
    (hf : (∃ msg, fs (pathJoin dir f) = .error msg ∧ e = Fault.error msg) ∨
      (∃ raw, fs (pathJoin dir f) = .ok raw ∧ raw ≠ [] ∧
        (∀ fmt ∈ fileFormats, fmt.«match» raw = false) ∧
        e = Fault.error (pathJoin dir f ++ ": unknown file format"))) :
    gatherDirLoop fs dir (f :: rest) sv acc = (sv, acc, some e) := by
  rw [gatherDirLoop]
  rcases hf with ⟨msg, hread, rfl⟩ | ⟨raw, hread, hne, hno, rfl⟩
  · rw [hread]
  · rw [hread]
    simp only
    have hlen : ¬ raw.length = 0 := fun h => hne (List.length_eq_zero.mp h)
    rw [if_neg hlen, parse_error_of_no_match _ raw hno]

theorem standaloneRecord_congr (fs fs' : FileSystem) (dir file : String)
    (h : fs' (pathJoin dir file) = fs (pathJoin dir file)) :
    standaloneRecord fs' dir file = standaloneRecord fs dir file := by
  unfold standaloneRecord
  rw [h]

/-- Claim C11: if the declared files before `f` are read and are empty or accepted by
a layout, and `f` cannot be read or its non-empty content matches no layout, then
`gatherDir` returns that error (the read error, resp. `<path>: unknown file format`)
and leaves in the accumulator the standalone records of the files before `f` and
nothing else: no directory record is added.  The outcome is the same for every
list of files declared after `f` and every content of the other files, so nothing
after `f` is read. -/
theorem gatherDir_stops_at_first_error (r : Rule) (fs : FileSystem) (dir : String)
    (acc : List Record) (pre : List String) (f : String) (post : List String) (e : Fault)
    (hF : r.Fields = pre ++ f :: post)
    (hpre : ∀ file ∈ pre, ∃ raw, fs (pathJoin dir file) = .ok raw ∧
      (raw = [] ∨ ∃ fmt ∈ fileFormats, fmt.«match» raw = true))
    (hf : (∃ msg, fs (pathJoin dir f) = .error msg ∧ e = Fault.error msg) ∨
      (∃ raw, fs (pathJoin dir f) = .ok raw ∧ raw ≠ [] ∧
        (∀ fmt ∈ fileFormats, fmt.«match» raw = false) ∧
        e = Fault.error (pathJoin dir f ++ ": unknown file format"))) :
    r.gatherDir fs dir acc = (acc ++ pre.filterMap (standaloneRecord fs dir), some e) ∧
    ∀ (fs' : FileSystem) (post' : List String),
      (∀ file ∈ pre ++ [f], fs' (pathJoin dir file) = fs (pathJoin dir file)) →
      (Rule.mk r.Prefix r.Paths (pre ++ f :: post')).gatherDir fs' dir acc
        = (acc ++ pre.filterMap (standaloneRecord fs dir), some e) := by
  have key : ∀ (fs' : FileSystem) (post' : List String) (pfx : String) (paths : List String),
      (∀ file ∈ pre ++ [f], fs' (pathJoin dir file) = fs (pathJoin dir file)) →
      (Rule.mk pfx paths (pre ++ f :: post')).gatherDir fs' dir acc
        = (acc ++ pre.filterMap (standaloneRecord fs dir), some e) := by
    intro fs' post' pfx paths hsame
    have hpre' : ∀ file ∈ pre, ∃ raw, fs' (pathJoin dir file) = .ok raw ∧
        (raw = [] ∨ ∃ fmt ∈ fileFormats, fmt.«match» raw = true) := by
      intro file hfile
      obtain ⟨raw, h1, h2⟩ := hpre file hfile
      exact ⟨raw, by rw [hsame file (by simp [hfile]), h1], h2⟩
    have hf' : (∃ msg, fs' (pathJoin dir f) = .error msg ∧ e = Fault.error msg) ∨
        (∃ raw, fs' (pathJoin dir f) = .ok raw ∧ raw ≠ [] ∧
          (∀ fmt ∈ fileFormats, fmt.«match» raw = false) ∧
          e = Fault.error (pathJoin dir f ++ ": unknown file format")) := by
      rw [hsame f (by simp)]
      exact hf
    obtain ⟨sv1, h1⟩ := gatherDirLoop_files_ok fs' dir pre [] acc hpre'
    have h2 := gatherDirLoop_append_ok fs' dir pre (f :: post') [] acc _ _ h1
    rw [gatherDirLoop_fails_at fs' dir f post' _ _ e hf'] at h2
    have hrec : pre.filterMap (standaloneRecord fs' dir)
        = pre.filterMap (standaloneRecord fs dir) := by
      apply List.filterMap_congr
      intro file hfile
      exact standaloneRecord_congr fs fs' dir file (hsame file (by simp [hfile]))
    unfold Rule.gatherDir
    simp only
    rw [h2, hrec]
  constructor
  · have := key fs post r.Prefix r.Paths (fun _ _ => rfl)
    rw [← hF] at this
    exact this
  · intro fs' post' hsame
    exact key fs' post' r.Prefix r.Paths hsame

/-- An unreadable second file: the first file's record stays, the error comes back,
no directory record is added. -/
theorem gatherDir_stops_at_first_error_witness :
    (Rule.mk "" ["/"] ["memory.stat", "memory.gone", "memory.limit_in_bytes"]).gatherDir
        testFs "testdata/memory" []
      = ([] ++ ["memory.stat"].filterMap (standaloneRecord testFs "testdata/memory"),
          some (Fault.error "open testdata/memory/memory.gone: no such file or directory")) ∧
    ["memory.stat"].filterMap (standaloneRecord testFs "testdata/memory")
      = [Record.mk "cgroup:memory.stat"
          [("cache", .int 1739362304123123123), ("rss", .int 1775325184),
            ("dirty", .int (-307200))]
          [("path", "testdata/memory/memory.stat")]] :=
  ⟨(gatherDir_stops_at_first_error
      (Rule.mk "" ["/"] ["memory.stat", "memory.gone", "memory.limit_in_bytes"])
      testFs "testdata/memory" [] ["memory.stat"] "memory.gone" ["memory.limit_in_bytes"]
      (Fault.error "open testdata/memory/memory.gone: no such file or directory") rfl
      (by
        intro file hfile
        simp only [List.mem_singleton] at hfile
        subst hfile
        exact ⟨"cache 1739362304123123123\nrss 1775325184\ndirty -307200\n".toList,
          by decide, Or.inr ⟨keyValueFormat, by simp [fileFormats], by decide⟩⟩)
      (Or.inl ⟨_, by decide, rfl⟩)).1,
    by decide⟩

/-- Claim C13: a declared file of zero bytes is skipped: the loop goes on with the
single-value map and the accumulator unchanged and without error, and when the
file is not the first declared one, `gatherDir` returns exactly what it returns for
the field list without it. -/
theorem gatherDir_skips_empty (r : Rule) (fs : FileSystem) (dir : String)
    (f : String) (hempty : fs (pathJoin dir f) = .ok []) :
    (∀ (rest : List String) (sv : FieldMap) (acc : List Record),
      gatherDirLoop fs dir (f :: rest) sv acc = gatherDirLoop fs dir rest sv acc) ∧
    standaloneRecord fs dir f = none ∧ singleValueEntry fs dir f = none ∧
    (∀ (pre post : List String) (acc : List Record), pre ≠ [] →
      r.Fields = pre ++ f :: post →
      r.gatherDir fs dir acc = (Rule.mk r.Prefix r.Paths (pre ++ post)).gatherDir fs dir acc) := by
  have hstep : ∀ (rest : List String) (sv : FieldMap) (acc : List Record),
      gatherDirLoop fs dir (f :: rest) sv acc = gatherDirLoop fs dir rest sv acc := by
    intro rest sv acc
    rw [gatherDirLoop, hempty]
    simp
  refine ⟨hstep, ?_, ?_, ?_⟩
  · unfold standaloneRecord
    rw [hempty]
    simp only
    split
    · rfl
    · simp
  · unfold singleValueEntry
    rw [hempty]
    simp only
    split
    · rfl
    · simp
  · intro pre post acc hne hF
    have hloop : ∀ (pre : List String) (sv : FieldMap) (acc : List Record),
        gatherDirLoop fs dir (pre ++ f :: post) sv acc
          = gatherDirLoop fs dir (pre ++ post) sv acc := by
      intro pre
      induction pre with
      | nil => intro sv acc; exact hstep post sv acc
      | cons x pre ih =>
        intro sv acc
        rw [List.cons_append, List.cons_append, gatherDirLoop, gatherDirLoop]
        cases fs (pathJoin dir x) with
        | error e => rfl
        | ok raw =>
          simp only
          by_cases hraw : raw.length = 0
          · rw [if_pos hraw, if_pos hraw, ih]
          · rw [if_neg hraw, if_neg hraw]
            cases (fileInfo.mk raw (pathJoin dir x)).parse with
            | error e => rfl
            | ok p =>
              obtain ⟨fields, tags⟩ := p
              simp only
              by_cases h1f : fields.length = 1
              · rw [if_pos h1f, if_pos h1f, ih]
              · rw [if_neg h1f, if_neg h1f, ih]
    have hmeas : r.measurement = (Rule.mk r.Prefix r.Paths (pre ++ post)).measurement := by
      match pre, hne with
      | x :: pre', _ =>
        rw [measurement_eq r x (pre' ++ f :: post) (by rw [hF]; rfl),
          measurement_eq (Rule.mk r.Prefix r.Paths (x :: pre' ++ post)) x (pre' ++ post) rfl]
    unfold Rule.gatherDir
    simp only
    rw [hF, hloop, ← hmeas]

/-- The empty test file `memory.empty`, declared second, changes nothing. -/
theorem gatherDir_skips_empty_witness :
    (Rule.mk "" ["/"] ["memory.limit_in_bytes", "memory.empty", "memory.stat"]).gatherDir
        testFs "testdata/memory" []
      = (Rule.mk "" ["/"] (["memory.limit_in_bytes"] ++ ["memory.stat"])).gatherDir
        testFs "testdata/memory" [] :=
  (gatherDir_skips_empty
    (Rule.mk "" ["/"] ["memory.limit_in_bytes", "memory.empty", "memory.stat"])
    testFs "testdata/memory" "memory.empty" (by decide)).2.2.2
    ["memory.limit_in_bytes"] ["memory.stat"] [] (by simp) rfl

end Errors

/-! ## Normalization of the configuration -/

section Normalize

theorem countNonBlank_eq_zero (l : List String) :
    countNonBlank l = 0 ↔ ∀ x ∈ l, TrimSpace x = "" := by
  induction l with
  | nil => simp [countNonBlank]
  | cons x xs ih =>
    by_cases hx : TrimSpace x = ""
    · simp [countNonBlank, hx, ih]
    · simp [countNonBlank, hx]

theorem normalizeLoop_cons_invalid (gPrefix : String) (i : Nat) (r : Rule) (rest : List Rule) :
    (countNonBlank r.Paths = 0 →
      normalizeLoop gPrefix i (r :: rest)
        = (normalizedRule gPrefix r :: rest,
            some (Fault.error ("rule #" ++ Itoa i ++ " has not any path")))) ∧
    (countNonBlank r.Paths ≠ 0 → countNonBlank r.Fields = 0 →
      normalizeLoop gPrefix i (r :: rest)
        = (normalizedRule gPrefix r :: rest,
            some (Fault.error ("rule #" ++ Itoa i ++ " has not any field")))) := by
  constructor
  · intro h
    simp [normalizeLoop, h, normalizedRule]
  · intro h1 h2
    simp [normalizeLoop, h1, h2, normalizedRule]

theorem normalizeLoop_cons_valid (gPrefix : String) (i : Nat) (r : Rule) (rest : List Rule)
    (h1 : countNonBlank r.Paths ≠ 0) (h2 : countNonBlank r.Fields ≠ 0) :
    normalizeLoop gPrefix i (r :: rest)
      = (normalizedRule gPrefix r :: (normalizeLoop gPrefix (i + 1) rest).1,
          (normalizeLoop gPrefix (i + 1) rest).2) := by
  simp [normalizeLoop, h1, h2, normalizedRule]

/-- The loop of `normalize` stops at the first rule without a non-blank path or
without a non-blank field. -/
theorem normalizeLoop_first_invalid (gPrefix : String) :
    ∀ (pre : List Rule) (i : Nat) (r : Rule) (post : List Rule),
      (∀ q ∈ pre, countNonBlank q.Paths ≠ 0 ∧ countNonBlank q.Fields ≠ 0) →
      (countNonBlank r.Paths = 0 →
        (normalizeLoop gPrefix i (pre ++ r :: post)).2
          = some (Fault.error ("rule #" ++ Itoa (i + pre.length) ++ " has not any path"))) ∧
      (countNonBlank r.Paths ≠ 0 → countNonBlank r.Fields = 0 →
        (normalizeLoop gPrefix i (pre ++ r :: post)).2
          = some (Fault.error ("rule #" ++ Itoa (i + pre.length) ++ " has not any field"))) := by
  intro pre
  induction pre with
  | nil =>
    intro i r post _
    obtain ⟨h1, h2⟩ := normalizeLoop_cons_invalid gPrefix i r post
    constructor
    · intro h
      rw [List.nil_append, h1 h]
      rfl
    · intro ha hb
      rw [List.nil_append, h2 ha hb]
      rfl
  | cons q pre ih =>
    intro i r post hpre
    obtain ⟨hq1, hq2⟩ := hpre q (by simp)
    obtain ⟨h1, h2⟩ := ih (i + 1) r post (fun x hx => hpre x (by simp [hx]))
    have hidx : i + 1 + pre.length = i + (q :: pre).length := by
      simp only [List.length_cons]
      omega
    rw [List.cons_append, normalizeLoop_cons_valid gPrefix i q _ hq1 hq2]
    simp only
    rw [← hidx]
    exact ⟨h1, h2⟩

/-- The loop of `normalize` succeeds exactly on rules that all have a non-blank
path and a non-blank field, and then it has rewritten every prefix. -/
theorem normalizeLoop_ok_iff (gPrefix : String) :
    ∀ (rs : List Rule) (i : Nat),
      ((normalizeLoop gPrefix i rs).2 = none ↔
        ∀ q ∈ rs, countNonBlank q.Paths ≠ 0 ∧ countNonBlank q.Fields ≠ 0) ∧
      ((normalizeLoop gPrefix i rs).2 = none →
        (normalizeLoop gPrefix i rs).1 = rs.map (normalizedRule gPrefix)) := by
  intro rs
  induction rs with
  | nil => intro i; simp [normalizeLoop]
  | cons r rs ih =>
    intro i
    by_cases h1 : countNonBlank r.Paths = 0
    · rw [(normalizeLoop_cons_invalid gPrefix i r rs).1 h1]
      simp [h1]
    · by_cases h2 : countNonBlank r.Fields = 0
      · rw [(normalizeLoop_cons_invalid gPrefix i r rs).2 h1 h2]
        simp [h2]
      · rw [normalizeLoop_cons_valid gPrefix i r rs h1 h2]
        obtain ⟨iha, ihb⟩ := ih (i + 1)
        constructor
        · simp only [List.mem_cons, forall_eq_or_imp]
          rw [iha]
          simp [h1, h2]
        · intro h
          simp only [List.map_cons]
          rw [ihb h]

theorem splitChars_ne_nil (sep : Char) (l : List Char) : splitChars sep l ≠ [] := by
  obtain ⟨t, ht⟩ := splitChars_head sep l
  rw [ht]
  simp

/-- Claim C12: `normalize`, and with it `Gather`, fails with a configuration error
exactly when some rule has no path that is non-blank after trimming or no field
that is non-blank after trimming; the error names the index of the first such
rule, the missing path being reported before the missing field; `Gather` then
returns that error with the accumulator unchanged, whatever the filesystem holds,
so before any filesystem access and without any record, also for the valid rules
before the invalid one.  When `normalize` succeeds `Gather` goes on to gather the
rules. -/
theorem Gather_configuration_error (g : CGroup) :
    ((∃ e, g.normalize.2 = some e) ↔
      ∃ r ∈ g.Rules, (∀ p ∈ r.Paths, TrimSpace p = "") ∨ (∀ f ∈ r.Fields, TrimSpace f = "")) ∧
    (∀ (pre : List Rule) (r : Rule) (post : List Rule), g.Rules = pre ++ r :: post →
      (∀ q ∈ pre, (∃ p ∈ q.Paths, TrimSpace p ≠ "") ∧ (∃ f ∈ q.Fields, TrimSpace f ≠ "")) →
      ((∀ p ∈ r.Paths, TrimSpace p = "") →
        g.normalize.2
          = some (Fault.error ("rule #" ++ Itoa pre.length ++ " has not any path"))) ∧
      ((∃ p ∈ r.Paths, TrimSpace p ≠ "") → (∀ f ∈ r.Fields, TrimSpace f = "") →
        g.normalize.2
          = some (Fault.error ("rule #" ++ Itoa pre.length ++ " has not any field")))) ∧
    (∀ e, g.normalize.2 = some e →
      ∀ (env : Env) (acc : List Record), g.Gather env acc = (g.normalize.1, acc, some e)) ∧
    (g.normalize.2 = none →
      ∀ (env : Env) (acc : List Record),
        g.Gather env acc = (g.normalize.1, gatherRules env g.normalize.1.Rules acc)) := by
  have hnz : ∀ l : List String, countNonBlank l ≠ 0 ↔ ∃ x ∈ l, TrimSpace x ≠ "" := by
    intro l
    rw [Ne, countNonBlank_eq_zero]
    simp
  refine ⟨?_, ?_, ?_, ?_⟩
  · have h := (normalizeLoop_ok_iff (TrimSpace g.Prefix) g.Rules 0).1
    have hsome : (∃ e, g.normalize.2 = some e) ↔ ¬ (normalizeLoop (TrimSpace g.Prefix) 0 g.Rules).2 = none := by
      simp only [CGroup.normalize]
      cases (normalizeLoop (TrimSpace g.Prefix) 0 g.Rules).2 <;> simp
    rw [hsome, h]
    simp only [not_forall, not_and_or, Decidable.not_not, countNonBlank_eq_zero, exists_prop]
  · intro pre r post hR hpre
    have hpre' : ∀ q ∈ pre, countNonBlank q.Paths ≠ 0 ∧ countNonBlank q.Fields ≠ 0 := by
      intro q hq
      exact ⟨(hnz _).2 (hpre q hq).1, (hnz _).2 (hpre q hq).2⟩
    obtain ⟨h1, h2⟩ := normalizeLoop_first_invalid (TrimSpace g.Prefix) pre 0 r post hpre'
    rw [Nat.zero_add] at h1 h2
    simp only [CGroup.normalize, hR]
    constructor
    · intro hp
      exact h1 ((countNonBlank_eq_zero _).2 hp)
    · intro hp hf
      exact h2 ((hnz _).2 hp) ((countNonBlank_eq_zero _).2 hf)
  · intro e he env acc
    unfold CGroup.Gather
    cases hn : g.normalize with
    | mk g' e' =>
      rw [hn] at he
      simp only at he
      subst he
      rfl
  · intro he env acc
    unfold CGroup.Gather
    cases hn : g.normalize with
    | mk g' e' =>
      rw [hn] at he
      simp only at he
      subst he
      rfl

/-- Claim C15: whenever `normalize` succeeds, the global prefix is trimmed and every
rule keeps its paths and fields and gets as prefix its own prefix with the
surrounding whitespace trimmed when that is non-empty, and otherwise the trimmed
global prefix. -/
theorem normalized_prefix_of_rule (g : CGroup) (h : g.normalize.2 = none) :
    g.normalize.1.Prefix = TrimSpace g.Prefix ∧
    g.normalize.1.Rules = g.Rules.map (fun r =>
      Rule.mk (if TrimSpace r.Prefix ≠ "" then TrimSpace r.Prefix else TrimSpace g.Prefix)
        r.Paths r.Fields) := by
  refine ⟨rfl, ?_⟩
  have := (normalizeLoop_ok_iff (TrimSpace g.Prefix) g.Rules 0).2 h
  simp only [CGroup.normalize]
  rw [this]
  apply List.map_congr_left
  intro r _
  unfold normalizedRule
  by_cases hp : TrimSpace r.Prefix = ""
  · simp [hp]
  · simp [hp]

/-- A rule with its own prefix keeps it, trimmed; a rule without takes the global one. -/
theorem normalized_prefix_of_rule_witness :
    (CGroup.mk " /cgroup/ " [Rule.mk " /cgroup/cpu/ " ["/"] ["cpuacct.usage"],
        Rule.mk "  " ["child1"] ["memory.stat"]]).normalize.1.Rules
      = [Rule.mk "/cgroup/cpu/" ["/"] ["cpuacct.usage"],
         Rule.mk "/cgroup/" ["child1"] ["memory.stat"]] :=
  ((normalized_prefix_of_rule
    (CGroup.mk " /cgroup/ " [Rule.mk " /cgroup/cpu/ " ["/"] ["cpuacct.usage"],
      Rule.mk "  " ["child1"] ["memory.stat"]]) (by decide)).2).trans (by
        simp only [List.map_cons, List.map_nil]
        have h1 : TrimSpace " /cgroup/cpu/ " = "/cgroup/cpu/" := by decide
        have h2 : TrimSpace "  " = "" := by decide
        have h3 : TrimSpace " /cgroup/ " = "/cgroup/" := by decide
        simp [h1, h2, h3])

/-- Claim C20: for every rule of a configuration on which `normalize` succeeds, before
and after it, the field list has a first element, splitting that element on `.`
yields at least one part, and `measurement` returns without panic the text of
that element before its first `.`, which is the whole element when it has no `.`
and may be blank when the first field is blank and a later one is not. -/
theorem measurement_in_bounds (g : CGroup) (h : g.normalize.2 = none) (r : Rule)
    (hr : r ∈ g.Rules ∨ r ∈ g.normalize.1.Rules) :
    ∃ f0 rest, r.Fields = f0 :: rest ∧ stringsSplit f0 '.' ≠ [] ∧
      r.measurement = .ok (beforeDot f0) ∧
      ('.' ∉ f0.data → beforeDot f0 = f0) := by
  have hvalid := (normalizeLoop_ok_iff (TrimSpace g.Prefix) g.Rules 0).1.1 h
  have hmap := (normalizeLoop_ok_iff (TrimSpace g.Prefix) g.Rules 0).2 h
  have hfields : countNonBlank r.Fields ≠ 0 := by
    rcases hr with hr | hr
    · exact (hvalid r hr).2
    · simp only [CGroup.normalize] at hr
      rw [hmap, List.mem_map] at hr
      obtain ⟨q, hq, rfl⟩ := hr
      exact (hvalid q hq).2
  cases hF : r.Fields with
  | nil => rw [hF] at hfields; simp [countNonBlank] at hfields
  | cons f0 rest =>
    refine ⟨f0, rest, rfl, ?_, measurement_eq r f0 rest hF, ?_⟩
    · unfold stringsSplit
      intro hnil
      exact splitChars_ne_nil '.' f0.data (List.map_eq_nil_iff.1 hnil)
    · intro hdot
      unfold beforeDot
      have : f0.data.takeWhile (fun c => c != '.') = f0.data := by
        rw [List.takeWhile_eq_self_iff]
        intro c hc
        have : c ≠ '.' := fun hcd => hdot (hcd ▸ hc)
        simp [this]
      rw [this]

/-- A blank first field followed by a non-blank one passes `normalize` and gives a
blank measurement name. -/
theorem measurement_in_bounds_witness :
    (CGroup.mk "" [Rule.mk "" ["/"] [" ", "memory.stat"]]).normalize.2 = none ∧
    (Rule.mk "" ["/"] [" ", "memory.stat"]).measurement = .ok " " ∧
    ∃ f0 rest, (Rule.mk "" ["/"] [" ", "memory.stat"]).Fields = f0 :: rest ∧
      stringsSplit f0 '.' ≠ [] ∧
      (Rule.mk "" ["/"] [" ", "memory.stat"]).measurement = .ok (beforeDot f0) ∧
      ('.' ∉ f0.data → beforeDot f0 = f0) :=
  ⟨by decide, by decide,
    measurement_in_bounds (CGroup.mk "" [Rule.mk "" ["/"] [" ", "memory.stat"]]) (by decide)
      (Rule.mk "" ["/"] [" ", "memory.stat"]) (Or.inl (by simp))⟩

end Normalize

/-! ## Path expansion -/

section Expansion

theorem sendItems_ok (env : Env) : ∀ items : List String,
    (∀ y ∈ items, ∃ b, env.stat y = .ok b) →
    sendItems env items
      = ((items.filter (fun i => decide (env.stat i = .ok true))).map
          (fun d => dirInfo.mk d none), false) := by
  intro items
  induction items with
  | nil => intro _; rfl
  | cons x xs ih =>
    intro h
    obtain ⟨b, hb⟩ := h x (by simp)
    have ih' := ih (fun y hy => h y (by simp [hy]))
    cases b with
    | true => simp [sendItems, isDir, hb, ih', List.filter_cons]
    | false => simp [sendItems, isDir, hb, ih', List.filter_cons]

theorem sendItems_fail (env : Env) : ∀ (a : List String) (x : String) (b : List String)
    (e : String), (∀ y ∈ a, ∃ isdir, env.stat y = .ok isdir) → env.stat x = .error e →
    sendItems env (a ++ x :: b)
      = ((a.filter (fun i => decide (env.stat i = .ok true))).map
          (fun d => dirInfo.mk d none) ++ [dirInfo.mk "" (some e)], true) := by
  intro a
  induction a with
  | nil =>
    intro x b e _ hx
    simp [sendItems, isDir, hx]
  | cons y ys ih =>
    intro x b e h hx
    obtain ⟨isdir, hy⟩ := h y (by simp)
    have ih' := ih x b e (fun z hz => h z (by simp [hz])) hx
    cases isdir with
    | true => simp [sendItems, isDir, hy, ih', List.filter_cons]
    | false => simp [sendItems, isDir, hy, ih', List.filter_cons]

theorem generateDirsLoop_append (env : Env) (pfx : String) :
    ∀ (pre rest : List String), (∀ q ∈ pre, patternOk env pfx q) →
      generateDirsLoop env pfx (pre ++ rest)
        = ((pre.flatMap (dirsOfPattern env pfx)).map (fun d => dirInfo.mk d none)
            ++ (generateDirsLoop env pfx rest).1, (generateDirsLoop env pfx rest).2) := by
  intro pre
  induction pre with
  | nil => intro rest _; simp
  | cons q pre ih =>
    intro rest h
    obtain ⟨items, hg, hs⟩ := h q (by simp)
    have ih' := ih rest (fun x hx => h x (by simp [hx]))
    rw [List.cons_append, generateDirsLoop]
    simp only [hg, sendItems_ok env items hs, ih']
    simp [dirsOfPattern, hg]

/-- Claim C14: with glob and stat given, the sequence `generateDirs` sends is the
concatenation, in declared path order, of each path's glob results for the cleaned
join of prefix and path, keeping the results that are directories, and the channel
is then closed; a path without a directory among its results adds nothing; the
first glob failure, or the first stat failure on a glob result, ends the sequence
with that error as last item, after the directories found before it, and nothing
follows. -/
theorem generateDirs_sequence (r : Rule) (env : Env) :
    ((∀ p ∈ r.Paths, patternOk env r.Prefix p) →
      r.generateDirs env
        = ((r.Paths.flatMap (dirsOfPattern env r.Prefix)).map (fun d => dirInfo.mk d none),
            true)) ∧
    (∀ (pre : List String) (p : String) (post : List String) (e : String),
      r.Paths = pre ++ p :: post → (∀ q ∈ pre, patternOk env r.Prefix q) →
      env.glob (pathClean (pathJoin r.Prefix p)) = .error e →
      r.generateDirs env
        = ((pre.flatMap (dirsOfPattern env r.Prefix)).map (fun d => dirInfo.mk d none)
            ++ [dirInfo.mk "" (some e)], false)) ∧
    (∀ (pre : List String) (p : String) (post a : List String) (x : String)
        (b : List String) (e : String),
      r.Paths = pre ++ p :: post → (∀ q ∈ pre, patternOk env r.Prefix q) →
      env.glob (pathClean (pathJoin r.Prefix p)) = .ok (a ++ x :: b) →
      (∀ y ∈ a, ∃ isdir, env.stat y = .ok isdir) → env.stat x = .error e →
      r.generateDirs env
        = ((pre.flatMap (dirsOfPattern env r.Prefix)
              ++ a.filter (fun i => decide (env.stat i = .ok true))).map
                (fun d => dirInfo.mk d none)
            ++ [dirInfo.mk "" (some e)], false)) ∧
    (∀ p, (∀ i, env.stat i ≠ .ok true) → dirsOfPattern env r.Prefix p = []) := by
  refine ⟨?_, ?_, ?_, ?_⟩
  · intro h
    have := generateDirsLoop_append env r.Prefix r.Paths [] h
    rw [List.append_nil] at this
    unfold Rule.generateDirs
    rw [this]
    simp [generateDirsLoop]
  · intro pre p post e hP hpre hg
    unfold Rule.generateDirs
    rw [hP, generateDirsLoop_append env r.Prefix pre (p :: post) hpre, generateDirsLoop]
    simp only [hg]
  · intro pre p post a x b e hP hpre hg ha hx
    unfold Rule.generateDirs
    rw [hP, generateDirsLoop_append env r.Prefix pre (p :: post) hpre, generateDirsLoop]
    simp only [hg, sendItems_fail env a x b e ha hx, if_true, List.map_append,
      List.append_assoc]
  · intro p h
    unfold dirsOfPattern
    split
    · rfl
    · rw [List.filter_eq_nil_iff]
      intro i _
      simp [h i]

theorem generateDirs_sequence_witness :
    testRule3.generateDirs testEnv
      = ([dirInfo.mk "testdata/memory/group_1/group_1_1" none,
          dirInfo.mk "testdata/memory/group_1/group_1_2" none,
          dirInfo.mk "testdata/memory/group_2" none], true) ∧
    testRule3.generateDirs testEnv
      = ((testRule3.Paths.flatMap (dirsOfPattern testEnv testRule3.Prefix)).map
          (fun d => dirInfo.mk d none), true) :=
  ⟨by decide,
    (generateDirs_sequence testRule3 testEnv).1 (by
      intro p hp
      simp only [testRule3, List.mem_cons, List.mem_singleton, List.not_mem_nil,
        or_false] at hp
      rcases hp with rfl | rfl
      · exact ⟨["testdata/memory/group_1/group_1_1", "testdata/memory/group_1/group_1_2",
          "testdata/memory/group_1/memory.limit_in_bytes"], by decide, fun y _ => by
          by_cases hy : y = "testdata/memory/group_1/memory.limit_in_bytes"
          · exact ⟨false, by simp [testEnv, hy]⟩
          · exact ⟨true, by simp [testEnv, hy]⟩⟩
      · exact ⟨["testdata/memory/group_2"], by decide, fun y _ => by
          by_cases hy : y = "testdata/memory/group_1/memory.limit_in_bytes"
          · exact ⟨false, by simp [testEnv, hy]⟩
          · exact ⟨true, by simp [testEnv, hy]⟩⟩)⟩

end Expansion

/-! ## Exclusive layouts -/

section Exclusive

theorem find?_eq_head?_filter {α : Type} (p : α → Bool) : ∀ l : List α,
    l.find? p = (l.filter p).head? := by
  intro l
  induction l with
  | nil => rfl
  | cons x xs ih =>
    cases hx : p x with
    | true => rw [List.find?_cons_of_pos _ hx, List.filter_cons_of_pos hx]; rfl
    | false =>
      rw [List.find?_cons_of_neg _ (by simp [hx]), List.filter_cons_of_neg (by simp [hx]), ih]

theorem matching_le_one (b : List Char) :
    (fileFormats.filter (fun f => f.«match» b)).length ≤ 1 := by
  obtain ⟨e1, e2, e3⟩ := match_exclusive b
  simp only [fileFormats, List.filter]
  cases h4 : keyValueFormat.«match» b
  · cases h3 : spaceFormat.«match» b
    · cases h2 : newLineFormat.«match» b
      · cases h1 : singleValueFormat.«match» b <;> simp
      · have := e1 h2
        simp [this]
    · obtain ⟨a1, a2⟩ := e2 h3
      simp [a1, a2]
  · obtain ⟨a1, a2, a3⟩ := e3 h4
    simp [a1, a2, a3]

/-- Claim C18: at most one of the four patterns of `fileFormats` matches a content, so
for every ordering of the table the loop of `fileInfo.format` returns the same
layout, or fails the same way, as for the declared order. -/
theorem format_order_independent (d : fileInfo) :
    (fileFormats.filter (fun f => f.«match» d.data)).length ≤ 1 ∧
    ∀ l : List fileFormat, l.Perm fileFormats → d.formatLoop l = d.format := by
  refine ⟨matching_le_one d.data, ?_⟩
  intro l hl
  unfold fileInfo.format
  rw [formatLoop_find d l, formatLoop_find d fileFormats, find?_eq_head?_filter,
    find?_eq_head?_filter]
  have hperm := List.Perm.filter (fun f => f.«match» d.data) hl
  have hlen := matching_le_one d.data
  have heq : l.filter (fun f => f.«match» d.data)
      = fileFormats.filter (fun f => f.«match» d.data) := by
    match hf : fileFormats.filter (fun f => f.«match» d.data), hlen with
    | [], _ =>
      rw [hf] at hperm ⊢
      exact List.Perm.eq_nil hperm
    | [x], _ =>
      rw [hf] at hperm ⊢
      exact List.perm_singleton.1 hperm
    | x :: y :: t, hlen =>
      rw [hf] at hlen
      simp at hlen
  rw [heq]

theorem format_order_independent_witness :
    [keyValueFormat, spaceFormat, newLineFormat, singleValueFormat].Perm fileFormats ∧
    (fileInfo.mk "0\n-1\n2\n".toList "p").formatLoop
        [keyValueFormat, spaceFormat, newLineFormat, singleValueFormat]
      = (fileInfo.mk "0\n-1\n2\n".toList "p").format :=
  have hperm : [keyValueFormat, spaceFormat, newLineFormat, singleValueFormat].Perm
      fileFormats := by
    have h : fileFormats.reverse
        = [keyValueFormat, spaceFormat, newLineFormat, singleValueFormat] := rfl
    rw [← h]
    exact List.reverse_perm _
  ⟨hperm, (format_order_independent (fileInfo.mk "0\n-1\n2\n".toList "p")).2 _ hperm⟩

end Exclusive

/-! ## Values and repeated keys of the key/value layout -/

section KeyValue

theorem parse_kvFold (path : String) (b : List Char)
    (h : keyValueFormat.«match» b = true) :
    (fileInfo.mk b path).parse = .ok (kvFold (kvLines b) [], []) := by
  obtain ⟨ls, hne, hv, hb⟩ := (keyValue_match_iff b).1 h
  subst hb
  rw [parseKV_fold path ls hne hv, kvLines_kv ls hv]
  unfold kvFold
  rw [List.foldl_map]

theorem mapSet_mem {α : Type} (m : List (String × α)) (k : String) (v : α)
    (e : String × α) (h : e ∈ mapSet m k v) : e = (k, v) ∨ e ∈ m := by
  induction m with
  | nil =>
    simp only [mapSet, List.mem_singleton] at h
    exact Or.inl h
  | cons p m ih =>
    obtain ⟨k', v'⟩ := p
    by_cases hk : k' = k
    · simp only [mapSet, hk, if_true, List.mem_cons] at h
      rcases h with h | h
      · exact Or.inl h
      · exact Or.inr (List.mem_cons_of_mem _ h)
    · simp only [mapSet, hk, if_false, List.mem_cons] at h
      rcases h with h | h
      · exact Or.inr (by rw [h]; simp)
      · rcases ih h with h | h
        · exact Or.inl h
        · exact Or.inr (List.mem_cons_of_mem _ h)

theorem mapGet_mapSet {α : Type} (m : List (String × α)) (k : String) (v : α) (k' : String) :
    mapGet (mapSet m k v) k' = if k = k' then some v else mapGet m k' := by
  induction m with
  | nil => simp [mapSet, mapGet]
  | cons p m ih =>
    obtain ⟨k0, v0⟩ := p
    by_cases hk : k0 = k
    · subst hk
      by_cases hk' : k0 = k'
      · simp [mapSet, mapGet, hk']
      · simp [mapSet, mapGet, hk']
    · by_cases hk' : k0 = k'
      · subst hk'
        simp [mapSet, mapGet, hk, Ne.symm hk]
      · simp [mapSet, mapGet, hk, hk', ih]

theorem mapSet_keys {α : Type} (m : List (String × α)) (k : String) (v : α) :
    (mapSet m k v).map Prod.fst
      = if k ∈ m.map Prod.fst then m.map Prod.fst else m.map Prod.fst ++ [k] := by
  induction m with
  | nil => simp [mapSet]
  | cons p m ih =>
    obtain ⟨k0, v0⟩ := p
    by_cases hk : k0 = k
    · subst hk
      simp [mapSet]
    · have hk' : ¬ k = k0 := fun h => hk h.symm
      simp only [mapSet, hk, if_false, List.map_cons, ih, List.mem_cons, hk', false_or]
      split <;> simp

theorem kvFold_mem : ∀ (ls : List (String × String)) (m : FieldMap) (e : String × Iface),
    e ∈ kvFold ls m → e ∈ m ∨ ∃ l ∈ ls, e = (l.1, numberOrString l.2) := by
  intro ls
  induction ls with
  | nil => intro m e h; exact Or.inl h
  | cons l ls ih =>
    intro m e h
    simp only [kvFold, List.foldl_cons] at h
    rcases ih _ e h with h | ⟨l', hl', he⟩
    · rcases mapSet_mem _ _ _ _ h with h | h
      · exact Or.inr ⟨l, by simp, h⟩
      · exact Or.inl h
    · exact Or.inr ⟨l', by simp [hl'], he⟩

theorem kvFold_get : ∀ (ls : List (String × String)) (m : FieldMap) (k : String),
    mapGet (kvFold ls m) k =
      match lastValue ls k with
      | some v => some (numberOrString v)
      | none => mapGet m k := by
  intro ls
  induction ls with
  | nil => intro m k; rfl
  | cons l ls ih =>
    intro m k
    simp only [kvFold, List.foldl_cons]
    have := ih (mapSet m l.1 (numberOrString l.2)) k
    simp only [kvFold] at this
    rw [this, lastValue]
    cases lastValue ls k with
    | some v => rfl
    | none =>
      simp only [mapGet_mapSet]
      by_cases hk : l.1 = k <;> simp [hk]

theorem kvFold_keys : ∀ (ls : List (String × String)) (m : FieldMap),
    (m.map Prod.fst).Nodup →
    ((kvFold ls m).map Prod.fst).Nodup ∧
      ∀ k ∈ (kvFold ls m).map Prod.fst, k ∈ m.map Prod.fst ∨ k ∈ ls.map Prod.fst := by
  intro ls
  induction ls with
  | nil => intro m h; exact ⟨h, fun k hk => Or.inl hk⟩
  | cons l ls ih =>
    intro m h
    simp only [kvFold, List.foldl_cons]
    have hnd : ((mapSet m l.1 (numberOrString l.2)).map Prod.fst).Nodup := by
      rw [mapSet_keys]
      split
      · exact h
      · rename_i hk
        rw [List.nodup_append]
        refine ⟨h, by simp, ?_⟩
        intro a ha hb
        simp only [List.mem_singleton] at hb
        subst hb
        exact hk ha
    obtain ⟨h1, h2⟩ := ih _ hnd
    refine ⟨h1, ?_⟩
    intro k hk
    rcases h2 k hk with hk | hk
    · rw [mapSet_keys] at hk
      split at hk
      · exact Or.inl hk
      · simp only [List.mem_append, List.mem_singleton] at hk
        rcases hk with hk | hk
        · exact Or.inl hk
        · exact Or.inr (by simp [hk])
    · exact Or.inr (by simp only [List.map_cons, List.mem_cons]; exact Or.inr hk)

theorem kvFold_length (ls : List (String × String)) :
    (kvFold ls []).length ≤ ls.length ∧
      (¬ (ls.map Prod.fst).Nodup → (kvFold ls []).length < ls.length) := by
  obtain ⟨hnd, hsub⟩ := kvFold_keys ls [] (by simp)
  have hsub' : (kvFold ls []).map Prod.fst ⊆ (ls.map Prod.fst).dedup := by
    intro k hk
    rcases hsub k hk with h | h
    · simp at h
    · exact List.mem_dedup.2 h
  have h1 : ((kvFold ls []).map Prod.fst).length ≤ (ls.map Prod.fst).dedup.length :=
    (List.subperm_of_subset hnd hsub').length_le
  have h2 : (ls.map Prod.fst).dedup.length ≤ (ls.map Prod.fst).length :=
    (List.dedup_sublist _).length_le
  simp only [List.length_map] at h1 h2
  refine ⟨le_trans h1 h2, ?_⟩
  intro hdup
  have h3 : (ls.map Prod.fst).dedup.length ≠ (ls.map Prod.fst).length := by
    intro heq
    have := (List.dedup_sublist (ls.map Prod.fst)).eq_of_length heq
    exact hdup (this ▸ List.nodup_dedup _)
  simp only [List.length_map] at h3
  omega

theorem kvFold_single_key (k : String) : ∀ (ls : List (String × String)) (x : Iface),
    (∀ l ∈ ls, l.1 = k) →
    kvFold ls [(k, x)]
      = [(k, match lastValue ls k with
            | some v => numberOrString v
            | none => x)] := by
  intro ls
  induction ls with
  | nil => intro x _; rfl
  | cons l ls ih =>
    intro x h
    have hl : l.1 = k := h l (by simp)
    simp only [kvFold, List.foldl_cons, mapSet, hl, if_true]
    have := ih (numberOrString l.2) (fun y hy => h y (by simp [hy]))
    simp only [kvFold] at this
    rw [this, lastValue]
    cases lastValue ls k with
    | some v => rfl
    | none => simp [hl]

theorem numberOrString_cases (s : String) :
    (∃ n, Atoi s = some n ∧ numberOrString s = Iface.int n) ∨
      (Atoi s = none ∧ numberOrString s = Iface.str s) := by
  unfold numberOrString
  cases Atoi s with
  | none => exact Or.inr ⟨rfl, rfl⟩
  | some n => exact Or.inl ⟨n, rfl, rfl⟩

/-- Claim C16 as stated fails: the one-line content `a 1-2` matches the key/value
layout and its value comes back as the string `1-2`; so does a value beyond the
`int` range. -/
theorem keyValue_string_value :
    keyValueFormat.«match» "a 1-2\n".toList = true ∧
    (fileInfo.mk "a 1-2\n".toList "p").parse = .ok ([("a", Iface.str "1-2")], []) ∧
    keyValueFormat.«match» "a 9223372036854775808\n".toList = true ∧
    (fileInfo.mk "a 9223372036854775808\n".toList "p").parse
      = .ok ([("a", Iface.str "9223372036854775808")], []) := by
  decide

/-- Claim C16, amended: for every content that matches the key/value layout, every
entry of the extracted field map is named by the key of one of the content's lines
and holds `numberOrString` of that line's value text: the integer when `Atoi`
accepts the text, and the text itself, as a string, when it does not. -/
theorem keyValue_values (path : String) (b : List Char)
    (h : keyValueFormat.«match» b = true) :
    ∃ fields, (fileInfo.mk b path).parse = .ok (fields, []) ∧
      ∀ e ∈ fields, ∃ l ∈ kvLines b, e.1 = l.1 ∧
        ((∃ n, Atoi l.2 = some n ∧ e.2 = Iface.int n) ∨
          (Atoi l.2 = none ∧ e.2 = Iface.str l.2)) := by
  refine ⟨_, parse_kvFold path b h, ?_⟩
  intro e he
  rcases kvFold_mem _ _ e he with h0 | ⟨l, hl, rfl⟩
  · simp at h0
  · exact ⟨l, hl, rfl, numberOrString_cases l.2⟩

theorem keyValue_values_witness :
    keyValueFormat.«match» "cache 123\nrss 1-2\n".toList = true ∧
    ∃ fields, (fileInfo.mk "cache 123\nrss 1-2\n".toList "p").parse = .ok (fields, []) ∧
      ∀ e ∈ fields, ∃ l ∈ kvLines "cache 123\nrss 1-2\n".toList, e.1 = l.1 ∧
        ((∃ n, Atoi l.2 = some n ∧ e.2 = Iface.int n) ∨
          (Atoi l.2 = none ∧ e.2 = Iface.str l.2)) :=
  ⟨by decide, keyValue_values "p" "cache 123\nrss 1-2\n".toList (by decide)⟩

/-- Claim C19 as stated fails: when the one shared key is `value`, the key is not
absent and `gatherDir` stores the last line's value, not nil, under the file name. -/
theorem shared_key_value_not_nil :
    keyValueFormat.«match» "value 1\nvalue 2\n".toList = true ∧
    (fileInfo.mk "value 1\nvalue 2\n".toList "d/f").parse
      = .ok ([("value", Iface.int 2)], []) ∧
    (Rule.mk "" ["/"] ["f"]).gatherDir (oneFileFs "d/f" "value 1\nvalue 2\n".toList) "d" []
      = ([Record.mk "cgroup:f" [("f", Iface.int 2)] [("path", "d")]], none) := by
  decide

/-- Claim C19, amended: for every content that matches the key/value layout, the
extracted field map holds every key of the content once, with `numberOrString` of
the value of the last line that has the key; so it has at most as many entries as
the content has lines, and fewer when a key is repeated.  When all lines share one
key the map has exactly one entry and `gatherDir` treats the file as single-valued:
it emits no standalone record and stores under the file name what the map has
under the key `value`, which is the last line's value when the shared key is
`value`. -/
theorem keyValue_repeated_keys (b : List Char) (h : keyValueFormat.«match» b = true) :
    ∃ fields, (∀ path, (fileInfo.mk b path).parse = .ok (fields, [])) ∧
      (fields.map Prod.fst).Nodup ∧
      (∀ k, k ∈ fields.map Prod.fst ↔ k ∈ (kvLines b).map Prod.fst) ∧
      (∀ k v, lastValue (kvLines b) k = some v → mapGet fields k = some (numberOrString v)) ∧
      fields.length ≤ (kvLines b).length ∧
      (¬ ((kvLines b).map Prod.fst).Nodup → fields.length < (kvLines b).length) ∧
      (∀ k, (∀ l ∈ kvLines b, l.1 = k) →
        ∃ v, lastValue (kvLines b) k = some v ∧ fields = [(k, numberOrString v)] ∧
          mapIndex fields "value" = (if k = "value" then numberOrString v else Iface.nil) ∧
          ∀ (fs : FileSystem) (dir file : String) (rest : List String) (sv : FieldMap)
            (acc : List Record), fs (pathJoin dir file) = .ok b →
            standaloneRecord fs dir file = none ∧
            gatherDirLoop fs dir (file :: rest) sv acc
              = gatherDirLoop fs dir rest (mapSet sv file (mapIndex fields "value")) acc) := by
  have hne : kvLines b ≠ [] := by
    obtain ⟨ls, hne, hv, hb⟩ := (keyValue_match_iff b).1 h
    subst hb
    rw [kvLines_kv ls hv]
    simpa using hne
  have hbne : b ≠ [] := by
    obtain ⟨x, r, hb, _⟩ := keyValue_head b h
    rw [hb]
    simp
  obtain ⟨hnd, hsub⟩ := kvFold_keys (kvLines b) [] (by simp)
  have hlast : ∀ k, k ∈ (kvLines b).map Prod.fst → ∃ v, lastValue (kvLines b) k = some v := by
    intro k
    generalize kvLines b = ls
    induction ls with
    | nil => intro hk; simp at hk
    | cons l ls ih =>
      intro hk
      rw [lastValue]
      cases hlv : lastValue ls k with
      | some v => exact ⟨v, rfl⟩
      | none =>
        simp only [List.map_cons, List.mem_cons] at hk
        rcases hk with hk | hk
        · exact ⟨l.2, by simp [hk]⟩
        · obtain ⟨v, hv⟩ := ih hk
          rw [hlv] at hv
          exact absurd hv (by simp)
  have hget : ∀ k v, lastValue (kvLines b) k = some v →
      mapGet (kvFold (kvLines b) []) k = some (numberOrString v) := by
    intro k v hv
    rw [kvFold_get, hv]
  have hmem_of_get : ∀ (m : FieldMap) (k : String) (x : Iface), mapGet m k = some x →
      k ∈ m.map Prod.fst := by
    intro m
    induction m with
    | nil => intro k x hx; simp [mapGet] at hx
    | cons p m ih =>
      intro k x hx
      obtain ⟨k0, v0⟩ := p
      by_cases hk : k0 = k
      · simp [hk]
      · simp only [mapGet, hk, if_false] at hx
        simp only [List.map_cons, List.mem_cons]
        exact Or.inr (ih k x hx)
  refine ⟨kvFold (kvLines b) [], fun path => parse_kvFold path b h, hnd, ?_, hget,
    (kvFold_length _).1, (kvFold_length _).2, ?_⟩
  · intro k
    constructor
    · intro hk
      rcases hsub k hk with h0 | h0
      · simp at h0
      · exact h0
    · intro hk
      obtain ⟨v, hv⟩ := hlast k hk
      exact hmem_of_get _ k _ (hget k v hv)
  · intro k hall
    have hk : k ∈ (kvLines b).map Prod.fst := by
      match hl : kvLines b, hne with
      | l :: ls, _ =>
        have : l.1 = k := hall l (by rw [hl]; simp)
        simp [this]
    obtain ⟨v, hv⟩ := hlast k hk
    have hfields : kvFold (kvLines b) [] = [(k, numberOrString v)] := by
      match hl : kvLines b, hne with
      | l :: ls, _ =>
        have hl1 : l.1 = k := hall l (by rw [hl]; simp)
        have hrest : ∀ y ∈ ls, y.1 = k := fun y hy => hall y (by rw [hl]; simp [hy])
        rw [hl] at hv
        simp only [kvFold, List.foldl_cons, mapSet, hl1]
        have := kvFold_single_key k ls (numberOrString l.2) hrest
        simp only [kvFold] at this
        rw [this]
        rw [lastValue] at hv
        cases hlv : lastValue ls k with
        | some w =>
          rw [hlv] at hv
          simp only [Option.some.injEq] at hv
          rw [hv]
        | none =>
          rw [hlv] at hv
          simp only [hl1, if_true, Option.some.injEq] at hv
          rw [hv]
    have hidx : mapIndex (kvFold (kvLines b) []) "value"
        = (if k = "value" then numberOrString v else Iface.nil) := by
      rw [hfields]
      by_cases hkv : k = "value"
      · simp [mapIndex, mapGet, hkv]
      · simp [mapIndex, mapGet, hkv]
    refine ⟨v, hv, hfields, hidx, ?_⟩
    intro fs dir file rest sv acc hread
    have hlen : ¬ b.length = 0 := fun h0 => hbne (List.length_eq_zero.mp h0)
    have hparse := parse_kvFold (pathJoin dir file) b h
    constructor
    · unfold standaloneRecord
      rw [hread]
      simp only
      rw [hparse]
      simp [hfields]
    · rw [gatherDirLoop, hread]
      simp only [hlen, if_false, hparse]
      rw [if_pos (by rw [hfields]; rfl)]

theorem keyValue_repeated_keys_witness :
    keyValueFormat.«match» "a 1\na 2\n".toList = true ∧
    (fileInfo.mk "a 1\na 2\n".toList "d/f").parse = .ok ([("a", Iface.int 2)], []) ∧
    ∃ fields, (∀ path, (fileInfo.mk "a 1\na 2\n".toList path).parse = .ok (fields, [])) ∧
      (fields.map Prod.fst).Nodup ∧
      (∀ k, k ∈ fields.map Prod.fst ↔ k ∈ (kvLines "a 1\na 2\n".toList).map Prod.fst) ∧
      (∀ k v, lastValue (kvLines "a 1\na 2\n".toList) k = some v →
        mapGet fields k = some (numberOrString v)) ∧
      fields.length ≤ (kvLines "a 1\na 2\n".toList).length ∧
      (¬ ((kvLines "a 1\na 2\n".toList).map Prod.fst).Nodup →
        fields.length < (kvLines "a 1\na 2\n".toList).length) ∧
      (∀ k, (∀ l ∈ kvLines "a 1\na 2\n".toList, l.1 = k) →
        ∃ v, lastValue (kvLines "a 1\na 2\n".toList) k = some v ∧
          fields = [(k, numberOrString v)] ∧
          mapIndex fields "value" = (if k = "value" then numberOrString v else Iface.nil) ∧
          ∀ (fs : FileSystem) (dir file : String) (rest : List String) (sv : FieldMap)
            (acc : List Record), fs (pathJoin dir file) = .ok "a 1\na 2\n".toList →
            standaloneRecord fs dir file = none ∧
            gatherDirLoop fs dir (file :: rest) sv acc
              = gatherDirLoop fs dir rest (mapSet sv file (mapIndex fields "value")) acc) :=
  ⟨by decide, by decide, keyValue_repeated_keys "a 1\na 2\n".toList (by decide)⟩

end KeyValue

/-! ## Termination of the producer -/

section Producer

theorem run_stuck (r : Rule) (env : Env) (s : GatherState) (h : s.step r env = none) :
    ∀ n, GatherState.run r env n s = s := by
  intro n
  cases n with
  | zero => rfl
  | succ n => simp [GatherState.run, h]

theorem run_returned (r : Rule) (env : Env) (items : List dirInfo) (c : Bool)
    (acc : List Record) (e : Option Fault) (n : Nat) :
    GatherState.run r env n ⟨items, c, .returned acc e⟩ = ⟨items, c, .returned acc e⟩ :=
  run_stuck r env ⟨items, c, .returned acc e⟩ rfl n

theorem sendItems_stopped (env : Env) : ∀ items : List String,
    (sendItems env items).2 = true →
    ∃ pre e, (sendItems env items).1 = pre ++ [dirInfo.mk "" (some e)] := by
  intro items
  induction items with
  | nil => intro h; simp [sendItems] at h
  | cons x xs ih =>
    intro h
    rw [sendItems] at h ⊢
    cases hs : env.stat x with
    | error e =>
      exact ⟨[], e, by simp [isDir, hs]⟩
    | ok b =>
      simp only [isDir, hs] at h ⊢
      cases b with
      | true =>
        simp only [if_true] at h ⊢
        obtain ⟨pre, e, hpre⟩ := ih h
        exact ⟨dirInfo.mk x none :: pre, e, by rw [hpre]; rfl⟩
      | false =>
        simp only [Bool.false_eq_true, if_false] at h ⊢
        exact ih h

/-- When `generateDirs` leaves without closing the channel, the last item it sent
is an error. -/
theorem generateDirsLoop_not_closed (env : Env) (pfx : String) : ∀ ps : List String,
    (generateDirsLoop env pfx ps).2 = false →
    ∃ pre e, (generateDirsLoop env pfx ps).1 = pre ++ [dirInfo.mk "" (some e)] := by
  intro ps
  induction ps with
  | nil => intro h; simp [generateDirsLoop] at h
  | cons p ps ih =>
    intro h
    rw [generateDirsLoop] at h ⊢
    cases hg : env.glob (pathClean (pathJoin pfx p)) with
    | error e => exact ⟨[], e, by simp⟩
    | ok items =>
      simp only [hg] at h ⊢
      by_cases hs : (sendItems env items).2 = true
      · simp only [hs, if_true] at h ⊢
        exact sendItems_stopped env items hs
      · have hs' : (sendItems env items).2 = false := by simpa using hs
        simp only [hs', Bool.false_eq_true, if_false] at h ⊢
        obtain ⟨pre, e, hpre⟩ := ih h
        exact ⟨(sendItems env items).1 ++ pre, e, by rw [hpre, List.append_assoc]⟩

/-- The run of the two tasks ends with the consumer returning what the loop of
`Rule.gather` computes. -/
theorem run_reaches_gatherLoop (r : Rule) (env : Env) :
    ∀ (items : List dirInfo) (c : Bool) (acc : List Record),
      (c = true ∨ ∃ pre e, items = pre ++ [dirInfo.mk "" (some e)]) →
      ∃ n, (GatherState.run r env n ⟨items, c, .looping acc⟩).consumer
        = .returned (gatherLoop r env items acc).1 (gatherLoop r env items acc).2 := by
  intro items
  induction items with
  | nil =>
    intro c acc h
    have hc : c = true := by
      rcases h with h | ⟨pre, e, h⟩
      · exact h
      · exact absurd h (by simp)
    subst hc
    exact ⟨1, by simp [GatherState.run, GatherState.step, gatherLoop]⟩
  | cons d rest ih =>
    intro c acc h
    cases hd : d.err with
    | some e =>
      refine ⟨1, ?_⟩
      simp [GatherState.run, GatherState.step, receive, gatherLoop, hd]
    | none =>
      cases hg : r.gatherDir env.readFile d.path acc with
      | mk acc' e' =>
        cases e' with
        | some e =>
          refine ⟨1, ?_⟩
          simp [GatherState.run, GatherState.step, receive, gatherLoop, hd, hg]
        | none =>
          have hrest : c = true ∨ ∃ pre e, rest = pre ++ [dirInfo.mk "" (some e)] := by
            rcases h with h | ⟨pre, e, h⟩
            · exact Or.inl h
            · right
              cases pre with
              | nil =>
                simp only [List.nil_append, List.cons.injEq] at h
                rw [h.1] at hd
                simp at hd
              | cons x pre' =>
                simp only [List.cons_append, List.cons.injEq] at h
                exact ⟨pre', e, h.2⟩
          obtain ⟨n, hn⟩ := ih c acc' hrest
          refine ⟨n + 1, ?_⟩
          simp only [GatherState.run, GatherState.step, receive, hd, hg, gatherLoop]
          exact hn

/-- The run of the two tasks ends with the consumer returning the result of
`Rule.gather`. -/
theorem run_reaches_gather (r : Rule) (env : Env) (acc : List Record) :
    ∃ n, (GatherState.run r env n (GatherState.init r env acc)).consumer
      = .returned (r.gather env acc).1 (r.gather env acc).2 := by
  unfold GatherState.init Rule.gather
  apply run_reaches_gatherLoop
  cases hc : (r.generateDirs env).2 with
  | true => exact Or.inl rfl
  | false => exact Or.inr (generateDirsLoop_not_closed env r.Prefix r.Paths hc)

/-- Claim C17, evaluated on the code: with two directories to send and a declared
file that cannot be read in the first, the consumer receives the first directory,
gets the error from `gatherDir` and returns it; the producer then stands at the
send of the second directory, which nothing will ever receive: no step is possible
from that state, in which the producer has not left `generateDirs`. -/
theorem generateDirs_blocked_forever :
    leakRule.generateDirs leakEnv
      = ([dirInfo.mk "g/a" none, dirInfo.mk "g/b" none], true) ∧
    leakRule.gather leakEnv [] = ([], some (Fault.error "open g/a/f: permission denied")) ∧
    GatherState.run leakRule leakEnv 1 (GatherState.init leakRule leakEnv [])
      = GatherState.mk [dirInfo.mk "g/b" none] true
          (.returned [] (some (Fault.error "open g/a/f: permission denied"))) ∧
    (GatherState.mk [dirInfo.mk "g/b" none] true
      (.returned [] (some (Fault.error "open g/a/f: permission denied")))).step
        leakRule leakEnv = none ∧
    (GatherState.mk [dirInfo.mk "g/b" none] true
      (.returned [] (some (Fault.error "open g/a/f: permission denied")))).producerDone
        = false ∧
    ∀ n, GatherState.run leakRule leakEnv (n + 1) (GatherState.init leakRule leakEnv [])
      = GatherState.mk [dirInfo.mk "g/b" none] true
          (.returned [] (some (Fault.error "open g/a/f: permission denied"))) := by
  have h1 : GatherState.run leakRule leakEnv 1 (GatherState.init leakRule leakEnv [])
      = GatherState.mk [dirInfo.mk "g/b" none] true
          (.returned [] (some (Fault.error "open g/a/f: permission denied"))) := by
    decide
  have hstep : (GatherState.init leakRule leakEnv []).step leakRule leakEnv
      = some (GatherState.mk [dirInfo.mk "g/b" none] true
          (.returned [] (some (Fault.error "open g/a/f: permission denied")))) := by
    decide
  refine ⟨by decide, by decide, h1, rfl, rfl, ?_⟩
  intro n
  rw [GatherState.run, hstep]
  exact run_returned _ _ _ _ _ _ n

end Producer

end Cgroup
